import Mathlib

/-!
# CAAnimate: a continuous cellular automaton on a toroidal grid

A shallow embedding of the simulation kernel of `src/CAAnimate.cpp`: the two
buffers `cells` / `nextCells`, the constructor that zero-fills and seeds them,
and the update half of `DoFrame`.

Modelling conventions.

* Cell values are elements of a linearly ordered field `α`.  The arithmetic of
  the source is a parameter `A : Arith α` of the kernel: `A.f32` is the
  rounding of a result that C++ computes or stores as a `float`, `A.f64` the
  rounding of a result computed as a `double`, and `A.exp` the library function
  `exp` on `double`s.  Every operation of source lines 80-94 is rounded
  according to the C++ type of its result (usual arithmetic conversions, each
  operation rounded on its own: no fused multiply-add, no extended
  precision).
* `ieeeArith exp` is the arithmetic of the program: `A.f32` and `A.f64` are
  IEEE 754 round-to-nearest, ties-to-even, to binary32 and binary64 with
  gradual underflow, and `A.exp` is the correctly rounded `exp`.  Overflow is not
  represented; the `float` variables of the source stay below 32 in absolute
  value, and the only `double` that can overflow is the result of `exp`, which
  is used only through `1.0 / (1.0 + exp(..))` stored in a `float`: where the
  program computes `1.0 / inf = 0`, the unbounded rounding computes a positive
  number below the least `float`, which is stored as 0 as well.
  `exactArith exp` is the arithmetic without rounding.  Statements that depend
  on values of the exponential are made at `α := ℝ` with `Real.exp`.
* A `std::vector<std::vector<float>>` is a `List (List α)`, indexed `g[x][y]`
  (outer index is the column `x`, inner index is the row `y`).
* An out-of-range vector access and a remainder by zero are undefined behaviour
  in C++; here they make the operation return `none`.
* The C++ operator `%` on `int` is truncating remainder, `Int.tmod`.  Other
  `int` arithmetic is arithmetic on `Int`: every `int` the kernel computes lies
  between `-1` and `2 * max W H`, inside the 32-bit range for extents below
  `2^30` (in particular for 15 and 10).
* `rand()` is a stream `rand : ℕ → ℕ`; the `k`-th call returns `rand k`.
* The grid extents `num_w_boxes`, `num_h_boxes` are compile-time constants in
  the source (15 and 10); the kernel below takes them as parameters `W`, `H`
  so that statements about other extents can be made.
* The rendering half of `DoFrame` only reads `cells[x][y]` for the same index
  range as the update loop and draws on the canvas; it is left out.
-/

namespace CAAnimate

/-- Number of cells vertically (source line 11). -/
def num_h_boxes : Nat := 10

/-- Number of cells horizontally (source line 12). -/
def num_w_boxes : Nat := 15

/-- The automaton state of class `CAAnimator`: the current buffer and the
buffer that receives the next generation. -/
structure CAAnimator (α : Type) where
  cells : List (List α)
  nextCells : List (List α)

/-- The arithmetic of the source: rounding of `float` results, rounding of
`double` results, and the library function `exp`. -/
structure Arith (α : Type) where
  f32 : α → α
  f64 : α → α
  exp : α → α

section Rounding

variable {α : Type} [LinearOrderedField α] [FloorRing α]

/-- Rounding to the nearest integer, ties to the even one. -/
def roundHalfEven (y : α) : Int :=
  if y - ⌊y⌋ < 1 / 2 then ⌊y⌋
  else if 1 / 2 < y - ⌊y⌋ then ⌊y⌋ + 1
  else if ⌊y⌋ % 2 = 0 then ⌊y⌋ else ⌊y⌋ + 1

/-- The exponent of the unit in the last place of `x` in a binary format with
precision `p` and least normal exponent `emin` (gradual underflow below it). -/
def ulpExp (p : Nat) (emin : Int) (x : α) : Int :=
  max (Int.log 2 |x|) emin - ((p : Int) - 1)

/-- IEEE 754 round-to-nearest, ties-to-even, to the binary format with
precision `p` and least normal exponent `emin`; overflow is not represented. -/
def roundNearest (p : Nat) (emin : Int) (x : α) : α :=
  (roundHalfEven (x / 2 ^ ulpExp p emin x) : α) * 2 ^ ulpExp p emin x

/-- Rounding to binary32, the format of `float`. -/
def binary32 (x : α) : α := roundNearest 24 (-126) x

/-- Rounding to binary64, the format of `double`. -/
def binary64 (x : α) : α := roundNearest 53 (-1022) x

/-- The arithmetic of the program: binary32 for `float`, binary64 for
`double`, and `exp` correctly rounded to binary64. -/
def ieeeArith (exp : α → α) : Arith α where
  f32 := binary32
  f64 := binary64
  exp := fun z => binary64 (exp z)

end Rounding

section Kernel

variable {α : Type} [LinearOrderedField α]

/-- The arithmetic without rounding. -/
def exactArith (exp : α → α) : Arith α where
  f32 := fun v => v
  f64 := fun v => v
  exp := exp

/-- The C++ expression `a % b` on `int`: truncating remainder, undefined for
`b = 0`. -/
def imod (a b : Int) : Option Int :=
  if b = 0 then none else some (Int.tmod a b)

/-- The read `g[i][j]` with `int` indices; an index outside the vector is
undefined behaviour, rendered as `none`. -/
def readCell (g : List (List α)) (i j : Int) : Option α :=
  if 0 ≤ i ∧ 0 ≤ j then
    match g[i.toNat]? with
    | none => none
    | some col => col[j.toNat]?
  else none

/-- The write `g[i][j] = v` with `int` indices; `none` when the index is
outside the vector. -/
def writeCell (g : List (List α)) (i j : Int) (v : α) : Option (List (List α)) :=
  if 0 ≤ i ∧ 0 ≤ j then
    match g[i.toNat]? with
    | none => none
    | some col =>
      if j.toNat < col.length then some (g.set i.toNat (col.set j.toNat v)) else none
  else none

/-- The values taken by the loop variables `dx` and `dy` (source lines 75-76). -/
def offsets : List Int := [-1, 0, 1]

/-- The wrapped read of source lines 78-80 at the unwrapped position `(i, j)`
(`i` is `x + dx`, `j` is `y + dy`): `cells[(i + W) % W][(j + H) % H]`. -/
def wrappedRead (W H : Nat) (cells : List (List α)) (i j : Int) : Option α := do
  let nx ← imod (i + W) W
  let ny ← imod (j + H) H
  readCell cells nx ny

/-- Body of the innermost loop (source lines 78-81): read the wrapped
neighbour, add it to the `float` `sum`, increment `count`. -/
def neighborBody (A : Arith α) (W H : Nat) (cells : List (List α)) (x y dx : Int)
    (acc : α × Int) (dy : Int) : Option (α × Int) := do
  let v ← wrappedRead W H cells (x + dx) (y + dy)
  pure (A.f32 (acc.1 + v), acc.2 + 1)

/-- The two neighbour loops (source lines 72-83), returning `(sum, count)`. -/
def neighborSum (A : Arith α) (W H : Nat) (cells : List (List α)) (x y : Int) :
    Option (α × Int) :=
  offsets.foldlM
    (fun acc dx => offsets.foldlM (neighborBody A W H cells x y dx) acc) (0, 0)

/-- The value `average` of source line 85: `count` is converted to `float` and
the quotient is a `float` division. -/
def average (A : Arith α) (sum : α) (count : Int) : α :=
  A.f32 (sum / (count : α))

/-- The `double` expression `1.0 / (1.0 + exp(z))` of source lines 89-91. -/
def invOnePlusExp (A : Arith α) (z : α) : α :=
  A.f64 (1 / A.f64 (1 + A.exp z))

/-- The value `birth` of source line 89: `average - 0.3` and the product with
`-20` are `double` operations, the result is stored in a `float`. -/
def birth (A : Arith α) (average : α) : α :=
  A.f32 (invOnePlusExp A (A.f64 (-20 * A.f64 (average - A.f64 0.3))))

/-- The value `death` of source line 90. -/
def death (A : Arith α) (average : α) : α :=
  A.f32 (invOnePlusExp A (A.f64 (-20 * A.f64 (average - A.f64 0.4))))

/-- The divisor `death - birth + 1e-6` of source line 91: a `float`
subtraction, then a `double` addition. -/
def denominator (A : Arith α) (average : α) : α :=
  A.f64 (A.f32 (death A average - birth A average) + A.f64 1e-6)

/-- The value `s` of source line 91: `current - birth` and its product with
`-20` are `float` operations, the quotient by the `double` divisor is a
`double` operation, the result is stored in a `float`. -/
def sValue (A : Arith α) (average current : α) : α :=
  A.f32 (invOnePlusExp A
    (A.f64 (A.f32 (-20 * A.f32 (current - birth A average)) / denominator A average)))

/-- The two clamping statements of source lines 97-98. -/
def clamp (next : α) : α :=
  let next := if next < 0 then 0 else next
  if next > 1 then 1 else next

/-- The value `next` of source line 94, before the two clamping statements:
four `float` operations with the `float` constant `0.1f`. -/
def unclampedNext (A : Arith α) (average current : α) : α :=
  A.f32 (current + A.f32 (A.f32 0.1 * A.f32 (A.f32 (2 * sValue A average current) - 1)))

/-- The value stored for a cell (source lines 88-98) from the neighbourhood
mean and the cell's own value. -/
def transition (A : Arith α) (average current : α) : α :=
  let s := sValue A average current
  let next := A.f32 (current + A.f32 (A.f32 0.1 * A.f32 (A.f32 (2 * s) - 1)))
  clamp next

/-- Body of the update loops for one cell `(x, y)` (source lines 70-101). -/
def updateCell (W H : Nat) (A : Arith α) (a : CAAnimator α) (x y : Nat) :
    Option (CAAnimator α) := do
  let (sum, count) ← neighborSum A W H a.cells x y
  let average := average A sum count
  let current ← readCell a.cells x y
  let next := transition A average current
  let nc ← writeCell a.nextCells x y next
  pure { a with nextCells := nc }

/-- The update loops over all cells (source lines 68-103). -/
def updateLoop (W H : Nat) (A : Arith α) (a : CAAnimator α) : Option (CAAnimator α) :=
  (List.range W).foldlM
    (fun a x => (List.range H).foldlM (fun a y => updateCell W H A a x y) a) a

/-- The update half of `DoFrame` (source lines 68-106): run the update loops,
then `std::swap(cells, nextCells)`. -/
def DoFrame (W H : Nat) (A : Arith α) (a : CAAnimator α) : Option (CAAnimator α) := do
  let a ← updateLoop W H A a
  pure { cells := a.nextCells, nextCells := a.cells }

/-- Body of the seeding loop (source lines 41-43); the second component of the
state counts the calls made to `rand()`. -/
def seedBody (W H : Nat) (rand : Nat → Nat) (st : CAAnimator α × Nat) (_i : Nat) :
    Option (CAAnimator α × Nat) := do
  let cx ← imod (rand st.2) W
  let cy ← imod (rand (st.2 + 1)) H
  let c ← writeCell st.1.cells cx cy 1
  pure ({ st.1 with cells := c }, st.2 + 2)

/-- The state part of the constructor (source lines 36-44): zero-fill both
buffers, then seed five random cells with 1. -/
def construct (W H : Nat) (rand : Nat → Nat) : Option (CAAnimator α) := do
  let cells := List.replicate W (List.replicate H (0 : α))
  let nextCells := cells
  let st ← (List.range 5).foldlM (seedBody W H rand) (⟨cells, nextCells⟩, 0)
  pure st.1

/-- The state after the constructor and `n` frames. -/
def run (W H : Nat) (A : Arith α) (rand : Nat → Nat) : Nat → Option (CAAnimator α)
  | 0 => construct W H rand
  | n + 1 => (run W H A rand n).bind (DoFrame W H A)

/-- The state after `n` frames from a given state. -/
def frames (W H : Nat) (A : Arith α) : Nat → CAAnimator α → Option (CAAnimator α)
  | 0, a => some a
  | n + 1, a => (frames W H A n a).bind (DoFrame W H A)

end Kernel

/-! ## Vocabulary for the statements -/

section Vocabulary

variable {α : Type} [LinearOrderedField α]

/-- A buffer has `W` columns of `H` values each. -/
def Shape (W H : Nat) (g : List (List α)) : Prop :=
  g.length = W ∧ ∀ col ∈ g, col.length = H

/-- The value at column `x`, row `y` of a buffer (0 outside the buffer). -/
def cellAt (g : List (List α)) (x y : Nat) : α :=
  ((g[x]?.getD [])[y]?).getD 0

/-- The zero-filled `W × H` buffer. -/
def zeroGrid (W H : Nat) : List (List α) :=
  List.replicate W (List.replicate H 0)

/-- The mathematical residue of `i` modulo `n`, as a vector index. -/
def wrapIdx (n : Nat) (i : Int) : Nat := (i % (n : Int)).toNat

/-- The nine neighbourhood values of `(x, y)` in the order the loops visit
them, at toroidally wrapped positions. -/
def neighborValues (W H : Nat) (g : List (List α)) (x y : Nat) : List α :=
  offsets.flatMap fun dx => offsets.map fun dy =>
    cellAt g (wrapIdx W ((x : Int) + dx)) (wrapIdx H ((y : Int) + dy))

/-- The `float` accumulation `sum += v` over a list of values, from 0. -/
def floatSum (A : Arith α) (l : List α) : α :=
  l.foldl (fun s v => A.f32 (s + v)) 0

/-- The neighbourhood mean the program computes for cell `(x, y)`: the `float`
sum of the nine neighbourhood values, divided by 9 as a `float`. -/
def neighborMean (W H : Nat) (A : Arith α) (g : List (List α)) (x y : Nat) : α :=
  average A (floatSum A (neighborValues W H g x y)) 9

/-- The value the update loops store for cell `(x, y)` when reading buffer `g`. -/
def nextValue (W H : Nat) (A : Arith α) (g : List (List α)) (x y : Nat) : α :=
  transition A (neighborMean W H A g x y) (cellAt g x y)

/-- The buffer of all `nextValue`s. -/
def nextGrid (W H : Nat) (A : Arith α) (g : List (List α)) : List (List α) :=
  (List.range W).map fun x => (List.range H).map fun y => nextValue W H A g x y

/-- Loop invariant of the row loop for column `x`, after `k` rows. -/
def RowInv (W H : Nat) (A : Arith α) (c n0 : List (List α)) (x k : Nat)
    (a : CAAnimator α) : Prop :=
  a.cells = c ∧ Shape W H a.nextCells ∧
    ∀ i j, cellAt a.nextCells i j =
      if i = x ∧ j < k then nextValue W H A c x j else cellAt n0 i j

/-- Loop invariant of the column loop, after `k` columns. -/
def ColInv (W H : Nat) (A : Arith α) (c n0 : List (List α)) (k : Nat)
    (a : CAAnimator α) : Prop :=
  a.cells = c ∧ Shape W H a.nextCells ∧
    ∀ i j, j < H → cellAt a.nextCells i j =
      if i < k then nextValue W H A c i j else cellAt n0 i j

/-- Every value stored in the buffer lies in the closed interval `[0, 1]`. -/
def InUnit (g : List (List α)) : Prop :=
  ∀ col ∈ g, ∀ v ∈ col, 0 ≤ v ∧ v ≤ 1

namespace Spec

/-- The logistic function `sigmoid(z) = 1 / (1 + exp(-z))`. -/
def sigmoid (exp : α → α) (z : α) : α := 1 / (1 + exp (-z))

/-- Clipping to `[0, 1]`. -/
def clamp01 (v : α) : α := max 0 (min 1 v)

/-- The arithmetic mean of the nine neighbourhood values. -/
def mean (W H : Nat) (g : List (List α)) (x y : Nat) : α :=
  (neighborValues W H g x y).sum / 9

/-- The value the specification assigns to cell `(x, y)` after a step from
current buffer `g`, in real arithmetic. -/
def stepValue (W H : Nat) (exp : α → α) (g : List (List α)) (x y : Nat) : α :=
  let c := cellAt g x y
  let average := mean W H g x y
  let birth := sigmoid exp (20 * (average - 0.3))
  let death := sigmoid exp (20 * (average - 0.4))
  let s := sigmoid exp (20 * (c - birth) / (death - birth + 1e-6))
  clamp01 (c + 0.1 * (2 * s - 1))

end Spec

/-- The number of cells of a buffer whose value is exactly 1. -/
def countOnes (g : List (List α)) : Nat :=
  (g.map fun col => col.count 1).sum

/-- Cell `(x, y)` is one of the first `n` picks of the seeding loop. -/
def Picked (W H : Nat) (rand : Nat → Nat) (n x y : Nat) : Prop :=
  ∃ i, i < n ∧ x = rand (2 * i) % W ∧ y = rand (2 * i + 1) % H

/-- Loop invariant of the seeding loop, after `n` picks. -/
def SeedInv (W H : Nat) (rand : Nat → Nat) (n : Nat) (st : CAAnimator α × Nat) : Prop :=
  st.2 = 2 * n ∧ st.1.nextCells = zeroGrid W H ∧ Shape W H st.1.cells ∧
    countOnes st.1.cells ≤ n ∧
    ∀ x y, (Picked W H rand n x y → cellAt st.1.cells x y = 1) ∧
      (¬ Picked W H rand n x y → cellAt st.1.cells x y = 0)

/-- Cell `q` is `p` itself or one of the eight toroidal neighbours of `p`. -/
def IsNeighbor (W H : Nat) (p q : Nat × Nat) : Prop :=
  ∃ dx ∈ offsets, ∃ dy ∈ offsets,
    q = (wrapIdx W ((p.1 : Int) + dx), wrapIdx H ((p.2 : Int) + dy))

/-- One-dimensional form of `IsNeighbor`. -/
def Near (n p q : Nat) : Prop :=
  q = wrapIdx n ((p : Int) + -1) ∨ q = wrapIdx n ((p : Int) + 0) ∨ q = wrapIdx n ((p : Int) + 1)

/-- The indicator, as a cell value, of "offset `e` from `q` wraps to `p`". -/
def hit (n q : Nat) (e : Int) (p : Nat) : α :=
  if wrapIdx n ((q : Int) + e) = p then 1 else 0

/-- The `W × H` buffer that is 0 everywhere except for a 1 at cell `p`. -/
def singleSeed (W H : Nat) (p : Nat × Nat) : List (List α) :=
  (zeroGrid W H).set p.1 ((List.replicate H 0).set p.2 1)

/-- The `W × H` buffer holding `c` in every cell. -/
def constGrid (W H : Nat) (c : α) : List (List α) :=
  List.replicate W (List.replicate H c)

/-- The value `z` is representable in a 32-bit `int`. -/
def FitsInt32 (z : Int) : Prop := -2 ^ 31 ≤ z ∧ z < 2 ^ 31

/-- The toroidal shift of a buffer by `(a, b)`: cell `(x, y)` of the result
holds the value of cell `((x + a) mod W, (y + b) mod H)` of `g`. -/
def shiftGrid (W H : Nat) (a b : Int) (g : List (List α)) : List (List α) :=
  (List.range W).map fun (x : Nat) => (List.range H).map fun (y : Nat) =>
    cellAt g (wrapIdx W ((x : Int) + a)) (wrapIdx H ((y : Int) + b))

/-- The `float` constant `0.1f`. -/
def tenthF : α := 13421773 / 134217728

/-- The `float` nearest to `1/9`. -/
def ninthF : α := 14913081 / 134217728

/-- The `float` the program stores for `1.0f - 0.1f` (bit pattern `0x3f666666`). -/
def nineTenthsF : α := 15099494 / 16777216

end Vocabulary

/-! ## Rounding to nearest -/

section RoundingLemmas

variable {α : Type} [LinearOrderedField α] [FloorRing α]

theorem roundHalfEven_cases (y : α) :
    (roundHalfEven y = ⌊y⌋ ∧ y - ⌊y⌋ ≤ 1 / 2) ∨
      (roundHalfEven y = ⌊y⌋ + 1 ∧ 1 / 2 ≤ y - ⌊y⌋) := by
  unfold roundHalfEven
  split_ifs with h1 h2 h3
  · exact Or.inl ⟨rfl, le_of_lt h1⟩
  · exact Or.inr ⟨rfl, le_of_lt h2⟩
  · exact Or.inl ⟨rfl, le_of_not_lt h2⟩
  · exact Or.inr ⟨rfl, le_of_not_lt h1⟩

theorem roundHalfEven_dist (y : α) : |((roundHalfEven y : Int) : α) - y| ≤ 1 / 2 := by
  have hf := Int.floor_le y
  have hl := Int.lt_floor_add_one y
  rw [abs_le]
  rcases roundHalfEven_cases y with ⟨h, h2⟩ | ⟨h, h2⟩
  · rw [h]; constructor <;> linarith
  · rw [h]; push_cast; constructor <;> linarith

/-- An integer strictly within 1/2 of `y` is the rounding of `y`. -/
theorem roundHalfEven_eq_of_close {y : α} {m : Int} (h : |y - (m : α)| < 1 / 2) :
    roundHalfEven y = m := by
  have hd := roundHalfEven_dist y
  rw [abs_lt] at h
  rw [abs_le] at hd
  have h1 : (((roundHalfEven y : Int) : α) - m) < 1 := by linarith
  have h2 : (-1 : α) < ((roundHalfEven y : Int) : α) - m := by linarith
  have h3 : roundHalfEven y - m < 1 := by exact_mod_cast h1
  have h4 : -1 < roundHalfEven y - m := by exact_mod_cast h2
  omega

theorem roundHalfEven_intCast (n : Int) : roundHalfEven (n : α) = n :=
  roundHalfEven_eq_of_close (by simp)

theorem roundHalfEven_mono {x y : α} (h : x ≤ y) : roundHalfEven x ≤ roundHalfEven y := by
  have hfx := Int.floor_le x
  have hlx := Int.lt_floor_add_one x
  have hfy := Int.floor_le y
  have hly := Int.lt_floor_add_one y
  have hfl : ⌊x⌋ ≤ ⌊y⌋ := Int.floor_mono h
  rcases lt_or_eq_of_le hfl with hlt | heq
  · -- different floors
    have h1 : roundHalfEven x ≤ ⌊x⌋ + 1 := by
      rcases roundHalfEven_cases x with ⟨hx, -⟩ | ⟨hx, -⟩ <;> omega
    have h2 : ⌊y⌋ ≤ roundHalfEven y := by
      rcases roundHalfEven_cases y with ⟨hy, -⟩ | ⟨hy, -⟩ <;> omega
    omega
  · -- same floor
    unfold roundHalfEven
    rw [heq]
    have hxy : x - (⌊y⌋ : α) ≤ y - (⌊y⌋ : α) := by linarith
    split_ifs <;> first | omega | (exfalso; linarith)

theorem roundHalfEven_neg (y : α) : roundHalfEven (-y) = -roundHalfEven y := by
  by_cases hint : (⌊y⌋ : α) = y
  · rw [← hint, ← Int.cast_neg, roundHalfEven_intCast, roundHalfEven_intCast]
  · have hf := Int.floor_le y
    have hl := Int.lt_floor_add_one y
    have hlt : (⌊y⌋ : α) < y := lt_of_le_of_ne hf hint
    have hfn : ⌊-y⌋ = -⌊y⌋ - 1 := by
      rw [Int.floor_eq_iff]
      push_cast
      constructor <;> linarith
    unfold roundHalfEven
    rw [hfn]
    push_cast
    have e : -y - (-(⌊y⌋ : α) - 1) = 1 - (y - ⌊y⌋) := by ring
    rw [e]
    split_ifs <;> first | omega | (exfalso; linarith)

omit [FloorRing α] in
theorem two_zpow_pos (q : Int) : (0 : α) < 2 ^ q := zpow_pos (by norm_num) q

theorem ulpExp_neg (p : Nat) (emin : Int) (x : α) : ulpExp p emin (-x) = ulpExp p emin x := by
  unfold ulpExp
  rw [abs_neg]

theorem roundNearest_neg (p : Nat) (emin : Int) (x : α) :
    roundNearest p emin (-x) = -roundNearest p emin x := by
  unfold roundNearest
  rw [ulpExp_neg, neg_div, roundHalfEven_neg]
  push_cast
  ring

theorem roundNearest_zero (p : Nat) (emin : Int) : roundNearest p emin (0 : α) = 0 := by
  unfold roundNearest
  rw [zero_div]
  have : roundHalfEven (0 : α) = 0 := by
    have := roundHalfEven_intCast (α := α) 0
    simpa using this
  rw [this]
  simp

/-- Every `x` lies below the top of its binade. -/
theorem abs_lt_two_zpow (p : Nat) (emin : Int) (x : α) :
    |x| < 2 ^ (ulpExp p emin x + p) := by
  have h := Int.lt_zpow_succ_log_self (b := 2) (by norm_num) |x|
  have h2 : Int.log 2 |x| + 1 ≤ ulpExp p emin x + p := by
    unfold ulpExp
    have := le_max_left (Int.log 2 |x|) emin
    omega
  have h3 : ((2 : Nat) : α) ^ (Int.log 2 |x| + 1) ≤ ((2 : Nat) : α) ^ (ulpExp p emin x + p) :=
    zpow_le_zpow_right₀ (by norm_num) h2
  have h4 := lt_of_lt_of_le h h3
  simpa using h4

/-- A non-zero `x` in the normal range lies above the bottom of its binade. -/
theorem two_zpow_le_abs {p : Nat} {emin : Int} {x : α} (hx : x ≠ 0)
    (hn : emin ≤ Int.log 2 |x|) : 2 ^ (ulpExp p emin x + p - 1) ≤ |x| := by
  have h := Int.zpow_log_le_self (b := 2) (by norm_num) (abs_pos.mpr hx)
  have h2 : ulpExp p emin x + p - 1 = Int.log 2 |x| := by
    unfold ulpExp
    rw [max_eq_left hn]
    ring
  rw [h2]
  simpa using h

theorem roundNearest_nonneg (p : Nat) (emin : Int) {x : α} (hx : 0 ≤ x) :
    0 ≤ roundNearest p emin x := by
  unfold roundNearest
  apply mul_nonneg _ (le_of_lt (two_zpow_pos _))
  have h0 : (0 : α) ≤ x / 2 ^ ulpExp p emin x := div_nonneg hx (le_of_lt (two_zpow_pos _))
  have h1 := roundHalfEven_mono h0
  have h2 : roundHalfEven (0 : α) = 0 := by
    have := roundHalfEven_intCast (α := α) 0
    simpa using this
  rw [h2] at h1
  exact_mod_cast h1

/-- The rounding of a non-negative `x` does not exceed the top of its binade. -/
theorem roundNearest_le_top (p : Nat) (emin : Int) {x : α} (hx : 0 ≤ x) :
    roundNearest p emin x ≤ 2 ^ (ulpExp p emin x + p) := by
  have h := abs_lt_two_zpow p emin x
  rw [abs_of_nonneg hx] at h
  have hq := two_zpow_pos (α := α) (ulpExp p emin x)
  have h1 : x / 2 ^ ulpExp p emin x ≤ (((2 : Int) ^ p : Int) : α) := by
    rw [div_le_iff₀ hq]
    push_cast
    rw [← zpow_natCast, ← zpow_add₀ (by norm_num : (2 : α) ≠ 0), add_comm]
    exact le_of_lt h
  have h2 := roundHalfEven_mono h1
  rw [roundHalfEven_intCast] at h2
  have h3 : ((roundHalfEven (x / 2 ^ ulpExp p emin x) : Int) : α) ≤ (((2 : Int) ^ p : Int) : α) := by
    exact_mod_cast h2
  unfold roundNearest
  calc ((roundHalfEven (x / 2 ^ ulpExp p emin x) : Int) : α) * 2 ^ ulpExp p emin x
      ≤ (((2 : Int) ^ p : Int) : α) * 2 ^ ulpExp p emin x :=
        mul_le_mul_of_nonneg_right h3 (le_of_lt hq)
    _ = 2 ^ (ulpExp p emin x + p) := by
        push_cast
        rw [← zpow_natCast, ← zpow_add₀ (by norm_num : (2 : α) ≠ 0), add_comm]

/-- The rounding of a positive `x` in the normal range is at least the
bottom of its binade. -/
theorem bottom_le_roundNearest {p : Nat} (hp : 1 ≤ p) {emin : Int} {x : α} (hx : 0 < x)
    (hn : emin ≤ Int.log 2 |x|) : 2 ^ (ulpExp p emin x + p - 1) ≤ roundNearest p emin x := by
  have h := two_zpow_le_abs (p := p) (ne_of_gt hx) hn
  rw [abs_of_pos hx] at h
  have hq := two_zpow_pos (α := α) (ulpExp p emin x)
  have h1 : (((2 : Int) ^ (p - 1) : Int) : α) ≤ x / 2 ^ ulpExp p emin x := by
    rw [le_div_iff₀ hq]
    push_cast
    rw [← zpow_natCast, ← zpow_add₀ (by norm_num : (2 : α) ≠ 0)]
    have e : ((p - 1 : Nat) : Int) + ulpExp p emin x = ulpExp p emin x + p - 1 := by omega
    rw [e]
    exact h
  have h2 := roundHalfEven_mono h1
  rw [roundHalfEven_intCast] at h2
  have h3 : (((2 : Int) ^ (p - 1) : Int) : α) ≤
      ((roundHalfEven (x / 2 ^ ulpExp p emin x) : Int) : α) := by exact_mod_cast h2
  unfold roundNearest
  calc (2 : α) ^ (ulpExp p emin x + p - 1)
      = (((2 : Int) ^ (p - 1) : Int) : α) * 2 ^ ulpExp p emin x := by
        push_cast
        rw [← zpow_natCast, ← zpow_add₀ (by norm_num : (2 : α) ≠ 0)]
        congr 1
        omega
    _ ≤ _ := mul_le_mul_of_nonneg_right h3 (le_of_lt hq)

theorem roundNearest_mono_of_nonneg {p : Nat} (hp : 1 ≤ p) (emin : Int) {x y : α}
    (hx : 0 ≤ x) (h : x ≤ y) : roundNearest p emin x ≤ roundNearest p emin y := by
  rcases eq_or_lt_of_le hx with h0 | hpos
  · rw [← h0, roundNearest_zero]
    exact roundNearest_nonneg p emin (le_trans hx h)
  have hy : 0 < y := lt_of_lt_of_le hpos h
  have hlog : Int.log 2 |x| ≤ Int.log 2 |y| := by
    rw [abs_of_pos hpos, abs_of_pos hy]
    exact Int.log_mono_right hpos h
  have hq : ulpExp p emin x ≤ ulpExp p emin y := by
    unfold ulpExp
    have := max_le_max hlog (le_refl emin)
    omega
  rcases eq_or_lt_of_le hq with heq | hlt
  · unfold roundNearest
    rw [heq]
    have hq2 := two_zpow_pos (α := α) (ulpExp p emin y)
    have h1 : x / 2 ^ ulpExp p emin y ≤ y / 2 ^ ulpExp p emin y :=
      div_le_div_of_nonneg_right h (le_of_lt hq2)
    have h2 := roundHalfEven_mono h1
    have h3 : ((roundHalfEven (x / 2 ^ ulpExp p emin y) : Int) : α) ≤
        ((roundHalfEven (y / 2 ^ ulpExp p emin y) : Int) : α) := by exact_mod_cast h2
    exact mul_le_mul_of_nonneg_right h3 (le_of_lt hq2)
  · have hn : emin ≤ Int.log 2 |y| := by
      unfold ulpExp at hlt
      by_contra hc
      push_neg at hc
      have e1 : max (Int.log 2 |y|) emin = emin := max_eq_right (le_of_lt hc)
      have e2 := le_max_right (Int.log 2 |x|) emin
      omega
    have h1 := roundNearest_le_top p emin hx
    have h2 := bottom_le_roundNearest hp hy hn
    have h3 : (2 : α) ^ (ulpExp p emin x + p) ≤ 2 ^ (ulpExp p emin y + p - 1) :=
      zpow_le_zpow_right₀ (by norm_num) (by omega)
    linarith

/-- Rounding is monotone. -/
theorem roundNearest_mono {p : Nat} (hp : 1 ≤ p) (emin : Int) {x y : α} (h : x ≤ y) :
    roundNearest p emin x ≤ roundNearest p emin y := by
  rcases le_total 0 x with hx | hx
  · exact roundNearest_mono_of_nonneg hp emin hx h
  · rcases le_total 0 y with hy | hy
    · have h1 := roundNearest_nonneg p emin (neg_nonneg.mpr hx)
      rw [roundNearest_neg] at h1
      have h2 := roundNearest_nonneg p emin hy
      linarith
    · have h1 := roundNearest_mono_of_nonneg hp emin (neg_nonneg.mpr hy) (neg_le_neg h)
      rw [roundNearest_neg, roundNearest_neg] at h1
      linarith

theorem log_eq_of_bounds {x : α} {e : Int} (h1 : 2 ^ e ≤ |x|) (h2 : |x| < 2 ^ (e + 1)) :
    Int.log 2 |x| = e := by
  have hpos : 0 < |x| := lt_of_lt_of_le (two_zpow_pos e) h1
  have a1 : e ≤ Int.log 2 |x| := by
    rw [← Int.zpow_le_iff_le_log (b := 2) (by norm_num) hpos]
    simpa using h1
  have a2 : Int.log 2 |x| < e + 1 := by
    rw [← Int.lt_zpow_iff_log_lt (b := 2) (by norm_num) hpos]
    simpa using h2
  omega

theorem ulpExp_eq_of_bounds (p : Nat) {emin : Int} {x : α} {e : Int} (h1 : 2 ^ e ≤ |x|)
    (h2 : |x| < 2 ^ (e + 1)) (he : emin ≤ e) : ulpExp p emin x = e - ((p : Int) - 1) := by
  unfold ulpExp
  rw [log_eq_of_bounds h1 h2, max_eq_left he]

/-- Evaluation of a rounding: in the binade `[2^e, 2^(e+1))` the result is the
multiple `m` of the unit in the last place that lies within half a unit. -/
theorem roundNearest_eval (p : Nat) {emin : Int} {x : α} {e : Int} {m : Int}
    (h1 : 2 ^ e ≤ |x|) (h2 : |x| < 2 ^ (e + 1)) (he : emin ≤ e)
    (hm : |x / 2 ^ (e - ((p : Int) - 1)) - (m : α)| < 1 / 2) :
    roundNearest p emin x = (m : α) * 2 ^ (e - ((p : Int) - 1)) := by
  unfold roundNearest
  rw [ulpExp_eq_of_bounds p h1 h2 he, roundHalfEven_eq_of_close hm]

theorem ulpExp_le_of_lt {p : Nat} {emin : Int} {x : α} {e : Int} (hx : x ≠ 0)
    (h2 : |x| < 2 ^ (e + 1)) (he : emin ≤ e) : ulpExp p emin x ≤ e - ((p : Int) - 1) := by
  unfold ulpExp
  have hpos : 0 < |x| := abs_pos.mpr hx
  have a2 : Int.log 2 |x| < e + 1 := by
    rw [← Int.lt_zpow_iff_log_lt (b := 2) (by norm_num) hpos]
    simpa using h2
  have := max_le (show Int.log 2 |x| ≤ e by omega) he
  omega

/-- The rounding error is at most half a unit in the last place. -/
theorem roundNearest_dist (p : Nat) (emin : Int) (x : α) :
    |roundNearest p emin x - x| ≤ 2 ^ ulpExp p emin x / 2 := by
  have hq := two_zpow_pos (α := α) (ulpExp p emin x)
  have h := roundHalfEven_dist (x / 2 ^ ulpExp p emin x)
  have e : roundNearest p emin x - x =
      (((roundHalfEven (x / 2 ^ ulpExp p emin x) : Int) : α) - x / 2 ^ ulpExp p emin x) *
        2 ^ ulpExp p emin x := by
    unfold roundNearest
    field_simp
  rw [e, abs_mul, abs_of_pos hq]
  calc _ ≤ 1 / 2 * 2 ^ ulpExp p emin x := mul_le_mul_of_nonneg_right h (le_of_lt hq)
    _ = _ := by ring

/-- Below `2^(e+1)` the rounding error is at most `2^(e-p)`. -/
theorem roundNearest_dist_le {p : Nat} {emin : Int} {x : α} {e : Int}
    (h2 : |x| < 2 ^ (e + 1)) (he : emin ≤ e) :
    |roundNearest p emin x - x| ≤ 2 ^ (e - (p : Int)) := by
  rcases eq_or_ne x 0 with h0 | h0
  · rw [h0, roundNearest_zero, sub_zero, abs_zero]
    exact le_of_lt (two_zpow_pos _)
  have h := roundNearest_dist p emin x
  have hq : ulpExp p emin x ≤ e - ((p : Int) - 1) := ulpExp_le_of_lt h0 h2 he
  have h3 : (2 : α) ^ ulpExp p emin x ≤ 2 ^ (e - ((p : Int) - 1)) :=
    zpow_le_zpow_right₀ (by norm_num) hq
  have h4 : (2 : α) ^ (e - ((p : Int) - 1)) = 2 ^ (e - (p : Int)) * 2 := by
    rw [← zpow_add_one₀ (by norm_num : (2 : α) ≠ 0)]
    congr 1
    ring
  rw [h4] at h3
  linarith

/-- In the normal range the rounding error is at most `2^-p` times `|x|`. -/
theorem roundNearest_relative {p : Nat} {emin : Int} {x : α}
    (hn : emin ≤ Int.log 2 |x|) (hx : x ≠ 0) :
    |roundNearest p emin x - x| ≤ 2 ^ (-(p : Int)) * |x| := by
  have h := roundNearest_dist p emin x
  have hb := two_zpow_le_abs (p := p) hx hn
  have e : (2 : α) ^ (ulpExp p emin x + p - 1) = 2 ^ (p : Int) * (2 ^ ulpExp p emin x / 2) := by
    rw [zpow_sub_one₀ (by norm_num : (2 : α) ≠ 0), zpow_add₀ (by norm_num : (2 : α) ≠ 0)]
    ring
  rw [e] at hb
  have hp := two_zpow_pos (α := α) (p : Int)
  have e2 : (2 : α) ^ (-(p : Int)) * 2 ^ (p : Int) = 1 := by
    rw [← zpow_add₀ (by norm_num : (2 : α) ≠ 0)]
    simp
  calc |roundNearest p emin x - x| ≤ 2 ^ ulpExp p emin x / 2 := h
    _ = 2 ^ (-(p : Int)) * (2 ^ (p : Int) * (2 ^ ulpExp p emin x / 2)) := by
        rw [← mul_assoc, e2, one_mul]
    _ ≤ 2 ^ (-(p : Int)) * |x| :=
        mul_le_mul_of_nonneg_left hb (le_of_lt (two_zpow_pos _))

/-- Dyadic numbers with a significand below `2^p` are not changed by rounding. -/
theorem roundNearest_dyadic (p : Nat) {emin : Int} (m k : Int) (hm : |m| < 2 ^ p)
    (hk : emin - ((p : Int) - 1) ≤ k) :
    roundNearest p emin ((m : α) * 2 ^ k) = (m : α) * 2 ^ k := by
  rcases eq_or_ne m 0 with h0 | h0
  · rw [h0]
    simp [roundNearest_zero]
  have hk2 := two_zpow_pos (α := α) k
  have hx : (m : α) * 2 ^ k ≠ 0 := mul_ne_zero (by exact_mod_cast h0) (ne_of_gt hk2)
  have habs : |(m : α) * 2 ^ k| < 2 ^ ((p : Int) + k) := by
    rw [abs_mul, abs_of_pos hk2, zpow_add₀ (by norm_num : (2 : α) ≠ 0), zpow_natCast]
    apply mul_lt_mul_of_pos_right _ hk2
    have : ((|m| : Int) : α) < (((2 : Int) ^ p : Int) : α) := by exact_mod_cast hm
    simpa using this
  have hlog : Int.log 2 |(m : α) * 2 ^ k| < (p : Int) + k := by
    rw [← Int.lt_zpow_iff_log_lt (b := 2) (by norm_num) (abs_pos.mpr hx)]
    simpa using habs
  have hq : ulpExp p emin ((m : α) * 2 ^ k) ≤ k := by
    unfold ulpExp
    have := max_le (show Int.log 2 |(m : α) * 2 ^ k| ≤ k + ((p : Int) - 1) by omega)
      (show emin ≤ k + ((p : Int) - 1) by omega)
    omega
  obtain ⟨d, hd⟩ : ∃ d : Nat, k = ulpExp p emin ((m : α) * 2 ^ k) + d :=
    ⟨(k - ulpExp p emin ((m : α) * 2 ^ k)).toNat, by omega⟩
  unfold roundNearest
  set q := ulpExp p emin ((m : α) * 2 ^ k) with hqdef
  have hq0 := two_zpow_pos (α := α) q
  have e : (m : α) * 2 ^ k / 2 ^ q = ((m * 2 ^ d : Int) : α) := by
    rw [hd, zpow_add₀ (by norm_num : (2 : α) ≠ 0), zpow_natCast]
    push_cast
    field_simp
    ring
  rw [e, roundHalfEven_intCast, hd, zpow_add₀ (by norm_num : (2 : α) ≠ 0), zpow_natCast]
  push_cast
  ring

/-- The significand of a rounding has absolute value at most `2^p`. -/
theorem abs_significand_le (p : Nat) (emin : Int) (x : α) :
    |roundHalfEven (x / 2 ^ ulpExp p emin x)| ≤ 2 ^ p := by
  have h := abs_lt_two_zpow p emin x
  have hq := two_zpow_pos (α := α) (ulpExp p emin x)
  have hb : |x / 2 ^ ulpExp p emin x| < (((2 : Int) ^ p : Int) : α) := by
    rw [abs_div, abs_of_pos hq, div_lt_iff₀ hq]
    push_cast
    rw [← zpow_natCast, ← zpow_add₀ (by norm_num : (2 : α) ≠ 0), add_comm]
    exact h
  rw [abs_lt] at hb
  have h1 := roundHalfEven_mono (le_of_lt hb.2)
  have h2 := roundHalfEven_mono (le_of_lt hb.1)
  rw [roundHalfEven_intCast] at h1
  rw [← Int.cast_neg, roundHalfEven_intCast] at h2
  rw [abs_le]
  exact ⟨h2, h1⟩

theorem le_ulpExp (p : Nat) (emin : Int) (x : α) : emin - ((p : Int) - 1) ≤ ulpExp p emin x := by
  unfold ulpExp
  have := le_max_right (Int.log 2 |x|) emin
  omega

/-- A value rounded to a format is not changed by rounding to a format that
is at least as fine. -/
theorem roundNearest_roundNearest {p q : Nat} {emin fmin : Int} (hq : 1 ≤ q) (hpq : p ≤ q)
    (he : fmin - ((q : Int) - 1) ≤ emin - ((p : Int) - 1)) (x : α) :
    roundNearest q fmin (roundNearest p emin x) = roundNearest p emin x := by
  have hM := abs_significand_le p emin x
  have hu := le_ulpExp p emin x
  have hpow : (2 : Int) ^ p ≤ 2 ^ q := pow_le_pow_right₀ (by norm_num) hpq
  have hone : (1 : Int) < 2 ^ q := by
    have : (2 : Int) ^ 1 ≤ 2 ^ q := pow_le_pow_right₀ (by norm_num) hq
    omega
  unfold roundNearest at *
  set M := roundHalfEven (x / 2 ^ ulpExp p emin x) with hMdef
  set u := ulpExp p emin x with hudef
  rcases lt_or_eq_of_le hM with hlt | heq
  · exact roundNearest_dyadic q M u (lt_of_lt_of_le hlt hpow) (by omega)
  · have e2 : ∀ s : Int, |s| = 1 → ((s * 2 ^ p : Int) : α) * 2 ^ u = (s : α) * 2 ^ ((p : Int) + u) := by
      intro s _
      push_cast
      rw [zpow_add₀ (by norm_num : (2 : α) ≠ 0), zpow_natCast]
      ring
    rcases abs_eq (by positivity : (0 : Int) ≤ 2 ^ p) |>.mp heq with h1 | h1
    · have e3 : (M : α) * 2 ^ u = ((1 : Int) : α) * 2 ^ ((p : Int) + u) := by
        rw [← e2 1 (by simp), h1, one_mul]
      rw [e3]
      exact roundNearest_dyadic q 1 ((p : Int) + u) (by simpa using hone) (by omega)
    · have e3 : (M : α) * 2 ^ u = ((-1 : Int) : α) * 2 ^ ((p : Int) + u) := by
        rw [← e2 (-1) (by simp), h1]
        ring_nf
      rw [e3]
      exact roundNearest_dyadic q (-1) ((p : Int) + u) (by simpa using hone) (by omega)

end RoundingLemmas

/-! ## Buffers and loops -/

section Lemmas

variable {α : Type} [LinearOrderedField α]

omit [LinearOrderedField α] in
theorem Shape.getElem?_col {W H : Nat} {g : List (List α)} (hg : Shape W H g)
    {x : Nat} (hx : x < W) : ∃ col, g[x]? = some col ∧ col.length = H := by
  have hlt : x < g.length := by rw [hg.1]; exact hx
  exact ⟨g[x], List.getElem?_eq_getElem hlt, hg.2 _ (List.getElem_mem hlt)⟩

theorem readCell_of_shape {W H : Nat} {g : List (List α)} (hg : Shape W H g)
    {x y : Nat} (hx : x < W) (hy : y < H) :
    readCell g (x : Int) (y : Int) = some (cellAt g x y) := by
  obtain ⟨col, hcol, hlen⟩ := hg.getElem?_col hx
  have hy' : y < col.length := by rw [hlen]; exact hy
  simp [readCell, cellAt, hcol, List.getElem?_eq_getElem hy']

theorem writeCell_of_shape {W H : Nat} {g : List (List α)} (hg : Shape W H g)
    {x y : Nat} (hx : x < W) (hy : y < H) (v : α) :
    ∃ g', writeCell g (x : Int) (y : Int) v = some g' ∧ Shape W H g' ∧
      ∀ i j, cellAt g' i j = if i = x ∧ j = y then v else cellAt g i j := by
  obtain ⟨col, hcol, hlen⟩ := hg.getElem?_col hx
  have hy' : y < col.length := by rw [hlen]; exact hy
  have hxl : x < g.length := by rw [hg.1]; exact hx
  refine ⟨g.set x (col.set y v), by simp [writeCell, hcol, hy'], ⟨by simp [hg.1], ?_⟩, ?_⟩
  · intro c hc
    rcases List.mem_or_eq_of_mem_set hc with h | h
    · exact hg.2 c h
    · rw [h, List.length_set, hlen]
  · intro i j
    by_cases hi : i = x
    · subst hi
      by_cases hj : j = y
      · subst hj
        simp [cellAt, List.getElem?_set, hxl, hy']
      · have hj' : ¬ (y = j) := fun h => hj h.symm
        simp [cellAt, List.getElem?_set, hxl, hj, hj', hcol]
    · have hi' : ¬ (x = i) := fun h => hi h.symm
      simp [cellAt, List.getElem?_set, hi, hi']

theorem shape_ext {W H : Nat} {g g' : List (List α)} (hg : Shape W H g) (hg' : Shape W H g')
    (h : ∀ i j, i < W → j < H → cellAt g i j = cellAt g' i j) : g = g' := by
  apply List.ext_getElem (by rw [hg.1, hg'.1])
  intro i h1 h2
  have hi : i < W := by rw [← hg.1]; exact h1
  have hl1 : (g[i]).length = H := hg.2 _ (List.getElem_mem h1)
  have hl2 : (g'[i]).length = H := hg'.2 _ (List.getElem_mem h2)
  apply List.ext_getElem (by rw [hl1, hl2])
  intro j h3 h4
  have hj : j < H := by rw [← hl1]; exact h3
  have := h i j hi hj
  simpa [cellAt, List.getElem?_eq_getElem h1, List.getElem?_eq_getElem h2,
    List.getElem?_eq_getElem h3, List.getElem?_eq_getElem h4] using this

theorem foldlM_range_some {σ : Type} (f : σ → Nat → Option σ) (P : Nat → σ → Prop)
    (n : Nat) (s0 : σ) (h0 : P 0 s0)
    (hstep : ∀ k s, k < n → P k s → ∃ s', f s k = some s' ∧ P (k + 1) s') :
    ∃ s', (List.range n).foldlM f s0 = some s' ∧ P n s' := by
  induction n with
  | zero => exact ⟨s0, by simp, h0⟩
  | succ n ih =>
    obtain ⟨s1, h1, hP1⟩ := ih (fun k s hk hP => hstep k s (Nat.lt_succ_of_lt hk) hP)
    obtain ⟨s2, h2, hP2⟩ := hstep n s1 (Nat.lt_succ_self n) hP1
    refine ⟨s2, ?_, hP2⟩
    rw [List.range_succ, List.foldlM_append, h1]
    simp [h2]

/-! ### Wrapped indices and the neighbour loops -/

theorem wrapIdx_lt {n : Nat} (hn : 0 < n) (i : Int) : wrapIdx n i < n := by
  have h1 : (0 : Int) < n := by exact_mod_cast hn
  have h2 := Int.emod_lt_of_pos i h1
  have h3 := Int.emod_nonneg i (ne_of_gt h1)
  unfold wrapIdx
  omega

theorem imod_wrap {n : Nat} (hn : 0 < n) {i : Int} (hi : 0 ≤ i + n) :
    imod (i + n) n = some ((wrapIdx n i : Nat) : Int) := by
  have h1 : (0 : Int) < n := by exact_mod_cast hn
  have h3 := Int.emod_nonneg i (ne_of_gt h1)
  have h4 : ((n : Int) = 0) = False := by simp; omega
  simp only [imod, h4, if_false, wrapIdx]
  rw [Int.tmod_eq_emod hi (le_of_lt h1), Int.add_emod_self, Int.toNat_of_nonneg h3]

theorem wrappedRead_of_shape {W H : Nat} {g : List (List α)} (hg : Shape W H g)
    (hW : 0 < W) (hH : 0 < H) {i j : Int} (hi : 0 ≤ i + W) (hj : 0 ≤ j + H) :
    wrappedRead W H g i j = some (cellAt g (wrapIdx W i) (wrapIdx H j)) := by
  simp [wrappedRead, imod_wrap hW hi, imod_wrap hH hj,
    readCell_of_shape hg (wrapIdx_lt hW _) (wrapIdx_lt hH _)]

theorem neighborBody_of_shape (A : Arith α) {W H : Nat} {g : List (List α)}
    (hg : Shape W H g) (hW : 0 < W) (hH : 0 < H) {x y dx dy : Int} (hx : 0 ≤ x + dx + W) (hy : 0 ≤ y + dy + H)
    (acc : α × Int) :
    neighborBody A W H g x y dx acc dy =
      some (A.f32 (acc.1 + cellAt g (wrapIdx W (x + dx)) (wrapIdx H (y + dy))), acc.2 + 1) := by
  simp [neighborBody, wrappedRead_of_shape hg hW hH hx hy]

theorem neighborSum_of_shape (A : Arith α) {W H : Nat} {g : List (List α)}
    (hg : Shape W H g) {x y : Nat} (hx : x < W) (hy : y < H) :
    neighborSum A W H g (x : Int) (y : Int) =
      some (floatSum A (neighborValues W H g x y), 9) := by
  have hW : 0 < W := by omega
  have hH : 0 < H := by omega
  have e : ∀ (dx dy : Int) (acc : α × Int), -1 ≤ dx → -1 ≤ dy →
      neighborBody A W H g x y dx acc dy =
        some (A.f32 (acc.1 + cellAt g (wrapIdx W (x + dx)) (wrapIdx H (y + dy))),
          acc.2 + 1) :=
    fun dx dy acc h1 h2 => neighborBody_of_shape A hg hW hH (by omega) (by omega) acc
  simp [neighborSum, offsets, neighborValues, floatSum, e]

/-! ### One frame -/

theorem nextGrid_shape (W H : Nat) (A : Arith α) (g : List (List α)) :
    Shape W H (nextGrid W H A g) := by
  refine ⟨by simp [nextGrid], ?_⟩
  intro col hcol
  simp only [nextGrid, List.mem_map] at hcol
  obtain ⟨x, -, rfl⟩ := hcol
  simp

theorem cellAt_nextGrid {W H : Nat} (A : Arith α) (g : List (List α)) {x y : Nat}
    (hx : x < W) (hy : y < H) :
    cellAt (nextGrid W H A g) x y = nextValue W H A g x y := by
  simp [cellAt, nextGrid, List.getElem?_range, hx, hy]

theorem updateCell_of_shape {W H : Nat} (A : Arith α) {a : CAAnimator α}
    (hc : Shape W H a.cells) (hn : Shape W H a.nextCells) {x y : Nat}
    (hx : x < W) (hy : y < H) :
    ∃ nc, updateCell W H A a x y = some ⟨a.cells, nc⟩ ∧ Shape W H nc ∧
      ∀ i j, cellAt nc i j =
        if i = x ∧ j = y then nextValue W H A a.cells x y else cellAt a.nextCells i j := by
  obtain ⟨nc, hw, hs, hcell⟩ :=
    writeCell_of_shape hn hx hy (nextValue W H A a.cells x y)
  refine ⟨nc, ?_, hs, hcell⟩
  simp only [updateCell, neighborSum_of_shape A hc hx hy, readCell_of_shape hc hx hy,
    Option.bind_eq_bind, Option.some_bind]
  simp only [nextValue, neighborMean] at hw
  simp [hw]

theorem rowLoop_of_shape {W H : Nat} (A : Arith α) {a : CAAnimator α}
    (hc : Shape W H a.cells) (hn : Shape W H a.nextCells) {x : Nat} (hx : x < W) :
    ∃ b, (List.range H).foldlM (fun a y => updateCell W H A a x y) a = some b ∧
      RowInv W H A a.cells a.nextCells x H b := by
  apply foldlM_range_some _ (RowInv W H A a.cells a.nextCells x)
  · exact ⟨rfl, hn, fun i j => by simp⟩
  · rintro k s hk ⟨h1, h2, h3⟩
    obtain ⟨nc, e1, e2, e3⟩ := updateCell_of_shape A (h1 ▸ hc) h2 hx hk
    refine ⟨_, e1, h1, e2, ?_⟩
    intro i j
    rw [e3, h3, h1]
    by_cases hi : i = x
    · by_cases hj : j = k
      · simp [hi, hj]
      · have : j < k + 1 ↔ j < k := by omega
        simp [hi, hj, this]
    · simp [hi]

theorem updateLoop_of_shape {W H : Nat} (A : Arith α) {a : CAAnimator α}
    (hc : Shape W H a.cells) (hn : Shape W H a.nextCells) :
    updateLoop W H A a = some ⟨a.cells, nextGrid W H A a.cells⟩ := by
  have key : ∃ b, updateLoop W H A a = some b ∧
      ColInv W H A a.cells a.nextCells W b := by
    apply foldlM_range_some _ (ColInv W H A a.cells a.nextCells)
    · exact ⟨rfl, hn, fun i j _ => by simp⟩
    · rintro k s hk ⟨h1, h2, h3⟩
      obtain ⟨b, e1, e2, e3, e4⟩ := rowLoop_of_shape A (h1 ▸ hc) h2 hk
      refine ⟨b, e1, e2.trans h1, e3, ?_⟩
      intro i j hj
      rw [e4, h3 i j hj, h1]
      by_cases hi : i = k
      · simp [hi, hj]
      · have : i < k + 1 ↔ i < k := by omega
        simp [hi, this]
  obtain ⟨b, e1, e2, e3, e4⟩ := key
  rw [e1]
  have : b.nextCells = nextGrid W H A a.cells := by
    apply shape_ext e3 (nextGrid_shape W H A a.cells)
    intro i j hi hj
    rw [e4 i j hj, cellAt_nextGrid A _ hi hj]
    simp [hi]
  cases b
  simp_all

theorem DoFrame_of_shape {W H : Nat} (A : Arith α) {a : CAAnimator α}
    (hc : Shape W H a.cells) (hn : Shape W H a.nextCells) :
    DoFrame W H A a = some ⟨nextGrid W H A a.cells, a.cells⟩ := by
  simp [DoFrame, updateLoop_of_shape A hc hn]

theorem zeroGrid_shape (W H : Nat) : Shape W H (zeroGrid W H : List (List α)) := by
  refine ⟨by simp [zeroGrid], ?_⟩
  intro col hcol
  rw [zeroGrid, List.mem_replicate] at hcol
  rw [hcol.2, List.length_replicate]

theorem cellAt_zeroGrid (W H x y : Nat) : cellAt (zeroGrid W H : List (List α)) x y = 0 := by
  unfold cellAt zeroGrid
  by_cases hx : x < W
  · by_cases hy : y < H
    · simp [List.getElem?_replicate, hx, hy]
    · simp [List.getElem?_replicate, hx, hy]
  · simp [List.getElem?_replicate, hx]

theorem clamp_eq_clamp01 (v : α) : clamp v = Spec.clamp01 v := by
  unfold clamp Spec.clamp01
  by_cases h0 : v < 0
  · have h1 : ¬ ((0 : α) > 1) := by simp
    have h2 : min 1 v = v := min_eq_right (by linarith)
    simp [h0, h2, le_of_lt h0]
  · push_neg at h0
    by_cases h1 : v > 1
    · simp [not_lt.mpr h0, h1, min_eq_left (le_of_lt h1)]
    · push_neg at h1
      simp [not_lt.mpr h0, not_lt.mpr h1, min_eq_right h1, h0]

theorem readCell_nextGrid {W H : Nat} (A : Arith α) (g : List (List α)) {x y : Nat}
    (hx : x < W) (hy : y < H) :
    readCell (nextGrid W H A g) (x : Int) (y : Int) = some (nextValue W H A g x y) := by
  rw [readCell_of_shape (nextGrid_shape W H A g) hx hy, cellAt_nextGrid A g hx hy]

/-- C4. Two states of the same dimensions with identical current buffers step
to the same state, whatever their next buffers held; the step returns.  This
holds for every arithmetic `A`, in particular for the program's. -/
theorem DoFrame_deterministic {W H : Nat} (A : Arith α) (a b : CAAnimator α)
    (hc : Shape W H a.cells) (hna : Shape W H a.nextCells) (hnb : Shape W H b.nextCells)
    (h : a.cells = b.cells) :
    ∃ r, DoFrame W H A a = some r ∧ DoFrame W H A b = some r := by
  refine ⟨_, DoFrame_of_shape A hc hna, ?_⟩
  rw [DoFrame_of_shape A (h ▸ hc) hnb, h]

/-! ### The constructor -/

theorem imod_natCast {n : Nat} (hn : 0 < n) (a : Nat) :
    imod (a : Int) (n : Int) = some ((a % n : Nat) : Int) := by
  have h4 : ((n : Int) = 0) = False := by simp; omega
  simp only [imod, h4, if_false]
  rw [Int.tmod_eq_emod (Int.ofNat_nonneg a) (Int.ofNat_nonneg n)]
  simp

theorem count_set_le {β : Type} [DecidableEq β] (l : List β) (i : Nat) (v a : β) :
    (l.set i v).count a ≤ l.count a + 1 := by
  induction l generalizing i with
  | nil => simp
  | cons b t ih =>
    cases i with
    | zero =>
      simp only [List.set_cons_zero, List.count_cons]
      split_ifs <;> omega
    | succ i =>
      simp only [List.set_cons_succ, List.count_cons]
      have := ih i
      split_ifs <;> omega

theorem sum_map_set_le {β : Type} (f : β → Nat) (l : List β) (i : Nat) (c d : β)
    (hc : l[i]? = some c) (hd : f d ≤ f c + 1) :
    ((l.set i d).map f).sum ≤ (l.map f).sum + 1 := by
  induction l generalizing i with
  | nil => simp
  | cons b t ih =>
    cases i with
    | zero =>
      simp only [List.getElem?_cons_zero, Option.some.injEq] at hc
      subst hc
      simp only [List.set_cons_zero, List.map_cons, List.sum_cons]
      omega
    | succ i =>
      simp only [List.getElem?_cons_succ] at hc
      have := ih i hc
      simp only [List.set_cons_succ, List.map_cons, List.sum_cons]
      omega

theorem countOnes_writeCell {g g' : List (List α)} {i j : Int} {v : α}
    (h : writeCell g i j v = some g') : countOnes g' ≤ countOnes g + 1 := by
  unfold writeCell at h
  split_ifs at h with h0
  split at h
  · exact absurd h (by simp)
  · rename_i col hcol
    split_ifs at h with h1
    simp only [Option.some.injEq] at h
    subst h
    exact sum_map_set_le _ g _ col _ hcol (count_set_le col _ v 1)

theorem countOnes_zeroGrid (W H : Nat) : countOnes (zeroGrid W H : List (List α)) = 0 := by
  simp [countOnes, zeroGrid, List.count_replicate]

omit [LinearOrderedField α] in
theorem replicate_shape (W H : Nat) (v : α) :
    Shape W H (List.replicate W (List.replicate H v)) := by
  refine ⟨by simp, ?_⟩
  intro col hcol
  rw [List.mem_replicate] at hcol
  rw [hcol.2, List.length_replicate]

omit [LinearOrderedField α] in
theorem picked_succ (W H : Nat) (rand : Nat → Nat) (n x y : Nat) :
    Picked W H rand (n + 1) x y ↔
      Picked W H rand n x y ∨ (x = rand (2 * n) % W ∧ y = rand (2 * n + 1) % H) := by
  constructor
  · rintro ⟨i, hi, h⟩
    by_cases hin : i = n
    · subst hin; exact Or.inr h
    · exact Or.inl ⟨i, by omega, h⟩
  · rintro (⟨i, hi, h⟩ | h)
    · exact ⟨i, by omega, h⟩
    · exact ⟨n, by omega, h⟩

theorem seedBody_inv {W H : Nat} (hW : 0 < W) (hH : 0 < H) (rand : Nat → Nat) (n : Nat)
    (st : CAAnimator α × Nat) (h : SeedInv W H rand n st) (i : Nat) :
    ∃ st', seedBody W H rand st i = some st' ∧ SeedInv W H rand (n + 1) st' := by
  obtain ⟨h1, h2, h3, h4, h5⟩ := h
  obtain ⟨g', hw, hs, hcell⟩ :=
    writeCell_of_shape h3 (Nat.mod_lt (rand st.2) hW) (Nat.mod_lt (rand (st.2 + 1)) hH) (1 : α)
  refine ⟨(⟨g', st.1.nextCells⟩, st.2 + 2), ?_, ?_, h2, hs, ?_, ?_⟩
  · simp only [seedBody, imod_natCast hW, imod_natCast hH, Option.bind_eq_bind,
      Option.some_bind, hw, Option.pure_def]
  · simp [h1]; omega
  · have := countOnes_writeCell hw
    show countOnes g' ≤ n + 1
    omega
  · intro x y
    show (Picked W H rand (n + 1) x y → cellAt g' x y = 1) ∧
      (¬ Picked W H rand (n + 1) x y → cellAt g' x y = 0)
    rw [picked_succ, hcell, h1]
    by_cases hp : x = rand (2 * n) % W ∧ y = rand (2 * n + 1) % H
    · simp [hp]
    · simp only [hp, if_false, or_false]
      exact h5 x y

theorem seedLoop_inv {W H : Nat} (hW : 0 < W) (hH : 0 < H) (rand : Nat → Nat) (n : Nat) :
    ∃ st, (List.range n).foldlM (seedBody W H rand)
        ((⟨zeroGrid W H, zeroGrid W H⟩ : CAAnimator α), 0) = some st ∧
      SeedInv W H rand n st := by
  apply foldlM_range_some _ (SeedInv W H rand)
  · refine ⟨rfl, rfl, zeroGrid_shape W H, by simp [countOnes_zeroGrid], ?_⟩
    intro x y
    refine ⟨?_, fun _ => cellAt_zeroGrid W H x y⟩
    rintro ⟨i, hi, -⟩
    omega
  · intro k s _ hs
    exact seedBody_inv hW hH rand k s hs k

theorem construct_inv {W H : Nat} (hW : 0 < W) (hH : 0 < H) (rand : Nat → Nat) :
    ∃ a : CAAnimator α, construct W H rand = some a ∧ a.nextCells = zeroGrid W H ∧
      Shape W H a.cells ∧ countOnes a.cells ≤ 5 ∧
      ∀ x y, (Picked W H rand 5 x y → cellAt a.cells x y = 1) ∧
        (¬ Picked W H rand 5 x y → cellAt a.cells x y = 0) := by
  obtain ⟨st, h, -, h2, h3, h4, h5⟩ := seedLoop_inv (α := α) hW hH rand 5
  refine ⟨st.1, ?_, h2, h3, h4, h5⟩
  unfold construct
  simp only [zeroGrid] at h
  simp [h]

/-! ### Reachable states -/

theorem exists_cellAt_of_mem {W H : Nat} {g : List (List α)} (hg : Shape W H g)
    {col : List α} (hcol : col ∈ g) {v : α} (hv : v ∈ col) :
    ∃ x y, x < W ∧ y < H ∧ cellAt g x y = v := by
  obtain ⟨x, hx, rfl⟩ := List.getElem_of_mem hcol
  obtain ⟨y, hy, rfl⟩ := List.getElem_of_mem hv
  have hl : (g[x]).length = H := hg.2 _ (List.getElem_mem hx)
  refine ⟨x, y, by rw [← hg.1]; exact hx, by rw [← hl]; exact hy, ?_⟩
  simp [cellAt, List.getElem?_eq_getElem hx, List.getElem?_eq_getElem hy]

theorem clamp_mem_unit (v : α) : 0 ≤ clamp v ∧ clamp v ≤ 1 := by
  rw [clamp_eq_clamp01]
  exact ⟨le_max_left _ _, max_le zero_le_one (min_le_left _ _)⟩

theorem inUnit_nextGrid (W H : Nat) (A : Arith α) (g : List (List α)) :
    InUnit (nextGrid W H A g) := by
  intro col hcol v hv
  obtain ⟨x, y, hx, hy, rfl⟩ := exists_cellAt_of_mem (nextGrid_shape W H A g) hcol hv
  rw [cellAt_nextGrid A g hx hy]
  exact clamp_mem_unit _

theorem inUnit_zeroGrid (W H : Nat) : InUnit (zeroGrid W H : List (List α)) := by
  intro col hcol v hv
  obtain ⟨x, y, -, -, rfl⟩ := exists_cellAt_of_mem (zeroGrid_shape W H) hcol hv
  rw [cellAt_zeroGrid]
  exact ⟨le_refl _, zero_le_one⟩

/-- The invariant of reachable states: both buffers are `W × H` and hold
values in `[0, 1]`. -/
theorem run_inv {W H : Nat} (hW : 0 < W) (hH : 0 < H) (A : Arith α) (rand : Nat → Nat)
    (n : Nat) :
    ∃ a, run W H A rand n = some a ∧ Shape W H a.cells ∧ Shape W H a.nextCells ∧
      InUnit a.cells ∧ InUnit a.nextCells := by
  induction n with
  | zero =>
    obtain ⟨a, h1, h2, h3, -, h5⟩ := construct_inv (α := α) hW hH rand
    refine ⟨a, h1, h3, h2 ▸ zeroGrid_shape W H, ?_, h2 ▸ inUnit_zeroGrid W H⟩
    intro col hcol v hv
    obtain ⟨x, y, -, -, rfl⟩ := exists_cellAt_of_mem h3 hcol hv
    by_cases hp : Picked W H rand 5 x y
    · rw [(h5 x y).1 hp]; exact ⟨zero_le_one, le_refl _⟩
    · rw [(h5 x y).2 hp]; exact ⟨le_refl _, zero_le_one⟩
  | succ n ih =>
    obtain ⟨a, h1, h2, h3, h4, -⟩ := ih
    refine ⟨⟨nextGrid W H A a.cells, a.cells⟩, ?_, nextGrid_shape W H A a.cells, h2,
      inUnit_nextGrid W H A a.cells, h4⟩
    simp [run, h1, DoFrame_of_shape A h2 h3]

/-- C2. Bounds invariant: after the constructor and any number `n` of frames
(`n = 0` is the state right after seeding) the run is defined and every value
stored in `cells` and in `nextCells` lies in `[0, 1]`; and a frame on any
state with `W × H` buffers holding values in `[0, 1]` returns a state whose
buffers hold values in `[0, 1]`.  This holds for every arithmetic `A`, in
particular for the program's. -/
theorem bounds_invariant {W H : Nat} (hW : 0 < W) (hH : 0 < H) (A : Arith α) :
    (∀ (rand : Nat → Nat) (n : Nat),
      ∃ a, run W H A rand n = some a ∧ InUnit a.cells ∧ InUnit a.nextCells) ∧
    ∀ a : CAAnimator α, Shape W H a.cells → Shape W H a.nextCells →
      InUnit a.cells → InUnit a.nextCells →
      ∃ b, DoFrame W H A a = some b ∧ InUnit b.cells ∧ InUnit b.nextCells := by
  constructor
  · intro rand n
    obtain ⟨a, h1, -, -, h4, h5⟩ := run_inv hW hH A rand n
    exact ⟨a, h1, h4, h5⟩
  · intro a hc hn hic _
    exact ⟨_, DoFrame_of_shape A hc hn, inUnit_nextGrid W H A a.cells, hic⟩

theorem bounds_invariant_witness :
    0 < num_w_boxes ∧ 0 < num_h_boxes ∧
    ((∀ (rand : Nat → Nat) (n : Nat),
      ∃ a, run num_w_boxes num_h_boxes (ieeeArith Real.exp) rand n = some a ∧
        InUnit a.cells ∧ InUnit a.nextCells) ∧
    ∀ a : CAAnimator ℝ, Shape num_w_boxes num_h_boxes a.cells →
      Shape num_w_boxes num_h_boxes a.nextCells →
      InUnit a.cells → InUnit a.nextCells →
      ∃ b, DoFrame num_w_boxes num_h_boxes (ieeeArith Real.exp) a = some b ∧
        InUnit b.cells ∧ InUnit b.nextCells) :=
  ⟨by decide, by decide, bounds_invariant (by decide) (by decide) (ieeeArith Real.exp)⟩

/-- C5. Seed effect bound: whatever values `rand()` returns, the constructor
on the 15 x 10 grid returns a state whose current buffer has at most 5 cells
equal to 1, and every cell is either 1 or 0. -/
theorem seed_effect_bound (α : Type) [LinearOrderedField α] (rand : Nat → Nat) :
    ∃ a : CAAnimator α, construct num_w_boxes num_h_boxes rand = some a ∧
      countOnes a.cells ≤ 5 ∧ ∀ col ∈ a.cells, ∀ v ∈ col, v = 1 ∨ v = 0 := by
  obtain ⟨a, h1, -, h3, h4, h5⟩ :=
    construct_inv (α := α) (W := num_w_boxes) (H := num_h_boxes) (by decide) (by decide) rand
  refine ⟨a, h1, h4, ?_⟩
  intro col hcol v hv
  obtain ⟨x, y, -, -, rfl⟩ := exists_cellAt_of_mem h3 hcol hv
  by_cases hp : Picked num_w_boxes num_h_boxes rand 5 x y
  · exact Or.inl ((h5 x y).1 hp)
  · exact Or.inr ((h5 x y).2 hp)

/-- C6. Seeding characterisation and frame: for extents `W, H ≥ 1` and any
values returned by `rand()`, the constructor returns a state in which every
pick is an in-range index, a cell of the current buffer holds 1 exactly when
it is one of the five picks `(rand(2i) % W, rand(2i+1) % H)`, every other cell
still holds its initial 0, and the next buffer is still all zero. -/
theorem seed_characterisation {W H : Nat} (hW : 0 < W) (hH : 0 < H) (rand : Nat → Nat) :
    ∃ a : CAAnimator α, construct W H rand = some a ∧
      (∀ i, i < 5 → rand (2 * i) % W < W ∧ rand (2 * i + 1) % H < H) ∧
      (∀ x y : Nat, x < W → y < H →
        (readCell a.cells (x : Int) (y : Int) = some 1 ↔ Picked W H rand 5 x y) ∧
        (¬ Picked W H rand 5 x y → readCell a.cells (x : Int) (y : Int) = some 0)) ∧
      Shape W H a.cells ∧ a.nextCells = zeroGrid W H := by
  obtain ⟨a, h1, h2, h3, -, h5⟩ := construct_inv (α := α) hW hH rand
  refine ⟨a, h1, fun i _ => ⟨Nat.mod_lt _ hW, Nat.mod_lt _ hH⟩, ?_, h3, h2⟩
  intro x y hx hy
  rw [readCell_of_shape h3 hx hy]
  by_cases hp : Picked W H rand 5 x y
  · simp [hp, (h5 x y).1 hp]
  · simp [hp, (h5 x y).2 hp]

theorem seed_characterisation_witness :
    0 < 15 ∧ 0 < 10 ∧
    ∃ a : CAAnimator ℚ, construct 15 10 (fun k => 7 * k + 1) = some a ∧
      (∀ i, i < 5 → (fun k => 7 * k + 1) (2 * i) % 15 < 15 ∧
        (fun k => 7 * k + 1) (2 * i + 1) % 10 < 10) ∧
      (∀ x y : Nat, x < 15 → y < 10 →
        (readCell a.cells (x : Int) (y : Int) = some 1 ↔
          Picked 15 10 (fun k => 7 * k + 1) 5 x y) ∧
        (¬ Picked 15 10 (fun k => 7 * k + 1) 5 x y →
          readCell a.cells (x : Int) (y : Int) = some 0)) ∧
      Shape 15 10 a.cells ∧ a.nextCells = zeroGrid 15 10 :=
  ⟨by decide, by decide, seed_characterisation (by decide) (by decide) (fun k => 7 * k + 1)⟩

theorem DoFrame_deterministic_witness :
    Shape 15 10 (zeroGrid 15 10 : List (List ℝ)) ∧
    Shape 15 10 (List.replicate 15 (List.replicate 10 (1 : ℝ))) ∧
    ∃ r, DoFrame 15 10 (ieeeArith Real.exp) ⟨zeroGrid 15 10, zeroGrid 15 10⟩ = some r ∧
      DoFrame 15 10 (ieeeArith Real.exp)
        ⟨zeroGrid 15 10, List.replicate 15 (List.replicate 10 (1 : ℝ))⟩ = some r :=
  ⟨zeroGrid_shape 15 10, replicate_shape 15 10 1,
    DoFrame_deterministic (ieeeArith Real.exp) ⟨zeroGrid 15 10, zeroGrid 15 10⟩
      ⟨zeroGrid 15 10, List.replicate 15 (List.replicate 10 (1 : ℝ))⟩
      (zeroGrid_shape 15 10) (zeroGrid_shape 15 10) (replicate_shape 15 10 1) rfl⟩

/-! ### The arithmetic without rounding -/

theorem birth_exact (exp : α → α) (avg : α) :
    birth (exactArith exp) avg = 1 / (1 + exp (-20 * (avg - 0.3))) := rfl

theorem death_exact (exp : α → α) (avg : α) :
    death (exactArith exp) avg = 1 / (1 + exp (-20 * (avg - 0.4))) := rfl

theorem denominator_exact (exp : α → α) (avg : α) :
    denominator (exactArith exp) avg =
      death (exactArith exp) avg - birth (exactArith exp) avg + 1e-6 := rfl

theorem sValue_exact (exp : α → α) (avg c : α) :
    sValue (exactArith exp) avg c =
      1 / (1 + exp (-20 * (c - birth (exactArith exp) avg) /
        denominator (exactArith exp) avg)) := rfl

theorem unclampedNext_exact (exp : α → α) (avg c : α) :
    unclampedNext (exactArith exp) avg c =
      c + 0.1 * (2 * sValue (exactArith exp) avg c - 1) := rfl

theorem floatSum_exact (exp : α → α) (l : List α) :
    floatSum (exactArith exp) l = l.sum := by
  have h : ∀ (l : List α) (s : α),
      l.foldl (fun s v => (exactArith exp).f32 (s + v)) s = s + l.sum := by
    intro l
    induction l with
    | nil => intro s; simp
    | cons v l ih =>
      intro s
      rw [List.foldl_cons, ih, List.sum_cons]
      simp only [exactArith]
      ring
  rw [floatSum, h, zero_add]

theorem neighborMean_exact (W H : Nat) (exp : α → α) (g : List (List α)) (x y : Nat) :
    neighborMean W H (exactArith exp) g x y = Spec.mean W H g x y := by
  rw [neighborMean, floatSum_exact]
  simp [average, exactArith, Spec.mean]

/-- Without rounding, the value the update loops store is the value of the
specification's formula. -/
theorem nextValue_exact (W H : Nat) (exp : α → α) (g : List (List α)) (x y : Nat) :
    nextValue W H (exactArith exp) g x y = Spec.stepValue W H exp g x y := by
  rw [nextValue, neighborMean_exact]
  simp only [Spec.stepValue, Spec.sigmoid, transition, sValue, invOnePlusExp, denominator,
    birth, death, exactArith, clamp_eq_clamp01, neg_mul, neg_div, mul_div_assoc]

/-! ### The transition rule over the reals -/

theorem exp_one_lt : Real.exp 1 < 2.7183 := lt_trans Real.exp_one_lt_d9 (by norm_num)

theorem exp_one_gt : (2.7182 : ℝ) < Real.exp 1 := lt_trans (by norm_num) Real.exp_one_gt_d9

theorem exp_nat (n : Nat) : Real.exp (n : ℝ) = Real.exp 1 ^ n := by
  rw [← Real.exp_nat_mul, mul_one]

theorem exp_two_bounds : (7.38 : ℝ) < Real.exp 2 ∧ Real.exp 2 < 7.39 := by
  have h : Real.exp 2 = Real.exp 1 ^ 2 := by exact_mod_cast exp_nat 2
  rw [h]
  have h1 := exp_one_lt
  have h2 := exp_one_gt
  constructor <;> nlinarith

theorem exp_six_le : Real.exp 6 ≤ 404 := by
  have h : Real.exp 6 = Real.exp 1 ^ 6 := by exact_mod_cast exp_nat 6
  rw [h]
  calc Real.exp 1 ^ 6 ≤ (2.7183 : ℝ) ^ 6 :=
        pow_le_pow_left₀ (le_of_lt (Real.exp_pos 1)) (le_of_lt exp_one_lt) 6
    _ ≤ 404 := by norm_num

theorem exp_neg_fourteen_ge : (8e-7 : ℝ) ≤ Real.exp (-14) := by
  have h : Real.exp 14 = Real.exp 1 ^ 14 := by exact_mod_cast exp_nat 14
  rw [Real.exp_neg, h]
  have h1 : Real.exp 1 ^ 14 ≤ (2.7183 : ℝ) ^ 14 :=
    pow_le_pow_left₀ (le_of_lt (Real.exp_pos 1)) (le_of_lt exp_one_lt) 14
  have h2 : (2.7183 : ℝ) ^ 14 ≤ 1250000 := by norm_num
  have h3 : (0 : ℝ) < Real.exp 1 ^ 14 := pow_pos (Real.exp_pos 1) 14
  rw [le_inv_comm₀ (by norm_num) h3]
  norm_num
  linarith

/-- The polynomial form of the bound on `death - birth`. -/
theorem guard_poly {E q : ℝ} (hE1 : 8e-7 ≤ E) (hE2 : E ≤ 404) (hq1 : 7.38 < q) (hq2 : q < 7.39) :
    4e-6 * ((1 + E) * (1 + E * q)) ≤ E * (q - 1) := by
  norm_num at hE1 hq1 hq2 ⊢
  have hE0 : 0 < E := by linarith
  have hq0 : 0 < q := by linarith
  have h1 : E * (E * q) ≤ 404 * (E * q) :=
    mul_le_mul_of_nonneg_right hE2 (le_of_lt (mul_pos hE0 hq0))
  have h2 : E * (369 / 50) ≤ E * q := mul_le_mul_of_nonneg_left (le_of_lt hq1) (le_of_lt hE0)
  have h3 : E * q ≤ E * (739 / 100) := mul_le_mul_of_nonneg_left (le_of_lt hq2) (le_of_lt hE0)
  nlinarith

/-- In exact real arithmetic `death` lies below `birth` by more than `4e-6`
whenever the neighbourhood mean lies in `[0, 1]`. -/
theorem death_sub_birth_le {avg : ℝ} (h0 : 0 ≤ avg) (h1 : avg ≤ 1) :
    death (exactArith Real.exp) avg - birth (exactArith Real.exp) avg ≤ -4e-6 := by
  have e4 : Real.exp (-20 * (avg - 0.4)) = Real.exp (-20 * (avg - 0.3)) * Real.exp 2 := by
    rw [← Real.exp_add]
    congr 1
    ring
  rw [death_exact, birth_exact, e4]
  set E := Real.exp (-20 * (avg - 0.3)) with hE
  set q := Real.exp 2 with hq
  have hE1 : 8e-7 ≤ E := by
    refine le_trans exp_neg_fourteen_ge (Real.exp_le_exp.mpr ?_)
    norm_num; linarith
  have hE2 : E ≤ 404 := by
    refine le_trans (Real.exp_le_exp.mpr ?_) exp_six_le
    norm_num; linarith
  have hE0 : 0 < E := Real.exp_pos _
  have hq0 : 0 < q := Real.exp_pos _
  have hp := guard_poly hE1 hE2 exp_two_bounds.1 exp_two_bounds.2
  have hd : 0 < (1 + E) * (1 + E * q) := by positivity
  have e : 1 / (1 + E * q) - 1 / (1 + E) =
      (- (E * (q - 1))) / ((1 + E) * (1 + E * q)) := by
    field_simp
    ring
  rw [e, div_le_iff₀ hd]
  linarith

/-- In exact real arithmetic the divisor of the transition rule is strictly
negative whenever the neighbourhood mean lies in `[0, 1]`. -/
theorem denominator_neg {avg : ℝ} (h0 : 0 ≤ avg) (h1 : avg ≤ 1) :
    denominator (exactArith Real.exp) avg < 0 := by
  have h := death_sub_birth_le h0 h1
  rw [denominator_exact]
  norm_num at h ⊢
  linarith

theorem birth_pos (avg : ℝ) : 0 < birth (exactArith Real.exp) avg := by
  rw [birth_exact]
  have := Real.exp_pos (-20 * (avg - 0.3))
  positivity

/-- In exact real arithmetic a cell holding 0 whose neighbourhood mean lies
in `[0, 1]` is given a value strictly between 0 and 0.1. -/
theorem transition_zero_pos {avg : ℝ} (h0 : 0 ≤ avg) (h1 : avg ≤ 1) :
    0 < transition (exactArith Real.exp) avg 0 ∧
      transition (exactArith Real.exp) avg 0 < 0.1 := by
  have hd := denominator_neg h0 h1
  have hb := birth_pos avg
  have ht : -20 * (0 - birth (exactArith Real.exp) avg) /
      denominator (exactArith Real.exp) avg < 0 :=
    div_neg_of_pos_of_neg (by linarith) hd
  have he1 := Real.exp_lt_one_iff.mpr ht
  have he0 := Real.exp_pos (-20 * (0 - birth (exactArith Real.exp) avg) /
    denominator (exactArith Real.exp) avg)
  have hs1 : sValue (exactArith Real.exp) avg 0 < 1 := by
    rw [sValue_exact, div_lt_one (by linarith)]
    linarith
  have hs2 : 1 / 2 < sValue (exactArith Real.exp) avg 0 := by
    rw [sValue_exact, lt_div_iff₀ (by linarith)]
    linarith
  have e : transition (exactArith Real.exp) avg 0 =
      0 + 0.1 * (2 * sValue (exactArith Real.exp) avg 0 - 1) := by
    have a1 : ¬ (0 + 0.1 * (2 * sValue (exactArith Real.exp) avg 0 - 1) < 0) := by
      norm_num; linarith
    have a2 : ¬ (0 + 0.1 * (2 * sValue (exactArith Real.exp) avg 0 - 1) > 1) := by
      norm_num; linarith
    show clamp (0 + 0.1 * (2 * sValue (exactArith Real.exp) avg 0 - 1)) = _
    unfold clamp
    simp only [a1, a2, if_false]
  rw [e]
  constructor <;> norm_num <;> linarith

theorem cellAt_mem_unit {g : List (List α)} (hg : InUnit g) (x y : Nat) :
    0 ≤ cellAt g x y ∧ cellAt g x y ≤ 1 := by
  unfold cellAt
  cases hx : g[x]? with
  | none => simp
  | some col =>
    simp only [Option.getD_some]
    cases hy : col[y]? with
    | none => simp
    | some v =>
      simpa using hg col (List.getElem?_mem hx) v (List.getElem?_mem hy)

theorem neighborValues_length (W H : Nat) (g : List (List α)) (x y : Nat) :
    (neighborValues W H g x y).length = 9 := by
  simp [neighborValues, offsets]

/-- A `float` accumulation of values in `[0, hi]` lies between 0 and the number
of values times `hi`, when the rounding is monotone and fixes the multiples of
`hi` up to that number. -/
theorem floatSum_bounds (A : Arith α) (hmono : Monotone A.f32) {hi : α}
    (n : Nat) (hfix : ∀ k : Nat, k ≤ n → A.f32 ((k : α) * hi) = k * hi) :
    ∀ (l : List α), (∀ v ∈ l, 0 ≤ v ∧ v ≤ hi) → ∀ (k : Nat) (s : α), k + l.length ≤ n →
      0 ≤ s → s ≤ k * hi →
      0 ≤ l.foldl (fun s v => A.f32 (s + v)) s ∧
        l.foldl (fun s v => A.f32 (s + v)) s ≤ ((k + l.length : Nat) : α) * hi := by
  intro l
  induction l with
  | nil => intro _ k s _ h0 h1; simpa using ⟨h0, h1⟩
  | cons v l ih =>
    intro hl k s hk h0 h1
    have hv := hl v (List.mem_cons_self v l)
    rw [List.length_cons] at hk
    have h2 : 0 ≤ A.f32 (s + v) := by
      have := hmono (show (0 : α) ≤ s + v by linarith)
      have h00 := hfix 0 (Nat.zero_le n)
      simp only [Nat.cast_zero, zero_mul] at h00
      rwa [h00] at this
    have h3 : A.f32 (s + v) ≤ ((k + 1 : Nat) : α) * hi := by
      have := hmono (show s + v ≤ ((k + 1 : Nat) : α) * hi by push_cast; linarith)
      rwa [hfix (k + 1) (by omega)] at this
    have := ih (fun w hw => hl w (List.mem_cons_of_mem v hw)) (k + 1) (A.f32 (s + v))
      (by omega) h2 h3
    rw [List.foldl_cons, List.length_cons]
    have e : k + (l.length + 1) = k + 1 + l.length := by omega
    rw [e]
    exact this

/-- The `float` mean of nine values in `[0, hi]` lies in `[0, hi]`, for every
arithmetic whose `float` rounding is monotone and fixes the multiples of `hi`
up to `9 * hi`. -/
theorem floatMean_bounds (A : Arith α) (hmono : Monotone A.f32) {hi : α}
    (hfix : ∀ k : Nat, k ≤ 9 → A.f32 ((k : α) * hi) = k * hi)
    {l : List α} (hlen : l.length = 9) (hmem : ∀ v ∈ l, 0 ≤ v ∧ v ≤ hi) :
    0 ≤ average A (floatSum A l) 9 ∧ average A (floatSum A l) 9 ≤ hi := by
  have h := floatSum_bounds A hmono 9 hfix l hmem 0 0 (by rw [hlen]) (le_refl 0) (by simp)
  rw [hlen] at h
  have h00 := hfix 0 (by norm_num)
  have h11 := hfix 1 (by norm_num)
  simp only [Nat.cast_zero, Nat.cast_one, zero_mul, one_mul] at h00 h11
  have h9 : ((9 : Int) : α) = 9 := by norm_cast
  unfold average floatSum
  rw [h9]
  constructor
  · have := hmono (show (0 : α) ≤ l.foldl (fun s v => A.f32 (s + v)) 0 / 9 from
        div_nonneg h.1 (by norm_num))
    rwa [h00] at this
  · have := hmono (show l.foldl (fun s v => A.f32 (s + v)) 0 / 9 ≤ hi by
        rw [div_le_iff₀ (by norm_num)]
        have := h.2
        norm_num at this
        linarith)
    rwa [h11] at this

/-- The neighbourhood mean of a buffer with values in `[0, hi]` lies in
`[0, hi]`, for every arithmetic whose `float` rounding is monotone and fixes
the multiples of `hi` up to `9 * hi`. -/
theorem neighborMean_bounds (W H : Nat) (A : Arith α) (hmono : Monotone A.f32) {hi : α}
    (hfix : ∀ k : Nat, k ≤ 9 → A.f32 ((k : α) * hi) = k * hi)
    {g : List (List α)} (hg : ∀ i j, 0 ≤ cellAt g i j ∧ cellAt g i j ≤ hi) (x y : Nat) :
    0 ≤ neighborMean W H A g x y ∧ neighborMean W H A g x y ≤ hi := by
  have hmem : ∀ v ∈ neighborValues W H g x y, 0 ≤ v ∧ v ≤ hi := by
    intro v hv
    simp only [neighborValues, List.mem_flatMap, List.mem_map] at hv
    obtain ⟨dx, -, dy, -, rfl⟩ := hv
    exact hg _ _
  exact floatMean_bounds A hmono hfix (neighborValues_length W H g x y) hmem

/-- The neighbourhood mean of a buffer with values in `[0, 1]` lies in
`[0, 1]`, for every arithmetic whose `float` rounding is monotone and fixes
the natural numbers up to 9. -/
theorem neighborMean_mem_unit (W H : Nat) (A : Arith α) (hmono : Monotone A.f32)
    (hfix : ∀ k : Nat, k ≤ 9 → A.f32 (k : α) = k)
    {g : List (List α)} (hg : InUnit g) (x y : Nat) :
    0 ≤ neighborMean W H A g x y ∧ neighborMean W H A g x y ≤ 1 :=
  neighborMean_bounds W H A hmono
    (fun k hk => by rw [mul_one]; exact hfix k hk) (fun i j => cellAt_mem_unit hg i j) x y

theorem exactArith_mono (exp : α → α) : Monotone (exactArith exp).f32 := fun _ _ h => h

theorem exactArith_fix (exp : α → α) (k : Nat) : (exactArith exp).f32 (k : α) = k := rfl

theorem neighborMean_zeroGrid (W H : Nat) (A : Arith α) (h0 : A.f32 0 = 0) (x y : Nat) :
    neighborMean W H A (zeroGrid W H : List (List α)) x y = 0 := by
  simp [neighborMean, neighborValues, offsets, cellAt_zeroGrid, floatSum, average, h0]

end Lemmas

section IeeeLemmas

variable {α : Type} [LinearOrderedField α] [FloorRing α]

/-! ### Binary32 and binary64 rounding -/

theorem binary32_mono {x y : α} (h : x ≤ y) : binary32 x ≤ binary32 y :=
  roundNearest_mono (by norm_num) _ h

theorem binary64_mono {x y : α} (h : x ≤ y) : binary64 x ≤ binary64 y :=
  roundNearest_mono (by norm_num) _ h

theorem binary32_zero : binary32 (0 : α) = 0 := roundNearest_zero _ _

theorem binary64_zero : binary64 (0 : α) = 0 := roundNearest_zero _ _

theorem binary32_neg (x : α) : binary32 (-x) = -binary32 x := roundNearest_neg _ _ x

theorem binary64_neg (x : α) : binary64 (-x) = -binary64 x := roundNearest_neg _ _ x

/-- A quotient `m / 2 ^ k` with `|m| < 2 ^ 24` and `k ≤ 149` is a binary32
number. -/
theorem binary32_dyadic (m : Int) (k : Nat) (hm : |m| < 2 ^ 24) (hk : k ≤ 149) :
    binary32 ((m : α) / 2 ^ k) = (m : α) / 2 ^ k := by
  have h := @roundNearest_dyadic α _ _ 24 (-126) m (-(k : Int)) hm
    (by push_cast; omega)
  rw [zpow_neg, zpow_natCast, ← div_eq_mul_inv] at h
  exact h

/-- A quotient `m / 2 ^ k` with `|m| < 2 ^ 53` and `k ≤ 1074` is a binary64
number. -/
theorem binary64_dyadic (m : Int) (k : Nat) (hm : |m| < 2 ^ 53) (hk : k ≤ 1074) :
    binary64 ((m : α) / 2 ^ k) = (m : α) / 2 ^ k := by
  have h := @roundNearest_dyadic α _ _ 53 (-1022) m (-(k : Int)) hm
    (by push_cast; omega)
  rw [zpow_neg, zpow_natCast, ← div_eq_mul_inv] at h
  exact h

theorem binary32_natCast (n : Nat) (hn : n < 2 ^ 24) : binary32 (n : α) = n := by
  have h := binary32_dyadic (α := α) n 0 (by rw [abs_of_nonneg (by positivity)]; exact_mod_cast hn)
    (by norm_num)
  simpa using h

theorem binary64_natCast (n : Nat) (hn : n < 2 ^ 53) : binary64 (n : α) = n := by
  have h := binary64_dyadic (α := α) n 0 (by rw [abs_of_nonneg (by positivity)]; exact_mod_cast hn)
    (by norm_num)
  simpa using h

theorem binary32_one : binary32 (1 : α) = 1 := by
  simpa using binary32_natCast (α := α) 1 (by norm_num)

theorem binary64_one : binary64 (1 : α) = 1 := by
  simpa using binary64_natCast (α := α) 1 (by norm_num)

/-- A binary32 number is a binary64 number. -/
theorem binary64_binary32 (x : α) : binary64 (binary32 x) = binary32 x :=
  roundNearest_roundNearest (by norm_num) (by norm_num) (by norm_num) x

theorem binary32_binary32 (x : α) : binary32 (binary32 x) = binary32 x :=
  roundNearest_roundNearest (by norm_num) (le_refl _) (le_refl _) x

theorem binary32_nonneg {x : α} (h : 0 ≤ x) : 0 ≤ binary32 x :=
  roundNearest_nonneg _ _ h

theorem binary64_nonneg {x : α} (h : 0 ≤ x) : 0 ≤ binary64 x :=
  roundNearest_nonneg _ _ h

/-- The rounding error of binary32 below 2 in absolute value. -/
theorem binary32_dist_two {x : α} (h : |x| < 2) : |binary32 x - x| ≤ 1 / 2 ^ 24 := by
  have := @roundNearest_dist_le α _ _ 24 (-126) x (0)
    (by simpa using h) (by norm_num)
  rw [show ((0 : Int) - ((24 : Nat) : Int)) = -((24 : Nat) : Int) by norm_num, zpow_neg,
    zpow_natCast] at this
  simpa using this

/-- The rounding error of binary32 below 32 in absolute value. -/
theorem binary32_dist_thirtytwo {x : α} (h : |x| < 32) : |binary32 x - x| ≤ 1 / 2 ^ 20 := by
  have := @roundNearest_dist_le α _ _ 24 (-126) x (4)
    (by norm_num; exact h) (by norm_num)
  rw [show ((4 : Int) - ((24 : Nat) : Int)) = -((20 : Nat) : Int) by norm_num, zpow_neg,
    zpow_natCast] at this
  simpa using this

/-- The rounding error of binary64 below `2 ^ 16` in absolute value. -/
theorem binary64_dist {x : α} (h : |x| < 2 ^ 16) : |binary64 x - x| ≤ 1 / 2 ^ 37 := by
  have := @roundNearest_dist_le α _ _ 53 (-1022) x (15)
    (by norm_num; norm_num at h; exact h) (by norm_num)
  rw [show ((15 : Int) - ((53 : Nat) : Int)) = -((38 : Nat) : Int) by norm_num, zpow_neg,
    zpow_natCast] at this
  refine le_trans this ?_
  norm_num

/-- The rounding error of binary64 below 32 in absolute value. -/
theorem binary64_dist_thirtytwo {x : α} (h : |x| < 32) : |binary64 x - x| ≤ 1 / 2 ^ 49 := by
  have := @roundNearest_dist_le α _ _ 53 (-1022) x (4)
    (by norm_num; exact h) (by norm_num)
  rw [show ((4 : Int) - ((53 : Nat) : Int)) = -((49 : Nat) : Int) by norm_num, zpow_neg,
    zpow_natCast] at this
  simpa using this

/-- Evaluation of binary32 in the binade `[2 ^ (-k), 2 ^ (-k + 1))`. -/
theorem binary32_eval {x : α} (k : Nat) (m : Int) (hk : k ≤ 126)
    (h1 : 1 / 2 ^ k ≤ |x|) (h2 : |x| < 2 / 2 ^ k)
    (hm : |x * 2 ^ (k + 23) - (m : α)| < 1 / 2) :
    binary32 x = (m : α) / 2 ^ (k + 23) := by
  have e1 : (2 : α) ^ (-(k : Int)) = 1 / 2 ^ k := by
    rw [zpow_neg, zpow_natCast, one_div]
  have e2 : (2 : α) ^ (-(k : Int) + 1) = 2 / 2 ^ k := by
    rw [zpow_add_one₀ (by norm_num : (2 : α) ≠ 0), e1]
    ring
  have e3 : (2 : α) ^ (-(k : Int) - (((24 : Nat) : Int) - 1)) = 1 / 2 ^ (k + 23) := by
    rw [show (-(k : Int) - (((24 : Nat) : Int) - 1)) = -(((k + 23 : Nat)) : Int) by
      push_cast; ring, zpow_neg, zpow_natCast, one_div]
  have := @roundNearest_eval α _ _ 24 (-126) x (-(k : Int)) m
    (by rw [e1]; exact h1) (by rw [e2]; exact h2) (by omega)
    (by rw [e3, div_div_eq_mul_div, div_one]; exact hm)
  rw [e3] at this
  rw [binary32, this]
  ring

end IeeeLemmas

section IeeeReal

/-! ### The program's arithmetic over the reals -/

theorem exp_ten_le : Real.exp 10 ≤ 2 ^ 15 := by
  have h : Real.exp 10 = Real.exp 1 ^ 10 := by exact_mod_cast exp_nat 10
  rw [h]
  calc Real.exp 1 ^ 10 ≤ (2.7183 : ℝ) ^ 10 :=
        pow_le_pow_left₀ (le_of_lt (Real.exp_pos 1)) (le_of_lt exp_one_lt) 10
    _ ≤ 2 ^ 15 := by norm_num

theorem exp_nineteen_ge : (2 : ℝ) ^ 27 ≤ Real.exp 19 := by
  have h : Real.exp 19 = Real.exp 1 ^ 19 := by exact_mod_cast exp_nat 19
  rw [h]
  calc (2 : ℝ) ^ 27 ≤ (2.7182 : ℝ) ^ 19 := by norm_num
    _ ≤ Real.exp 1 ^ 19 := pow_le_pow_left₀ (by norm_num) (le_of_lt exp_one_gt) 19

theorem exp_neg_nineteen_le : Real.exp (-19) ≤ 1 / 2 ^ 27 := by
  rw [Real.exp_neg, one_div]
  exact inv_anti₀ (by norm_num) exp_nineteen_ge

/-- The `double` value `1.0 / (1.0 + exp(z))` lies in `[0, 1]`. -/
theorem invOnePlusExp_mem_unit (z : ℝ) :
    0 ≤ invOnePlusExp (ieeeArith Real.exp) z ∧ invOnePlusExp (ieeeArith Real.exp) z ≤ 1 := by
  show 0 ≤ binary64 (1 / binary64 (1 + binary64 (Real.exp z))) ∧
    binary64 (1 / binary64 (1 + binary64 (Real.exp z))) ≤ 1
  have hE : 0 ≤ binary64 (Real.exp z) := binary64_nonneg (le_of_lt (Real.exp_pos z))
  have hD : 1 ≤ binary64 (1 + binary64 (Real.exp z)) := by
    have := binary64_mono (show (1 : ℝ) ≤ 1 + binary64 (Real.exp z) by linarith)
    rwa [binary64_one] at this
  constructor
  · exact binary64_nonneg (by positivity)
  · have := binary64_mono (show 1 / binary64 (1 + binary64 (Real.exp z)) ≤ (1 : ℝ) by
      rw [div_le_one (by linarith)]; exact hD)
    rwa [binary64_one] at this

/-- For an exponent at most `-19` the stored `float` is exactly 1. -/
theorem invOnePlusExp_of_le {t : ℝ} (ht : t ≤ -19) :
    binary32 (invOnePlusExp (ieeeArith Real.exp) t) = 1 := by
  show binary32 (binary64 (1 / binary64 (1 + binary64 (Real.exp t)))) = 1
  have hE0 : 0 ≤ binary64 (Real.exp t) := binary64_nonneg (le_of_lt (Real.exp_pos t))
  have hE1 : binary64 (Real.exp t) ≤ 1 / 2 ^ 27 := by
    have h1 : Real.exp t ≤ 1 / 2 ^ 27 :=
      le_trans (Real.exp_le_exp.mpr ht) exp_neg_nineteen_le
    have := binary64_mono h1
    have e := binary64_dyadic (α := ℝ) 1 27 (by norm_num) (by norm_num)
    rw [Int.cast_one] at e
    rwa [e] at this
  have hD0 : 1 ≤ binary64 (1 + binary64 (Real.exp t)) := by
    have := binary64_mono (show (1 : ℝ) ≤ 1 + binary64 (Real.exp t) by linarith)
    rwa [binary64_one] at this
  have hD1 : binary64 (1 + binary64 (Real.exp t)) ≤ 134217729 / 2 ^ 27 := by
    have := binary64_mono (show 1 + binary64 (Real.exp t) ≤ (134217729 : ℝ) / 2 ^ 27 by
      norm_num at hE1 ⊢; linarith)
    have e := binary64_dyadic (α := ℝ) 134217729 27 (by norm_num) (by norm_num)
    rw [show ((134217729 : Int) : ℝ) = 134217729 by norm_num] at e
    rwa [e] at this
  have hr1 : binary64 (1 / binary64 (1 + binary64 (Real.exp t))) ≤ 1 := by
    have := binary64_mono (show 1 / binary64 (1 + binary64 (Real.exp t)) ≤ (1 : ℝ) by
      rw [div_le_one (by linarith)]; exact hD0)
    rwa [binary64_one] at this
  have hr0 : 134217727 / 2 ^ 27 ≤ binary64 (1 / binary64 (1 + binary64 (Real.exp t))) := by
    have := binary64_mono (show (134217727 : ℝ) / 2 ^ 27 ≤
        1 / binary64 (1 + binary64 (Real.exp t)) by
      rw [le_div_iff₀ (by linarith)]
      have : (134217727 : ℝ) / 2 ^ 27 * binary64 (1 + binary64 (Real.exp t)) ≤
          134217727 / 2 ^ 27 * (134217729 / 2 ^ 27) :=
        mul_le_mul_of_nonneg_left hD1 (by norm_num)
      refine le_trans this ?_
      norm_num)
    have e := binary64_dyadic (α := ℝ) 134217727 27 (by norm_num) (by norm_num)
    rw [show ((134217727 : Int) : ℝ) = 134217727 by norm_num] at e
    rwa [e] at this
  have hlow : binary32 ((134217727 : ℝ) / 2 ^ 27) = 1 := by
    have := binary32_eval (x := (134217727 : ℝ) / 2 ^ 27) 1 16777216 (by norm_num)
      (by rw [abs_of_nonneg] <;> norm_num) (by rw [abs_of_nonneg] <;> norm_num)
      (by norm_num [abs_lt])
    rw [this]
    norm_num
  apply le_antisymm
  · have := binary32_mono hr1
    rwa [binary32_one] at this
  · have := binary32_mono hr0
    rwa [hlow] at this

/-- For an exponent at least 19 the stored `float` is at most `2 ^ (-27)`. -/
theorem invOnePlusExp_of_ge {t : ℝ} (ht : 19 ≤ t) :
    0 ≤ binary32 (invOnePlusExp (ieeeArith Real.exp) t) ∧
      binary32 (invOnePlusExp (ieeeArith Real.exp) t) ≤ 1 / 2 ^ 27 := by
  refine ⟨binary32_nonneg (invOnePlusExp_mem_unit t).1, ?_⟩
  show binary32 (binary64 (1 / binary64 (1 + binary64 (Real.exp t)))) ≤ 1 / 2 ^ 27
  have e27 : binary64 ((2 : ℝ) ^ 27) = 2 ^ 27 := by
    have e := binary64_natCast (α := ℝ) (2 ^ 27) (by norm_num)
    rwa [Nat.cast_pow, Nat.cast_ofNat] at e
  have hE : (2 : ℝ) ^ 27 ≤ binary64 (Real.exp t) := by
    have := binary64_mono (le_trans exp_nineteen_ge (Real.exp_le_exp.mpr ht))
    rwa [e27] at this
  have hD : (2 : ℝ) ^ 27 ≤ binary64 (1 + binary64 (Real.exp t)) := by
    have := binary64_mono (show (2 : ℝ) ^ 27 ≤ 1 + binary64 (Real.exp t) by linarith)
    rwa [e27] at this
  have einv : binary64 ((1 : ℝ) / 2 ^ 27) = 1 / 2 ^ 27 := by
    have e := binary64_dyadic (α := ℝ) 1 27 (by norm_num) (by norm_num)
    rwa [Int.cast_one] at e
  have einv32 : binary32 ((1 : ℝ) / 2 ^ 27) = 1 / 2 ^ 27 := by
    have e := binary32_dyadic (α := ℝ) 1 27 (by norm_num) (by norm_num)
    rwa [Int.cast_one] at e
  have hr : binary64 (1 / binary64 (1 + binary64 (Real.exp t))) ≤ 1 / 2 ^ 27 := by
    have := binary64_mono (show 1 / binary64 (1 + binary64 (Real.exp t)) ≤ (1 : ℝ) / 2 ^ 27 from
      one_div_le_one_div_of_le (by norm_num) hD)
    rwa [einv] at this
  have := binary32_mono hr
  rwa [einv32] at this

/-! ### Accuracy of the `double` sigmoid expressions -/

/-- The `double` argument `-20 * (average - k)` is within `2 ^ (-43)` of the
exact value. -/
theorem sigmoid_arg_close {avg k : ℝ} (h0 : 0 ≤ avg) (h1 : avg ≤ 1) (hk0 : 0 ≤ k)
    (hk1 : k ≤ 1 / 2) :
    |binary64 (-20 * binary64 (avg - binary64 k)) - -20 * (avg - k)| ≤ 1 / 2 ^ 43 := by
  have a1 : |binary64 k - k| ≤ 1 / 2 ^ 49 :=
    binary64_dist_thirtytwo (by rw [abs_of_nonneg hk0]; linarith)
  have a1' := abs_le.mp a1
  generalize binary64 k = ck at a1 a1' ⊢
  have a2 : |binary64 (avg - ck) - (avg - ck)| ≤ 1 / 2 ^ 49 :=
    binary64_dist_thirtytwo (by
      rw [abs_lt]; norm_num at a1' ⊢; constructor <;> linarith)
  have a2' := abs_le.mp a2
  generalize binary64 (avg - ck) = u at a2 a2' ⊢
  have a3 : |binary64 (-20 * u) - (-20 * u)| ≤ 1 / 2 ^ 49 :=
    binary64_dist_thirtytwo (by
      rw [abs_lt]; norm_num at a1' a2' ⊢; constructor <;> linarith)
  have a3' := abs_le.mp a3
  generalize binary64 (-20 * u) = z at a3 a3' ⊢
  rw [abs_le]; norm_num at a1' a2' a3' ⊢; constructor <;> linarith

/-- Exponentials of close arguments below 10 are close. -/
theorem exp_close {z zs : ℝ} (hd : |z - zs| ≤ 1 / 2 ^ 43) (hzs : zs ≤ 10) :
    |Real.exp z - Real.exp zs| ≤ 1 / 2 ^ 27 := by
  have hEs : Real.exp zs ≤ 2 ^ 15 := le_trans (Real.exp_le_exp.mpr hzs) exp_ten_le
  have hEs0 : 0 < Real.exp zs := Real.exp_pos zs
  have e : Real.exp z - Real.exp zs = Real.exp zs * (Real.exp (z - zs) - 1) := by
    rw [mul_sub, mul_one, ← Real.exp_add]
    congr 2
    ring
  have h2 := Real.abs_exp_sub_one_le (x := z - zs) (le_trans hd (by norm_num))
  rw [e, abs_mul, abs_of_pos hEs0]
  calc Real.exp zs * |Real.exp (z - zs) - 1| ≤ 2 ^ 15 * (2 * (1 / 2 ^ 43)) :=
        mul_le_mul hEs (le_trans h2 (by linarith)) (abs_nonneg _) (by norm_num)
    _ = 1 / 2 ^ 27 := by norm_num

/-- Reciprocals of close numbers above 1 are close. -/
theorem inv_close {D Ds e : ℝ} (hD : 1 ≤ D) (hDs : 1 ≤ Ds) (h : |D - Ds| ≤ e) :
    |1 / D - 1 / Ds| ≤ e := by
  have hpos : 0 < D * Ds := by positivity
  have e1 : 1 / D - 1 / Ds = (Ds - D) / (D * Ds) := by
    field_simp
  have h1le : 1 ≤ D * Ds := by nlinarith
  rw [e1, abs_div, abs_of_pos hpos, abs_sub_comm]
  calc |D - Ds| / (D * Ds) ≤ |D - Ds| / 1 :=
        div_le_div_of_nonneg_left (abs_nonneg _) one_pos h1le
    _ ≤ e := by rw [div_one]; exact h

/-- The `double` value `1.0 / (1.0 + w)` computed from the rounded `w` is
close to `1 / (1 + ws)` when `w` is close to `ws`. -/
theorem inv_one_add_close {w ws : ℝ} (hw : 0 < w) (hws0 : 0 < ws) (hws : ws ≤ 2 ^ 15)
    (h : |w - ws| ≤ 1 / 2 ^ 27) :
    |binary64 (1 / binary64 (1 + binary64 w)) - 1 / (1 + ws)| ≤ 1 / 2 ^ 26 := by
  have h' := abs_le.mp h
  have a4 : |binary64 w - w| ≤ 1 / 2 ^ 37 :=
    binary64_dist (by rw [abs_of_pos hw]; norm_num at h' hws ⊢; linarith)
  have a4' := abs_le.mp a4
  have hE0 : 0 ≤ binary64 w := binary64_nonneg (le_of_lt hw)
  generalize binary64 w = E at a4 a4' hE0 ⊢
  have a5 : |binary64 (1 + E) - (1 + E)| ≤ 1 / 2 ^ 37 :=
    binary64_dist (by
      rw [abs_of_nonneg (by linarith)]; norm_num at h' hws a4' ⊢; linarith)
  have a5' := abs_le.mp a5
  have hD1 : 1 ≤ binary64 (1 + E) := by
    have := binary64_mono (show (1 : ℝ) ≤ 1 + E by linarith)
    rwa [binary64_one] at this
  generalize binary64 (1 + E) = D at a5 a5' hD1 ⊢
  have hDs : |D - (1 + ws)| ≤ 1 / 2 ^ 27 + 1 / 2 ^ 36 := by
    rw [abs_le]; norm_num at h' a4' a5' ⊢; constructor <;> linarith
  have hq := inv_close hD1 (by linarith) hDs
  have hq' := abs_le.mp hq
  have hinv1 : 1 / D ≤ 1 := by rw [div_le_one (by linarith)]; exact hD1
  have hinv0 : 0 ≤ 1 / D := by positivity
  have a6 : |binary64 (1 / D) - 1 / D| ≤ 1 / 2 ^ 49 :=
    binary64_dist_thirtytwo (by rw [abs_of_nonneg hinv0]; linarith)
  have a6' := abs_le.mp a6
  generalize binary64 (1 / D) = r at a6 a6' ⊢
  generalize 1 / D = iD at hq hq' a6 a6' hinv0 hinv1
  generalize 1 / (1 + ws) = g at hq hq' ⊢
  rw [abs_le]
  norm_num at hq' a6' ⊢
  constructor <;> linarith

/-- The `double` computation of `1.0 / (1.0 + exp(-20 * (average - k)))` is
within `2 ^ (-26)` of the exact value, for a mean in `[0, 1]`. -/
theorem sigmoid_chain_close {avg k : ℝ} (h0 : 0 ≤ avg) (h1 : avg ≤ 1) (hk0 : 0 ≤ k)
    (hk1 : k ≤ 1 / 2) :
    |invOnePlusExp (ieeeArith Real.exp) (binary64 (-20 * binary64 (avg - binary64 k))) -
        1 / (1 + Real.exp (-20 * (avg - k)))| ≤ 1 / 2 ^ 26 := by
  have hz := sigmoid_arg_close h0 h1 hk0 hk1
  have hzs : -20 * (avg - k) ≤ 10 := by linarith
  have hE := exp_close hz hzs
  exact inv_one_add_close (Real.exp_pos _) (Real.exp_pos _)
    (le_trans (Real.exp_le_exp.mpr hzs) exp_ten_le) hE

/-! ### The program's `birth`, `death` and divisor -/

theorem transition_eq_clamp {α : Type} [LinearOrderedField α] (A : Arith α)
    (average current : α) :
    transition A average current = clamp (unclampedNext A average current) := rfl

theorem birth_ieee (avg : ℝ) :
    birth (ieeeArith Real.exp) avg =
      binary32 (invOnePlusExp (ieeeArith Real.exp)
        (binary64 (-20 * binary64 (avg - binary64 0.3)))) := rfl

theorem death_ieee (avg : ℝ) :
    death (ieeeArith Real.exp) avg =
      binary32 (invOnePlusExp (ieeeArith Real.exp)
        (binary64 (-20 * binary64 (avg - binary64 0.4)))) := rfl

theorem denominator_ieee (avg : ℝ) :
    denominator (ieeeArith Real.exp) avg =
      binary64 (binary32 (death (ieeeArith Real.exp) avg - birth (ieeeArith Real.exp) avg) +
        binary64 1e-6) := rfl

theorem sValue_ieee (avg c : ℝ) :
    sValue (ieeeArith Real.exp) avg c =
      binary32 (invOnePlusExp (ieeeArith Real.exp)
        (binary64 (binary32 (-20 * binary32 (c - birth (ieeeArith Real.exp) avg)) /
          denominator (ieeeArith Real.exp) avg))) := rfl

theorem unclampedNext_ieee (avg c : ℝ) :
    unclampedNext (ieeeArith Real.exp) avg c =
      binary32 (c + binary32 (binary32 0.1 *
        binary32 (binary32 (2 * sValue (ieeeArith Real.exp) avg c) - 1))) := rfl

theorem birth_ieee_mem_unit (avg : ℝ) :
    0 ≤ birth (ieeeArith Real.exp) avg ∧ birth (ieeeArith Real.exp) avg ≤ 1 := by
  rw [birth_ieee]
  have hu := invOnePlusExp_mem_unit (binary64 (-20 * binary64 (avg - binary64 0.3)))
  refine ⟨binary32_nonneg hu.1, ?_⟩
  have := binary32_mono hu.2
  rwa [binary32_one] at this

theorem death_ieee_mem_unit (avg : ℝ) :
    0 ≤ death (ieeeArith Real.exp) avg ∧ death (ieeeArith Real.exp) avg ≤ 1 := by
  rw [death_ieee]
  have hu := invOnePlusExp_mem_unit (binary64 (-20 * binary64 (avg - binary64 0.4)))
  refine ⟨binary32_nonneg hu.1, ?_⟩
  have := binary32_mono hu.2
  rwa [binary32_one] at this

/-- The program's `birth` is within `2 ^ (-24) + 2 ^ (-26)` of the exact one. -/
theorem birth_ieee_close {avg : ℝ} (h0 : 0 ≤ avg) (h1 : avg ≤ 1) :
    |birth (ieeeArith Real.exp) avg - birth (exactArith Real.exp) avg| ≤
      1 / 2 ^ 24 + 1 / 2 ^ 26 := by
  rw [birth_ieee, birth_exact]
  have hc := sigmoid_chain_close h0 h1 (k := 0.3) (by norm_num) (by norm_num)
  have hu := invOnePlusExp_mem_unit (binary64 (-20 * binary64 (avg - binary64 0.3)))
  generalize invOnePlusExp (ieeeArith Real.exp)
    (binary64 (-20 * binary64 (avg - binary64 0.3))) = r at hc hu ⊢
  have hr := binary32_dist_two (x := r) (by rw [abs_of_nonneg hu.1]; linarith)
  generalize binary32 r = b at hr ⊢
  generalize 1 / (1 + Real.exp (-20 * (avg - 0.3))) = g at hc ⊢
  have hc' := abs_le.mp hc
  have hr' := abs_le.mp hr
  rw [abs_le]
  constructor <;> linarith

/-- The program's `death` is within `2 ^ (-24) + 2 ^ (-26)` of the exact one. -/
theorem death_ieee_close {avg : ℝ} (h0 : 0 ≤ avg) (h1 : avg ≤ 1) :
    |death (ieeeArith Real.exp) avg - death (exactArith Real.exp) avg| ≤
      1 / 2 ^ 24 + 1 / 2 ^ 26 := by
  rw [death_ieee, death_exact]
  have hc := sigmoid_chain_close h0 h1 (k := 0.4) (by norm_num) (by norm_num)
  have hu := invOnePlusExp_mem_unit (binary64 (-20 * binary64 (avg - binary64 0.4)))
  generalize invOnePlusExp (ieeeArith Real.exp)
    (binary64 (-20 * binary64 (avg - binary64 0.4))) = r at hc hu ⊢
  have hr := binary32_dist_two (x := r) (by rw [abs_of_nonneg hu.1]; linarith)
  generalize binary32 r = b at hr ⊢
  generalize 1 / (1 + Real.exp (-20 * (avg - 0.4))) = g at hc ⊢
  have hc' := abs_le.mp hc
  have hr' := abs_le.mp hr
  rw [abs_le]
  constructor <;> linarith

/-- In the program's arithmetic the divisor of the transition rule is at most
`-2 ^ (-20)` whenever the neighbourhood mean lies in `[0, 1]`. -/
theorem denominator_ieee_le {avg : ℝ} (h0 : 0 ≤ avg) (h1 : avg ≤ 1) :
    denominator (ieeeArith Real.exp) avg ≤ -(1 / 2 ^ 20) := by
  rw [denominator_ieee]
  have hb := abs_le.mp (birth_ieee_close h0 h1)
  have hd := abs_le.mp (death_ieee_close h0 h1)
  have hg := death_sub_birth_le h0 h1
  have hbu := birth_ieee_mem_unit avg
  have hdu := death_ieee_mem_unit avg
  generalize birth (ieeeArith Real.exp) avg = b at hb hbu ⊢
  generalize death (ieeeArith Real.exp) avg = d at hd hdu ⊢
  generalize birth (exactArith Real.exp) avg = bs at hb hg
  generalize death (exactArith Real.exp) avg = ds at hd hg
  have hy := abs_le.mp (binary32_dist_two (x := d - b) (by
    rw [abs_lt]; constructor <;> linarith))
  generalize binary32 (d - b) = y at hy ⊢
  have he : binary64 (1e-6 : ℝ) ≤ 1 / 2 ^ 19 := by
    have := binary64_mono (show (1e-6 : ℝ) ≤ 1 / 2 ^ 19 by norm_num)
    have e := binary64_dyadic (α := ℝ) 1 19 (by norm_num) (by norm_num)
    rw [Int.cast_one] at e
    rwa [e] at this
  generalize binary64 (1e-6 : ℝ) = ε at he ⊢
  have h20 : binary64 (-(1 / 2 ^ 20) : ℝ) = -(1 / 2 ^ 20) := by
    have e := binary64_dyadic (α := ℝ) 1 20 (by norm_num) (by norm_num)
    rw [Int.cast_one] at e
    rw [binary64_neg, e]
  have := binary64_mono (show y + ε ≤ -(1 / 2 ^ 20 : ℝ) by
    norm_num at hb hd hg hy he ⊢; linarith)
  rwa [h20] at this

/-- In the program's arithmetic `birth` is at least `2 ^ (-9)` whenever the
neighbourhood mean lies in `[0, 1]`. -/
theorem birth_ieee_ge {avg : ℝ} (h0 : 0 ≤ avg) (h1 : avg ≤ 1) :
    1 / 2 ^ 9 ≤ birth (ieeeArith Real.exp) avg := by
  have hb := abs_le.mp (birth_ieee_close h0 h1)
  have hs : 1 / 405 ≤ birth (exactArith Real.exp) avg := by
    rw [birth_exact]
    have hE2 : Real.exp (-20 * (avg - 0.3)) ≤ 404 := by
      refine le_trans (Real.exp_le_exp.mpr ?_) exp_six_le
      norm_num; linarith
    have hE0 := Real.exp_pos (-20 * (avg - 0.3))
    exact one_div_le_one_div_of_le (by linarith) (by linarith)
  norm_num at hb hs ⊢
  linarith

/-- In the program's arithmetic the divisor is at least `-birth`. -/
theorem denominator_ieee_ge (avg : ℝ) :
    -birth (ieeeArith Real.exp) avg ≤ denominator (ieeeArith Real.exp) avg := by
  have hfix : binary32 (birth (ieeeArith Real.exp) avg) = birth (ieeeArith Real.exp) avg := by
    rw [birth_ieee, binary32_binary32]
  rw [denominator_ieee]
  have hdu := death_ieee_mem_unit avg
  generalize birth (ieeeArith Real.exp) avg = b at hfix ⊢
  generalize death (ieeeArith Real.exp) avg = d at hdu ⊢
  have hy : -b ≤ binary32 (d - b) := by
    have := binary32_mono (show -b ≤ d - b by linarith)
    rwa [binary32_neg, hfix] at this
  have he : 0 ≤ binary64 (1e-6 : ℝ) := binary64_nonneg (by norm_num)
  have := binary64_mono (show -b ≤ binary32 (d - b) + binary64 (1e-6 : ℝ) by linarith)
  rwa [binary64_neg, ← hfix, binary64_binary32, hfix] at this

/-! ### Cells far from `birth` in the program's arithmetic -/

theorem binary32_tenth : binary32 (0.1 : ℝ) = tenthF := by
  have := binary32_eval (x := (0.1 : ℝ)) 4 13421773 (by norm_num)
    (by rw [abs_of_nonneg] <;> norm_num) (by rw [abs_of_nonneg] <;> norm_num)
    (by norm_num [abs_lt])
  rw [this, tenthF]
  norm_num

theorem binary32_tenthF : binary32 (tenthF : ℝ) = tenthF := by
  have e := binary32_dyadic (α := ℝ) 13421773 27 (by norm_num) (by norm_num)
  rw [tenthF]
  norm_num at e ⊢
  exact e

theorem binary32_ninth : binary32 (1 / 9 : ℝ) = ninthF := by
  have := binary32_eval (x := (1 / 9 : ℝ)) 4 14913081 (by norm_num)
    (by rw [abs_of_nonneg] <;> norm_num) (by rw [abs_of_nonneg] <;> norm_num)
    (by norm_num [abs_lt])
  rw [this, ninthF]
  norm_num

theorem binary32_one_sub_tenthF : binary32 (1 - tenthF : ℝ) = nineTenthsF := by
  have := binary32_eval (x := (1 - tenthF : ℝ)) 1 15099494 (by norm_num)
    (by rw [tenthF, abs_of_nonneg] <;> norm_num)
    (by rw [tenthF, abs_of_nonneg] <;> norm_num)
    (by rw [tenthF]; norm_num [abs_lt])
  rw [this, nineTenthsF]
  norm_num

theorem binary32_two : binary32 (2 : ℝ) = 2 := by
  simpa using binary32_natCast (α := ℝ) 2 (by norm_num)

/-- In the program's arithmetic, a cell holding 0 with a neighbourhood mean in
`[0, 1]` gets `s = 1`. -/
theorem sValue_ieee_zero {avg : ℝ} (h0 : 0 ≤ avg) (h1 : avg ≤ 1) :
    sValue (ieeeArith Real.exp) avg 0 = 1 := by
  rw [sValue_ieee]
  apply invOnePlusExp_of_le
  have hfix : binary32 (birth (ieeeArith Real.exp) avg) = birth (ieeeArith Real.exp) avg := by
    rw [birth_ieee, binary32_binary32]
  have hb9 := birth_ieee_ge h0 h1
  have hb1 := (birth_ieee_mem_unit avg).2
  have hdl := denominator_ieee_le h0 h1
  have hdg := denominator_ieee_ge avg
  generalize birth (ieeeArith Real.exp) avg = b at hfix hb9 hb1 hdg ⊢
  generalize denominator (ieeeArith Real.exp) avg = den at hdl hdg ⊢
  rw [zero_sub, binary32_neg, hfix, mul_neg, neg_mul, neg_neg]
  have hx := abs_le.mp (binary32_dist_thirtytwo (x := 20 * b) (by
    rw [abs_of_nonneg (by linarith)]; linarith))
  generalize binary32 (20 * b) = x2 at hx ⊢
  have hden : den < 0 := lt_of_le_of_lt hdl (by norm_num)
  have hq : x2 / den ≤ -(39 / 2) := by
    rw [div_le_iff_of_neg hden]
    norm_num at hx hb9 ⊢
    nlinarith
  have e : binary64 (-(39 / 2) : ℝ) = -(39 / 2) := by
    have e := binary64_dyadic (α := ℝ) 39 1 (by norm_num) (by norm_num)
    rw [binary64_neg]
    norm_num at e ⊢
    exact e
  have := binary64_mono hq
  rw [e] at this
  linarith

/-- In the program's arithmetic, a cell whose value is at least twice `birth`
gets `s ≤ 2 ^ (-27)`. -/
theorem sValue_ieee_high {avg c : ℝ} (h0 : 0 ≤ avg) (h1 : avg ≤ 1)
    (hc : 2 * birth (ieeeArith Real.exp) avg ≤ c) (hc1 : c ≤ 1) :
    0 ≤ sValue (ieeeArith Real.exp) avg c ∧ sValue (ieeeArith Real.exp) avg c ≤ 1 / 2 ^ 27 := by
  rw [sValue_ieee]
  apply invOnePlusExp_of_ge
  have hb9 := birth_ieee_ge h0 h1
  have hdl := denominator_ieee_le h0 h1
  have hdg := denominator_ieee_ge avg
  generalize birth (ieeeArith Real.exp) avg = b at hc hb9 hdg ⊢
  generalize denominator (ieeeArith Real.exp) avg = den at hdl hdg ⊢
  have hb0 : 0 < b := lt_of_lt_of_le (by norm_num) hb9
  have hx1 := abs_le.mp (binary32_dist_two (x := c - b) (by
    rw [abs_lt]; constructor <;> linarith))
  generalize binary32 (c - b) = x1 at hx1 ⊢
  have hx2 := abs_le.mp (binary32_dist_thirtytwo (x := -20 * x1) (by
    rw [abs_lt]; norm_num at hx1 ⊢; constructor <;> linarith))
  generalize binary32 (-20 * x1) = x2 at hx2 ⊢
  have hden : den < 0 := lt_of_le_of_lt hdl (by norm_num)
  have hq : 39 / 2 ≤ x2 / den := by
    rw [le_div_iff_of_neg hden]
    norm_num at hx1 hx2 hb9 ⊢
    nlinarith
  have e : binary64 (39 / 2 : ℝ) = 39 / 2 := by
    have e := binary64_dyadic (α := ℝ) 39 1 (by norm_num) (by norm_num)
    norm_num at e ⊢
    exact e
  have := binary64_mono hq
  rw [e] at this
  linarith

/-- In the program's arithmetic, a cell with `s = 1` is raised by `0.1f`. -/
theorem unclampedNext_of_sValue_one {avg c : ℝ} (hs : sValue (ieeeArith Real.exp) avg c = 1) :
    unclampedNext (ieeeArith Real.exp) avg c = binary32 (c + tenthF) := by
  rw [unclampedNext_ieee, hs, mul_one, binary32_two, binary32_tenth]
  norm_num
  rw [binary32_one, mul_one, binary32_tenthF]

/-- In the program's arithmetic, a cell with `s ≤ 2 ^ (-27)` is lowered by
`0.1f`. -/
theorem unclampedNext_of_sValue_small {avg c : ℝ}
    (hs : 0 ≤ sValue (ieeeArith Real.exp) avg c ∧ sValue (ieeeArith Real.exp) avg c ≤ 1 / 2 ^ 27) :
    unclampedNext (ieeeArith Real.exp) avg c = binary32 (c - tenthF) := by
  rw [unclampedNext_ieee, binary32_tenth]
  generalize sValue (ieeeArith Real.exp) avg c = s at hs ⊢
  have h2s0 : 0 ≤ binary32 (2 * s) := binary32_nonneg (by linarith)
  have h2s1 : binary32 (2 * s) ≤ 1 / 2 ^ 26 := by
    have := binary32_mono (show 2 * s ≤ (1 : ℝ) / 2 ^ 26 by norm_num at hs ⊢; linarith)
    have e := binary32_dyadic (α := ℝ) 1 26 (by norm_num) (by norm_num)
    rw [Int.cast_one] at e
    rwa [e] at this
  generalize binary32 (2 * s) = w at h2s0 h2s1 ⊢
  have hm : binary32 (w - 1) = -1 := by
    apply le_antisymm
    · have := binary32_mono (show w - 1 ≤ -((67108863 : ℝ) / 2 ^ 26) by
        norm_num at h2s1 ⊢; linarith)
      have e := binary32_eval (x := (67108863 : ℝ) / 2 ^ 26) 1 16777216 (by norm_num)
        (by rw [abs_of_nonneg] <;> norm_num) (by rw [abs_of_nonneg] <;> norm_num)
        (by norm_num [abs_lt])
      rw [binary32_neg, e] at this
      norm_num at this ⊢
      exact this
    · have := binary32_mono (show (-1 : ℝ) ≤ w - 1 by linarith)
      rwa [binary32_neg, binary32_one] at this
  rw [hm, mul_neg, mul_one, binary32_neg, binary32_tenthF, sub_eq_add_neg]

theorem clamp_of_mem_unit {α : Type} [LinearOrderedField α] {v : α} (h0 : 0 ≤ v)
    (h1 : v ≤ 1) : clamp v = v := by
  unfold clamp
  simp [not_lt.mpr h0, not_lt.mpr h1]

/-- In the program's arithmetic, a cell holding 0 with a neighbourhood mean in
`[0, 1]` is given exactly `0.1f`. -/
theorem transition_ieee_zero {avg : ℝ} (h0 : 0 ≤ avg) (h1 : avg ≤ 1) :
    transition (ieeeArith Real.exp) avg 0 = tenthF := by
  rw [transition_eq_clamp, unclampedNext_of_sValue_one (sValue_ieee_zero h0 h1), zero_add,
    binary32_tenthF]
  exact clamp_of_mem_unit (by rw [tenthF]; norm_num) (by rw [tenthF]; norm_num)

/-- In the program's arithmetic, a cell whose value `c ≤ 1` is at least twice
`birth` is given `c - 0.1f`, rounded and clamped. -/
theorem transition_ieee_high {avg c : ℝ} (h0 : 0 ≤ avg) (h1 : avg ≤ 1)
    (hc : 2 * birth (ieeeArith Real.exp) avg ≤ c) (hc1 : c ≤ 1) :
    transition (ieeeArith Real.exp) avg c = clamp (binary32 (c - tenthF)) := by
  rw [transition_eq_clamp, unclampedNext_of_sValue_small (sValue_ieee_high h0 h1 hc hc1)]

/-- In the program's arithmetic `birth` is at most `51 / 1024` for a mean of at
most `3 / 20`. -/
theorem birth_ieee_le {avg : ℝ} (h0 : 0 ≤ avg) (h1 : avg ≤ 3 / 20) :
    birth (ieeeArith Real.exp) avg ≤ 51 / 1024 := by
  have hb := abs_le.mp (birth_ieee_close h0 (by linarith))
  have hs : birth (exactArith Real.exp) avg ≤ 1 / 21 := by
    rw [birth_exact]
    have h3 : (20 : ℝ) ≤ Real.exp 3 := by
      have h : Real.exp 3 = Real.exp 1 ^ 3 := by exact_mod_cast exp_nat 3
      rw [h]
      calc (20 : ℝ) ≤ (2.7182 : ℝ) ^ 3 := by norm_num
        _ ≤ Real.exp 1 ^ 3 := pow_le_pow_left₀ (by norm_num) (le_of_lt exp_one_gt) 3
    have hE : 20 ≤ Real.exp (-20 * (avg - 0.3)) := by
      refine le_trans h3 (Real.exp_le_exp.mpr ?_)
      norm_num; linarith
    exact one_div_le_one_div_of_le (by norm_num) (by linarith)
  norm_num at hb hs ⊢
  linarith

/-! ### The division guard -/

theorem ieeeArith_mono {α : Type} [LinearOrderedField α] [FloorRing α] (exp : α → α) :
    Monotone (ieeeArith exp).f32 := fun _ _ h => binary32_mono h

theorem ieeeArith_fix {α : Type} [LinearOrderedField α] [FloorRing α] (exp : α → α)
    (k : Nat) (hk : k ≤ 9) : (ieeeArith exp).f32 (k : α) = k :=
  binary32_natCast k (lt_of_le_of_lt hk (by norm_num))

/-- The neighbourhood mean of a buffer with values in `[0, 1]` lies in `[0, 1]`
in the program's arithmetic and in exact arithmetic. -/
theorem neighborMean_mem_unit_of {A : Arith ℝ}
    (hA : A = ieeeArith Real.exp ∨ A = exactArith Real.exp) (W H : Nat)
    {g : List (List ℝ)} (hg : InUnit g) (x y : Nat) :
    0 ≤ neighborMean W H A g x y ∧ neighborMean W H A g x y ≤ 1 := by
  rcases hA with rfl | rfl
  · exact neighborMean_mem_unit W H _ (ieeeArith_mono _) (ieeeArith_fix _) hg x y
  · exact neighborMean_mem_unit W H _ (exactArith_mono _) (fun k _ => exactArith_fix _ k) hg x y

/-- The divisor is strictly negative for a mean in `[0, 1]`, in the program's
arithmetic and in exact arithmetic. -/
theorem denominator_neg_of {A : Arith ℝ}
    (hA : A = ieeeArith Real.exp ∨ A = exactArith Real.exp) {avg : ℝ} (h0 : 0 ≤ avg)
    (h1 : avg ≤ 1) : denominator A avg < 0 := by
  rcases hA with rfl | rfl
  · exact lt_of_le_of_lt (denominator_ieee_le h0 h1) (by norm_num)
  · exact denominator_neg h0 h1

/-- A cell holding 0 with a mean in `[0, 1]` is given a strictly positive
value, in the program's arithmetic and in exact arithmetic. -/
theorem transition_zero_pos_of {A : Arith ℝ}
    (hA : A = ieeeArith Real.exp ∨ A = exactArith Real.exp) {avg : ℝ} (h0 : 0 ≤ avg)
    (h1 : avg ≤ 1) : 0 < transition A avg 0 := by
  rcases hA with rfl | rfl
  · rw [transition_ieee_zero h0 h1, tenthF]; norm_num
  · exact (transition_zero_pos h0 h1).1

/-- For an exponent that is not positive the stored `float` is at least `1/2`. -/
theorem invOnePlusExp_of_nonpos {t : ℝ} (ht : t ≤ 0) :
    1 / 2 ≤ binary32 (invOnePlusExp (ieeeArith Real.exp) t) := by
  show 1 / 2 ≤ binary32 (binary64 (1 / binary64 (1 + binary64 (Real.exp t))))
  have hE : binary64 (Real.exp t) ≤ 1 := by
    have := binary64_mono (Real.exp_le_one_iff.mpr ht)
    rwa [binary64_one] at this
  have e2 : binary64 (2 : ℝ) = 2 := by
    simpa using binary64_natCast (α := ℝ) 2 (by norm_num)
  have hD0 : 1 ≤ binary64 (1 + binary64 (Real.exp t)) := by
    have := binary64_mono (show (1 : ℝ) ≤ 1 + binary64 (Real.exp t) by
      linarith [binary64_nonneg (le_of_lt (Real.exp_pos t))])
    rwa [binary64_one] at this
  have hD : binary64 (1 + binary64 (Real.exp t)) ≤ 2 := by
    have := binary64_mono (show 1 + binary64 (Real.exp t) ≤ (2 : ℝ) by linarith)
    rwa [e2] at this
  have eh : binary64 (1 / 2 : ℝ) = 1 / 2 := by
    have e := binary64_dyadic (α := ℝ) 1 1 (by norm_num) (by norm_num)
    norm_num at e ⊢
    exact e
  have eh32 : binary32 (1 / 2 : ℝ) = 1 / 2 := by
    have e := binary32_dyadic (α := ℝ) 1 1 (by norm_num) (by norm_num)
    norm_num at e ⊢
    exact e
  have hr : 1 / 2 ≤ binary64 (1 / binary64 (1 + binary64 (Real.exp t))) := by
    have := binary64_mono (show (1 : ℝ) / 2 ≤ 1 / binary64 (1 + binary64 (Real.exp t)) from
      one_div_le_one_div_of_le (by linarith) hD)
    rwa [eh] at this
  have := binary32_mono hr
  rwa [eh32] at this

/-- For an exponent that is not negative the stored `float` is at most `1/2`. -/
theorem invOnePlusExp_of_nonneg {t : ℝ} (ht : 0 ≤ t) :
    binary32 (invOnePlusExp (ieeeArith Real.exp) t) ≤ 1 / 2 := by
  show binary32 (binary64 (1 / binary64 (1 + binary64 (Real.exp t)))) ≤ 1 / 2
  have hE : 1 ≤ binary64 (Real.exp t) := by
    have := binary64_mono (Real.one_le_exp ht)
    rwa [binary64_one] at this
  have e2 : binary64 (2 : ℝ) = 2 := by
    simpa using binary64_natCast (α := ℝ) 2 (by norm_num)
  have hD : 2 ≤ binary64 (1 + binary64 (Real.exp t)) := by
    have := binary64_mono (show (2 : ℝ) ≤ 1 + binary64 (Real.exp t) by linarith)
    rwa [e2] at this
  have eh : binary64 (1 / 2 : ℝ) = 1 / 2 := by
    have e := binary64_dyadic (α := ℝ) 1 1 (by norm_num) (by norm_num)
    norm_num at e ⊢
    exact e
  have eh32 : binary32 (1 / 2 : ℝ) = 1 / 2 := by
    have e := binary32_dyadic (α := ℝ) 1 1 (by norm_num) (by norm_num)
    norm_num at e ⊢
    exact e
  have hr : binary64 (1 / binary64 (1 + binary64 (Real.exp t))) ≤ 1 / 2 := by
    have := binary64_mono (show 1 / binary64 (1 + binary64 (Real.exp t)) ≤ (1 : ℝ) / 2 from
      one_div_le_one_div_of_le (by norm_num) hD)
    rwa [eh] at this
  have := binary32_mono hr
  rwa [eh32] at this

theorem tenthF_pos : (0 : ℝ) < tenthF := by rw [tenthF]; norm_num

/-- In the program's arithmetic, with a negative divisor, a `float` cell at or
below `birth` is not lowered by the unclamped update. -/
theorem unclampedNext_ieee_ge {avg c : ℝ} (hden : denominator (ieeeArith Real.exp) avg < 0)
    (hc : binary32 c = c) (hlt : c ≤ birth (ieeeArith Real.exp) avg) :
    c ≤ unclampedNext (ieeeArith Real.exp) avg c := by
  have hs : 1 / 2 ≤ sValue (ieeeArith Real.exp) avg c := by
    rw [sValue_ieee]
    apply invOnePlusExp_of_nonpos
    have hx1 : binary32 (c - birth (ieeeArith Real.exp) avg) ≤ 0 := by
      have := binary32_mono (show c - birth (ieeeArith Real.exp) avg ≤ 0 by linarith)
      rwa [binary32_zero] at this
    have hx2 : 0 ≤ binary32 (-20 * binary32 (c - birth (ieeeArith Real.exp) avg)) :=
      binary32_nonneg (by linarith)
    have := binary64_mono (div_nonpos_iff.mpr (Or.inl ⟨hx2, le_of_lt hden⟩))
    rwa [binary64_zero] at this
  rw [unclampedNext_ieee, binary32_tenth]
  generalize sValue (ieeeArith Real.exp) avg c = s at hs ⊢
  have hw : 1 ≤ binary32 (2 * s) := by
    have := binary32_mono (show (1 : ℝ) ≤ 2 * s by linarith)
    rwa [binary32_one] at this
  have hm : 0 ≤ binary32 (binary32 (2 * s) - 1) := binary32_nonneg (by linarith)
  have hδ : 0 ≤ binary32 (tenthF * binary32 (binary32 (2 * s) - 1)) :=
    binary32_nonneg (mul_nonneg (le_of_lt tenthF_pos) hm)
  have := binary32_mono (show c ≤ c + binary32 (tenthF * binary32 (binary32 (2 * s) - 1)) by
    linarith)
  rwa [hc] at this

/-- In the program's arithmetic, with a negative divisor, a `float` cell at or
above `birth` is not raised by the unclamped update. -/
theorem unclampedNext_ieee_le {avg c : ℝ} (hden : denominator (ieeeArith Real.exp) avg < 0)
    (hc : binary32 c = c) (hgt : birth (ieeeArith Real.exp) avg ≤ c) :
    unclampedNext (ieeeArith Real.exp) avg c ≤ c := by
  have hs : sValue (ieeeArith Real.exp) avg c ≤ 1 / 2 := by
    rw [sValue_ieee]
    apply invOnePlusExp_of_nonneg
    have hx1 : 0 ≤ binary32 (c - birth (ieeeArith Real.exp) avg) :=
      binary32_nonneg (by linarith)
    have hx2 : binary32 (-20 * binary32 (c - birth (ieeeArith Real.exp) avg)) ≤ 0 := by
      have := binary32_mono
        (show -20 * binary32 (c - birth (ieeeArith Real.exp) avg) ≤ 0 by linarith)
      rwa [binary32_zero] at this
    exact binary64_nonneg (div_nonneg_iff.mpr (Or.inr ⟨hx2, le_of_lt hden⟩))
  rw [unclampedNext_ieee, binary32_tenth]
  generalize sValue (ieeeArith Real.exp) avg c = s at hs ⊢
  have hw : binary32 (2 * s) ≤ 1 := by
    have := binary32_mono (show 2 * s ≤ (1 : ℝ) by linarith)
    rwa [binary32_one] at this
  have hm : binary32 (binary32 (2 * s) - 1) ≤ 0 := by
    have := binary32_mono (show binary32 (2 * s) - 1 ≤ (0 : ℝ) by linarith)
    rwa [binary32_zero] at this
  have hδ : binary32 (tenthF * binary32 (binary32 (2 * s) - 1)) ≤ 0 := by
    have := binary32_mono (show tenthF * binary32 (binary32 (2 * s) - 1) ≤ (0 : ℝ) from
      mul_nonpos_of_nonneg_of_nonpos (le_of_lt tenthF_pos) hm)
    rwa [binary32_zero] at this
  have := binary32_mono (show c + binary32 (tenthF * binary32 (binary32 (2 * s) - 1)) ≤ c by
    linarith)
  rwa [hc] at this

/-- C10. Division guard: in the program's binary32/binary64 arithmetic, and in
exact arithmetic, in every reachable state (after the constructor and any
number of frames) the neighbour loops of every cell return a sum and a count,
and the neighbourhood mean computed from them gives a non-zero divisor
`death - birth + 1e-6`. -/
theorem division_guard {W H : Nat} (hW : 0 < W) (hH : 0 < H) (A : Arith ℝ)
    (hA : A = ieeeArith Real.exp ∨ A = exactArith Real.exp) (rand : Nat → Nat) (n : Nat) :
    ∃ a, run W H A rand n = some a ∧
      ∀ x y : Nat, x < W → y < H →
        ∃ sum count, neighborSum A W H a.cells (x : Int) (y : Int) = some (sum, count) ∧
          denominator A (average A sum count) ≠ 0 := by
  obtain ⟨a, h1, h2, -, h4, -⟩ := run_inv hW hH A rand n
  refine ⟨a, h1, ?_⟩
  intro x y hx hy
  refine ⟨_, _, neighborSum_of_shape A h2 hx hy, ?_⟩
  have hm := neighborMean_mem_unit_of hA W H h4 x y
  exact ne_of_lt (denominator_neg_of hA hm.1 hm.2)

theorem division_guard_witness :
    0 < num_w_boxes ∧ 0 < num_h_boxes ∧
    (ieeeArith Real.exp = ieeeArith Real.exp ∨ ieeeArith Real.exp = exactArith Real.exp) ∧
    ∃ a, run num_w_boxes num_h_boxes (ieeeArith Real.exp) (fun k => 7 * k + 1) 3 = some a ∧
      ∀ x y : Nat, x < num_w_boxes → y < num_h_boxes →
        ∃ sum count, neighborSum (ieeeArith Real.exp) num_w_boxes num_h_boxes a.cells
            (x : Int) (y : Int) = some (sum, count) ∧
          denominator (ieeeArith Real.exp) (average (ieeeArith Real.exp) sum count) ≠ 0 :=
  ⟨by decide, by decide, Or.inl rfl,
    division_guard (by decide) (by decide) (ieeeArith Real.exp) (Or.inl rfl)
      (fun k => 7 * k + 1) 3⟩

/-! ### Direction of the change of a cell -/

/-- Over the reals, with a negative divisor, the sign of the exponent of `s`
is the sign of `current - birth`. -/
theorem exponent_sign {avg : ℝ} (hd : denominator (exactArith Real.exp) avg < 0) (c : ℝ) :
    (-20 * (c - birth (exactArith Real.exp) avg) / denominator (exactArith Real.exp) avg < 0 ↔
      c < birth (exactArith Real.exp) avg) ∧
    (0 < -20 * (c - birth (exactArith Real.exp) avg) / denominator (exactArith Real.exp) avg ↔
      birth (exactArith Real.exp) avg < c) ∧
    (-20 * (c - birth (exactArith Real.exp) avg) / denominator (exactArith Real.exp) avg = 0 ↔
      c = birth (exactArith Real.exp) avg) := by
  refine ⟨?_, ?_, ?_⟩
  · rw [div_lt_iff_of_neg hd, zero_mul]
    constructor <;> intro h <;> linarith
  · rw [lt_div_iff_of_neg hd, zero_mul]
    constructor <;> intro h <;> linarith
  · rw [div_eq_zero_iff]
    constructor
    · rintro (h | h)
      · linarith
      · exact absurd h (ne_of_lt hd)
    · intro h
      left
      rw [h]
      ring

/-- Over the reals, the sign of the unclamped update is the sign of minus the
exponent of `s`. -/
theorem unclampedNext_sign (avg c : ℝ) :
    (c < unclampedNext (exactArith Real.exp) avg c ↔
      -20 * (c - birth (exactArith Real.exp) avg) / denominator (exactArith Real.exp) avg < 0) ∧
    (unclampedNext (exactArith Real.exp) avg c < c ↔
      0 < -20 * (c - birth (exactArith Real.exp) avg) / denominator (exactArith Real.exp) avg) ∧
    (unclampedNext (exactArith Real.exp) avg c = c ↔
      -20 * (c - birth (exactArith Real.exp) avg) / denominator (exactArith Real.exp) avg = 0) := by
  rw [unclampedNext_exact, sValue_exact]
  set t := -20 * (c - birth (exactArith Real.exp) avg) / denominator (exactArith Real.exp) avg
    with ht
  have hp := Real.exp_pos t
  have hpos : 0 < 1 + Real.exp t := by linarith
  have key : 2 * (1 / (1 + Real.exp t)) - 1 = (1 - Real.exp t) / (1 + Real.exp t) := by
    field_simp
    ring
  have e01 : (0.1 : ℝ) = 1 / 10 := by norm_num
  rw [key, e01]
  set r := (1 - Real.exp t) / (1 + Real.exp t) with hr
  have r1 : 0 < r ↔ Real.exp t < 1 := by
    rw [hr, div_pos_iff_of_pos_right hpos]
    constructor <;> intro h <;> linarith
  have r2 : r < 0 ↔ 1 < Real.exp t := by
    rw [hr, div_neg_iff]
    constructor
    · rintro (⟨_, h3⟩ | ⟨h3, _⟩) <;> linarith
    · intro h
      exact Or.inr ⟨by linarith, hpos⟩
  have r3 : r = 0 ↔ Real.exp t = 1 := by
    rw [hr, div_eq_zero_iff]
    constructor
    · rintro (h3 | h3) <;> linarith
    · intro h
      exact Or.inl (by linarith)
  refine ⟨?_, ?_, ?_⟩
  · rw [← Real.exp_lt_one_iff (x := t), ← r1]
    constructor <;> intro h <;> linarith
  · rw [← Real.one_lt_exp_iff (x := t), ← r2]
    constructor <;> intro h <;> linarith
  · rw [← Real.exp_eq_one_iff t, ← r3]
    constructor <;> intro h <;> linarith

/-- A frame gives every cell that held 0 a strictly positive value, in the
program's arithmetic and in exact arithmetic. -/
theorem frame_zero_pos {A : Arith ℝ}
    (hA : A = ieeeArith Real.exp ∨ A = exactArith Real.exp) (W H : Nat) (a : CAAnimator ℝ)
    (hc : Shape W H a.cells) (hn : Shape W H a.nextCells) (hu : InUnit a.cells) :
    ∃ b, DoFrame W H A a = some b ∧
      ∀ x y : Nat, x < W → y < H → readCell a.cells (x : Int) (y : Int) = some 0 →
        ∃ v, readCell b.cells (x : Int) (y : Int) = some v ∧ 0 < v := by
  refine ⟨⟨nextGrid W H A a.cells, a.cells⟩, DoFrame_of_shape A hc hn, ?_⟩
  intro x y hx hy hz
  rw [readCell_of_shape hc hx hy] at hz
  have hz0 : cellAt a.cells x y = 0 := Option.some.inj hz
  refine ⟨_, readCell_nextGrid A a.cells hx hy, ?_⟩
  rw [nextValue, hz0]
  have hm := neighborMean_mem_unit_of hA W H hu x y
  exact transition_zero_pos_of hA hm.1 hm.2

end IeeeReal

section IeeeLemmas

variable {α : Type} [LinearOrderedField α] [FloorRing α]

/-- The rounding error of binary32 on `[-1, 1]`. -/
theorem binary32_dist_one {x : α} (h : |x| ≤ 1) : |binary32 x - x| ≤ 1 / 2 ^ 25 := by
  rcases lt_or_eq_of_le h with h1 | h1
  · have := @roundNearest_dist_le α _ _ 24 (-126) x (-1)
      (by simpa using h1) (by norm_num)
    rw [show ((-1 : Int) - ((24 : Nat) : Int)) = -((25 : Nat) : Int) by norm_num, zpow_neg,
      zpow_natCast] at this
    simpa using this
  · have hx : binary32 x = x := by
      rcases abs_eq (zero_le_one' α) |>.mp h1 with e | e
      · rw [e, binary32_one]
      · rw [e, binary32_neg, binary32_one]
    rw [hx, sub_self, abs_zero]
    positivity

end IeeeLemmas

section IeeeReal

/-! ### Size of the change of a cell in the program's arithmetic -/

theorem sValue_ieee_mem_unit (avg c : ℝ) :
    0 ≤ sValue (ieeeArith Real.exp) avg c ∧ sValue (ieeeArith Real.exp) avg c ≤ 1 := by
  rw [sValue_ieee]
  have hu := invOnePlusExp_mem_unit (binary64 (binary32 (-20 * binary32
    (c - birth (ieeeArith Real.exp) avg)) / denominator (ieeeArith Real.exp) avg))
  refine ⟨binary32_nonneg hu.1, ?_⟩
  have := binary32_mono hu.2
  rwa [binary32_one] at this

/-- The `float` increment `0.1f * (2.0f * s - 1.0f)` lies between `-0.1f` and
`0.1f`. -/
theorem increment_bounds {s : ℝ} (h0 : 0 ≤ s) (h1 : s ≤ 1) :
    -tenthF ≤ binary32 (binary32 0.1 * binary32 (binary32 (2 * s) - 1)) ∧
      binary32 (binary32 0.1 * binary32 (binary32 (2 * s) - 1)) ≤ tenthF := by
  rw [binary32_tenth]
  have hw0 : 0 ≤ binary32 (2 * s) := binary32_nonneg (by linarith)
  have hw2 : binary32 (2 * s) ≤ 2 := by
    have := binary32_mono (show 2 * s ≤ (2 : ℝ) by linarith)
    rwa [binary32_two] at this
  generalize binary32 (2 * s) = w at hw0 hw2 ⊢
  have hm0 : -1 ≤ binary32 (w - 1) := by
    have := binary32_mono (show (-1 : ℝ) ≤ w - 1 by linarith)
    rwa [binary32_neg, binary32_one] at this
  have hm1 : binary32 (w - 1) ≤ 1 := by
    have := binary32_mono (show w - 1 ≤ (1 : ℝ) by linarith)
    rwa [binary32_one] at this
  generalize binary32 (w - 1) = m at hm0 hm1 ⊢
  have ht := tenthF_pos
  constructor
  · have := binary32_mono (show -tenthF ≤ tenthF * m by nlinarith)
    rwa [binary32_neg, binary32_tenthF] at this
  · have := binary32_mono (show tenthF * m ≤ tenthF by nlinarith)
    rwa [binary32_tenthF] at this

/-- In the program's arithmetic the value stored for a cell holding
`c ∈ [0, 1]` differs from `c` by at most `0.1f + 2 ^ (-25)`. -/
theorem transition_ieee_dist_le (avg : ℝ) {c : ℝ} (hc0 : 0 ≤ c) (hc1 : c ≤ 1) :
    |transition (ieeeArith Real.exp) avg c - c| ≤ tenthF + 1 / 2 ^ 25 := by
  rw [transition_eq_clamp, unclampedNext_ieee]
  have hs := sValue_ieee_mem_unit avg c
  have hd := increment_bounds hs.1 hs.2
  generalize binary32 (binary32 0.1 * binary32 (binary32
    (2 * sValue (ieeeArith Real.exp) avg c) - 1)) = δ at hd ⊢
  have ht := tenthF_pos
  rcases lt_or_le (c + δ) 0 with h | h
  · have hy : binary32 (c + δ) ≤ 0 := by
      have := binary32_mono (le_of_lt h)
      rwa [binary32_zero] at this
    have e : clamp (binary32 (c + δ)) = 0 := by
      unfold clamp
      rcases lt_or_eq_of_le hy with h2 | h2
      · simp [h2]
      · simp [h2]
    rw [e, zero_sub, abs_neg, abs_of_nonneg hc0]
    linarith
  · rcases lt_or_le 1 (c + δ) with h' | h'
    · have hy : 1 ≤ binary32 (c + δ) := by
        have := binary32_mono (le_of_lt h')
        rwa [binary32_one] at this
      have e : clamp (binary32 (c + δ)) = 1 := by
        unfold clamp
        have h3 : ¬ binary32 (c + δ) < 0 := by linarith
        rcases lt_or_eq_of_le hy with h2 | h2
        · simp [h3, h2]
        · simp [← h2]
      rw [e, abs_of_nonneg (by linarith)]
      linarith
    · have hy0 : 0 ≤ binary32 (c + δ) := binary32_nonneg h
      have hy1 : binary32 (c + δ) ≤ 1 := by
        have := binary32_mono h'
        rwa [binary32_one] at this
      have hdist := abs_le.mp (binary32_dist_one (x := c + δ) (by
        rw [abs_of_nonneg h]; exact h'))
      rw [clamp_of_mem_unit hy0 hy1, abs_le]
      constructor <;> linarith

end IeeeReal

section Lemmas

variable {α : Type} [LinearOrderedField α]

/-! ### A single seeded cell -/

theorem wrapIdx_pred {n q : Nat} (hq : q < n) :
    wrapIdx n ((q : Int) + -1) = if q = 0 then n - 1 else q - 1 := by
  unfold wrapIdx
  split_ifs with h
  · subst h
    have e : ((0 : Nat) : Int) + -1 = ((n - 1 : Nat) : Int) + (-1) * (n : Int) := by omega
    rw [e, Int.add_mul_emod_self, Int.emod_eq_of_lt (by omega) (by omega)]
    simp
  · have e : (q : Int) + -1 = ((q - 1 : Nat) : Int) := by omega
    rw [e, Int.emod_eq_of_lt (by omega) (by omega)]
    simp

theorem wrapIdx_self {n q : Nat} (hq : q < n) : wrapIdx n ((q : Int) + 0) = q := by
  unfold wrapIdx
  rw [add_zero, Int.emod_eq_of_lt (by omega) (by omega)]
  simp

theorem wrapIdx_succ {n q : Nat} (hq : q < n) :
    wrapIdx n ((q : Int) + 1) = if q + 1 = n then 0 else q + 1 := by
  unfold wrapIdx
  split_ifs with h
  · have e : (q : Int) + 1 = (n : Int) := by omega
    rw [e, Int.emod_self]
    simp
  · have e : (q : Int) + 1 = ((q + 1 : Nat) : Int) := by omega
    rw [e, Int.emod_eq_of_lt (by omega) (by omega)]
    simp

theorem near_cases {n p q : Nat} (hn : 3 ≤ n) (hp : p < n) (hq : q < n) :
    (Near n p q ↔ (wrapIdx n ((q : Int) + -1) = p ∨ wrapIdx n ((q : Int) + 0) = p ∨
      wrapIdx n ((q : Int) + 1) = p)) ∧
    ¬ (wrapIdx n ((q : Int) + -1) = p ∧ wrapIdx n ((q : Int) + 0) = p) ∧
    ¬ (wrapIdx n ((q : Int) + -1) = p ∧ wrapIdx n ((q : Int) + 1) = p) ∧
    ¬ (wrapIdx n ((q : Int) + 0) = p ∧ wrapIdx n ((q : Int) + 1) = p) := by
  unfold Near
  rw [wrapIdx_pred hp, wrapIdx_self hp, wrapIdx_succ hp,
    wrapIdx_pred hq, wrapIdx_self hq, wrapIdx_succ hq]
  split_ifs <;> omega

theorem hit_sum {n p q : Nat} (hn : 3 ≤ n) (hp : p < n) (hq : q < n) :
    (hit n q (-1) p + hit n q 0 p + hit n q 1 p : α) = 1 ∧ Near n p q ∨
    (hit n q (-1) p + hit n q 0 p + hit n q 1 p : α) = 0 ∧ ¬ Near n p q := by
  obtain ⟨h, hab, hac, hbc⟩ := near_cases hn hp hq
  rw [h]
  unfold hit
  by_cases hA : wrapIdx n ((q : Int) + -1) = p <;>
    by_cases hB : wrapIdx n ((q : Int) + 0) = p <;>
    by_cases hC : wrapIdx n ((q : Int) + 1) = p <;>
    simp_all

omit [LinearOrderedField α] in
theorem isNeighbor_iff (W H : Nat) (p : Nat × Nat) (x y : Nat) :
    IsNeighbor W H p (x, y) ↔ Near W p.1 x ∧ Near H p.2 y := by
  simp only [IsNeighbor, Near, offsets, List.mem_cons, List.mem_singleton, Prod.mk.injEq,
    List.mem_nil_iff, or_false, exists_eq_or_imp, exists_eq_left]
  tauto

omit [LinearOrderedField α] in
theorem isNeighbor_self {W H : Nat} {p : Nat × Nat} (hp1 : p.1 < W) (hp2 : p.2 < H) :
    IsNeighbor W H p (p.1, p.2) := by
  refine ⟨0, by simp [offsets], 0, by simp [offsets], ?_⟩
  rw [wrapIdx_self hp1, wrapIdx_self hp2]

theorem cellAt_single_seed {W H : Nat} (hW : 0 < W) (hH : 0 < H) {g : List (List α)}
    {p : Nat × Nat}
    (hcell : ∀ i j, i < W → j < H → cellAt g i j = if i = p.1 ∧ j = p.2 then 1 else 0)
    (x y : Nat) (dx dy : Int) :
    cellAt g (wrapIdx W ((x : Int) + dx)) (wrapIdx H ((y : Int) + dy)) =
      hit W x dx p.1 * hit H y dy p.2 := by
  rw [hcell _ _ (wrapIdx_lt hW _) (wrapIdx_lt hH _)]
  unfold hit
  split_ifs <;> simp_all

/-- A `float` accumulation of zeros and ones is their exact sum, when the
rounding fixes the natural numbers up to the number of values. -/
theorem floatSum_bits (A : Arith α) (n : Nat) (hfix : ∀ k : Nat, k ≤ n → A.f32 (k : α) = k) :
    ∀ (l : List α), (∀ v ∈ l, v = 0 ∨ v = 1) → ∀ k : Nat, k + l.length ≤ n →
      l.foldl (fun s v => A.f32 (s + v)) (k : α) = k + l.sum := by
  intro l
  induction l with
  | nil => intro _ k _; simp
  | cons v l ih =>
    intro hl k hk
    rw [List.length_cons] at hk
    rw [List.foldl_cons, List.sum_cons]
    rcases hl v (List.mem_cons_self v l) with h | h
    · rw [h, add_zero, hfix k (by omega),
        ih (fun w hw => hl w (List.mem_cons_of_mem v hw)) k (by omega)]
      ring
    · have e : (k : α) + v = ((k + 1 : Nat) : α) := by rw [h]; push_cast; ring
      rw [e, hfix (k + 1) (by omega),
        ih (fun w hw => hl w (List.mem_cons_of_mem v hw)) (k + 1) (by omega), h]
      push_cast
      ring

theorem neighborValues_single_seed {W H : Nat} (hW : 3 ≤ W) (hH : 3 ≤ H) {g : List (List α)}
    {p : Nat × Nat} (hp1 : p.1 < W) (hp2 : p.2 < H)
    (hcell : ∀ i j, i < W → j < H → cellAt g i j = if i = p.1 ∧ j = p.2 then 1 else 0)
    {x y : Nat} (hx : x < W) (hy : y < H) :
    (neighborValues W H g x y).sum = 1 ∧ IsNeighbor W H p (x, y) ∨
    (neighborValues W H g x y).sum = 0 ∧ ¬ IsNeighbor W H p (x, y) := by
  have e : (neighborValues W H g x y).sum =
      (hit W x (-1) p.1 + hit W x 0 p.1 + hit W x 1 p.1) *
        (hit H y (-1) p.2 + hit H y 0 p.2 + hit H y 1 p.2) := by
    simp only [neighborValues, offsets, List.flatMap_cons, List.flatMap_nil,
      List.map_cons, List.map_nil, List.append_nil, List.cons_append, List.nil_append,
      List.sum_cons, List.sum_nil,
      cellAt_single_seed (by omega : 0 < W) (by omega : 0 < H) hcell]
    ring
  rw [e, isNeighbor_iff]
  rcases hit_sum (α := α) hW hp1 hx with ⟨h1, h2⟩ | ⟨h1, h2⟩ <;>
    rcases hit_sum (α := α) hH hp2 hy with ⟨h3, h4⟩ | ⟨h3, h4⟩ <;>
    rw [h1, h3] <;> simp [h2, h4]

/-- On a single-seed buffer the `float` sum of a neighbourhood is exactly 1
for the seeded cell and its eight neighbours and 0 for every other cell. -/
theorem floatSum_single_seed (A : Arith α) (hfix : ∀ k : Nat, k ≤ 9 → A.f32 (k : α) = k)
    {W H : Nat} (hW : 3 ≤ W) (hH : 3 ≤ H) {g : List (List α)}
    {p : Nat × Nat} (hp1 : p.1 < W) (hp2 : p.2 < H)
    (hcell : ∀ i j, i < W → j < H → cellAt g i j = if i = p.1 ∧ j = p.2 then 1 else 0)
    {x y : Nat} (hx : x < W) (hy : y < H) :
    floatSum A (neighborValues W H g x y) = 1 ∧ IsNeighbor W H p (x, y) ∨
    floatSum A (neighborValues W H g x y) = 0 ∧ ¬ IsNeighbor W H p (x, y) := by
  have hbits : ∀ v ∈ neighborValues W H g x y, v = 0 ∨ v = 1 := by
    intro v hv
    simp only [neighborValues, List.mem_flatMap, List.mem_map] at hv
    obtain ⟨dx, -, dy, -, rfl⟩ := hv
    rw [hcell _ _ (wrapIdx_lt (by omega) _) (wrapIdx_lt (by omega) _)]
    split_ifs
    · exact Or.inr rfl
    · exact Or.inl rfl
  have hs := floatSum_bits A 9 hfix (neighborValues W H g x y) hbits 0
    (by rw [neighborValues_length])
  rw [Nat.cast_zero, zero_add] at hs
  rw [floatSum, hs]
  exact neighborValues_single_seed hW hH hp1 hp2 hcell hx hy

omit [LinearOrderedField α] in
theorem set_shape {W H : Nat} {g : List (List α)} (hg : Shape W H g) (i : Nat)
    {col : List α} (hcol : col.length = H) : Shape W H (g.set i col) := by
  refine ⟨by rw [List.length_set]; exact hg.1, ?_⟩
  intro c hc
  rcases List.mem_or_eq_of_mem_set hc with h | h
  · exact hg.2 c h
  · rw [h]; exact hcol

theorem singleSeed_shape (W H : Nat) (p : Nat × Nat) :
    Shape W H (singleSeed W H p : List (List α)) :=
  set_shape (zeroGrid_shape W H) p.1 (by simp)

theorem cellAt_singleSeed {W H : Nat} (p : Nat × Nat) (i j : Nat) (hi : i < W) (hj : j < H) :
    cellAt (singleSeed W H p : List (List α)) i j = if i = p.1 ∧ j = p.2 then 1 else 0 := by
  unfold cellAt singleSeed zeroGrid
  by_cases h1 : i = p.1
  · subst h1
    by_cases h2 : j = p.2
    · subst h2
      simp [List.getElem?_set, hi, hj]
    · have h2' : ¬ p.2 = j := fun h => h2 h.symm
      simp [List.getElem?_set, hi, hj, h2, h2', List.getElem?_replicate]
  · have h1' : ¬ p.1 = i := fun h => h1 h.symm
    simp [List.getElem?_set, hi, hj, h1, h1', List.getElem?_replicate]

theorem singleSeed_inUnit (W H : Nat) (p : Nat × Nat) :
    InUnit (singleSeed W H p : List (List α)) := by
  intro col hcol v hv
  obtain ⟨x, y, hx, hy, rfl⟩ := exists_cellAt_of_mem (singleSeed_shape W H p) hcol hv
  rw [cellAt_singleSeed p x y hx hy]
  split_ifs <;> norm_num

end Lemmas

section IeeeReal

theorem average_ieee_one : average (ieeeArith Real.exp) 1 9 = ninthF := by
  show binary32 ((1 : ℝ) / ((9 : Int) : ℝ)) = ninthF
  rw [show ((9 : Int) : ℝ) = 9 by norm_cast, binary32_ninth]

theorem average_ieee_zero : average (ieeeArith Real.exp) 0 9 = 0 := by
  show binary32 ((0 : ℝ) / ((9 : Int) : ℝ)) = 0
  rw [zero_div, binary32_zero]

theorem ninthF_ne : (ninthF : ℝ) ≠ 1 / 9 := by rw [ninthF]; norm_num

theorem ninthF_bounds : (0 : ℝ) ≤ ninthF ∧ (ninthF : ℝ) ≤ 3 / 20 := by
  rw [ninthF]; constructor <;> norm_num

/-- On a single-seed buffer the program's neighbourhood mean is the `float`
nearest to `1/9` for the seeded cell and its eight neighbours and 0 for every
other cell. -/
theorem neighborMean_single_seed {W H : Nat} (hW : 3 ≤ W) (hH : 3 ≤ H) {g : List (List ℝ)}
    {p : Nat × Nat} (hp1 : p.1 < W) (hp2 : p.2 < H)
    (hcell : ∀ i j, i < W → j < H → cellAt g i j = if i = p.1 ∧ j = p.2 then 1 else 0)
    {x y : Nat} (hx : x < W) (hy : y < H) :
    (IsNeighbor W H p (x, y) → neighborMean W H (ieeeArith Real.exp) g x y = ninthF) ∧
    (¬ IsNeighbor W H p (x, y) → neighborMean W H (ieeeArith Real.exp) g x y = 0) := by
  unfold neighborMean
  rcases floatSum_single_seed (ieeeArith Real.exp) (ieeeArith_fix _) hW hH hp1 hp2 hcell hx hy
    with ⟨h1, h2⟩ | ⟨h1, h2⟩
  · rw [h1]; exact ⟨fun _ => average_ieee_one, fun h => absurd h2 h⟩
  · rw [h1]; exact ⟨fun h => absurd h h2, fun _ => average_ieee_zero⟩

/-- One frame of the program on a single-seed buffer: the seeded cell gets
`1.0f - 0.1f` rounded to `float`, every other cell gets `0.1f`. -/
theorem nextValue_single_seed {W H : Nat} (hW : 3 ≤ W) (hH : 3 ≤ H) {g : List (List ℝ)}
    {p : Nat × Nat} (hp1 : p.1 < W) (hp2 : p.2 < H)
    (hcell : ∀ i j, i < W → j < H → cellAt g i j = if i = p.1 ∧ j = p.2 then 1 else 0)
    {x y : Nat} (hx : x < W) (hy : y < H) :
    nextValue W H (ieeeArith Real.exp) g x y =
      if x = p.1 ∧ y = p.2 then nineTenthsF else tenthF := by
  have hm := neighborMean_single_seed hW hH hp1 hp2 hcell hx hy
  have hm01 : 0 ≤ neighborMean W H (ieeeArith Real.exp) g x y ∧
      neighborMean W H (ieeeArith Real.exp) g x y ≤ 3 / 20 := by
    by_cases hn : IsNeighbor W H p (x, y)
    · rw [hm.1 hn]; exact ninthF_bounds
    · rw [hm.2 hn]; constructor <;> norm_num
  rw [nextValue, hcell x y hx hy]
  split_ifs with h
  · have hb := birth_ieee_le hm01.1 hm01.2
    rw [transition_ieee_high hm01.1 (by linarith) (by linarith) (le_refl 1),
      binary32_one_sub_tenthF]
    exact clamp_of_mem_unit (by rw [nineTenthsF]; norm_num) (by rw [nineTenthsF]; norm_num)
  · exact transition_ieee_zero hm01.1 (by linarith)

end IeeeReal

section Claims

/-! ### The neighbourhood mean and one frame of a single-seed grid -/

/-- C8, as stated, fails: on the 15 x 10 grid that is 0 everywhere except for
a 1 at `(7, 5)` the neighbour loops for `(7, 5)` return a sum and a count whose
`float` quotient, the neighbourhood mean of the program, is not `1/9`. -/
theorem seed_mean_not_ninth :
    ∃ sum count, neighborSum (ieeeArith Real.exp) 15 10 (singleSeed 15 10 (7, 5)) 7 5 =
        some (sum, count) ∧
      average (ieeeArith Real.exp) sum count ≠ 1 / 9 := by
  have hs := neighborSum_of_shape (ieeeArith Real.exp) (singleSeed_shape (α := ℝ) 15 10 (7, 5))
    (x := 7) (y := 5) (by norm_num) (by norm_num)
  have hm := (neighborMean_single_seed (W := 15) (H := 10) (by norm_num) (by norm_num)
    (g := singleSeed 15 10 (7, 5)) (p := (7, 5)) (by norm_num) (by norm_num)
    (fun i j hi hj => cellAt_singleSeed (7, 5) i j hi hj)
    (x := 7) (y := 5) (by norm_num) (by norm_num)).1
    (isNeighbor_self (p := (7, 5)) (by norm_num) (by norm_num))
  refine ⟨_, _, hs, ?_⟩
  rw [neighborMean] at hm
  rw [hm]
  exact ninthF_ne

/-- C8, amended: on a `W × H` grid with `W, H ≥ 3` whose current buffer is 0
everywhere except for a 1 at cell `p`, the neighbour loops of the step return,
for cell `p`, the sum 1 and the count 9, and the neighbourhood mean the program
computes from them, a `float` quotient, is `14913081 / 134217728`, the `float`
nearest to `1/9`; for every cell `(x, y)` the computed mean is that value when
`(x, y)` is `p` or one of its eight toroidal neighbours and 0 otherwise. -/
theorem single_seed_mean {W H : Nat} (hW : 3 ≤ W) (hH : 3 ≤ H) (g : List (List ℝ))
    (p : Nat × Nat) (hp1 : p.1 < W) (hp2 : p.2 < H) (hg : Shape W H g)
    (hcell : ∀ i j, i < W → j < H → cellAt g i j = if i = p.1 ∧ j = p.2 then 1 else 0) :
    (∃ sum count, neighborSum (ieeeArith Real.exp) W H g (p.1 : Int) (p.2 : Int) =
        some (sum, count) ∧ sum = 1 ∧ count = 9 ∧
      average (ieeeArith Real.exp) sum count = 14913081 / 134217728) ∧
    ∀ x y : Nat, x < W → y < H →
      ∃ sum count, neighborSum (ieeeArith Real.exp) W H g (x : Int) (y : Int) =
          some (sum, count) ∧
        (IsNeighbor W H p (x, y) →
          average (ieeeArith Real.exp) sum count = 14913081 / 134217728) ∧
        (¬ IsNeighbor W H p (x, y) → average (ieeeArith Real.exp) sum count = 0) := by
  constructor
  · refine ⟨_, _, neighborSum_of_shape (ieeeArith Real.exp) hg hp1 hp2, ?_, rfl, ?_⟩
    · rcases floatSum_single_seed (ieeeArith Real.exp) (ieeeArith_fix _) hW hH hp1 hp2 hcell
        hp1 hp2 with ⟨h1, -⟩ | ⟨-, h2⟩
      · exact h1
      · exact absurd (isNeighbor_self hp1 hp2) h2
    · exact (neighborMean_single_seed hW hH hp1 hp2 hcell hp1 hp2).1 (isNeighbor_self hp1 hp2)
  · intro x y hx hy
    exact ⟨_, _, neighborSum_of_shape (ieeeArith Real.exp) hg hx hy,
      neighborMean_single_seed hW hH hp1 hp2 hcell hx hy⟩

theorem single_seed_mean_witness :
    3 ≤ 15 ∧ 3 ≤ 10 ∧ (7, 5).1 < 15 ∧ (7, 5).2 < 10 ∧
    Shape 15 10 (singleSeed 15 10 (7, 5) : List (List ℝ)) ∧
    (∀ i j, i < 15 → j < 10 → cellAt (singleSeed 15 10 (7, 5) : List (List ℝ)) i j =
      if i = (7, 5).1 ∧ j = (7, 5).2 then 1 else 0) ∧
    ((∃ sum count, neighborSum (ieeeArith Real.exp) 15 10 (singleSeed 15 10 (7, 5))
        (((7, 5) : Nat × Nat).1 : Int) (((7, 5) : Nat × Nat).2 : Int) = some (sum, count) ∧
      sum = 1 ∧ count = 9 ∧
      average (ieeeArith Real.exp) sum count = 14913081 / 134217728) ∧
    ∀ x y : Nat, x < 15 → y < 10 →
      ∃ sum count, neighborSum (ieeeArith Real.exp) 15 10 (singleSeed 15 10 (7, 5))
          (x : Int) (y : Int) = some (sum, count) ∧
        (IsNeighbor 15 10 (7, 5) (x, y) →
          average (ieeeArith Real.exp) sum count = 14913081 / 134217728) ∧
        (¬ IsNeighbor 15 10 (7, 5) (x, y) → average (ieeeArith Real.exp) sum count = 0)) :=
  ⟨by decide, by decide, by decide, by decide, singleSeed_shape 15 10 (7, 5),
    fun i j hi hj => cellAt_singleSeed (7, 5) i j hi hj,
    single_seed_mean (by decide) (by decide) (singleSeed 15 10 (7, 5)) (7, 5) (by decide)
      (by decide) (singleSeed_shape 15 10 (7, 5))
      (fun i j hi hj => cellAt_singleSeed (7, 5) i j hi hj)⟩

/-- One frame of the program on the 15 x 10 grid with the single seed
`(7, 5)`. -/
theorem seed_frame :
    DoFrame 15 10 (ieeeArith Real.exp) ⟨singleSeed 15 10 (7, 5), zeroGrid 15 10⟩ =
        some ⟨nextGrid 15 10 (ieeeArith Real.exp) (singleSeed 15 10 (7, 5)),
          singleSeed 15 10 (7, 5)⟩ ∧
      ∀ x y : Nat, x < 15 → y < 10 →
        readCell (nextGrid 15 10 (ieeeArith Real.exp) (singleSeed 15 10 (7, 5)))
          (x : Int) (y : Int) = some (if x = 7 ∧ y = 5 then nineTenthsF else tenthF) := by
  refine ⟨DoFrame_of_shape (ieeeArith Real.exp) (singleSeed_shape 15 10 (7, 5))
    (zeroGrid_shape 15 10), ?_⟩
  intro x y hx hy
  rw [readCell_nextGrid (ieeeArith Real.exp) _ hx hy,
    nextValue_single_seed (W := 15) (H := 10) (by norm_num) (by norm_num) (p := (7, 5))
      (by norm_num) (by norm_num) (fun i j hi hj => cellAt_singleSeed (7, 5) i j hi hj) hx hy]

/-- C9, as stated, fails: after one frame of the program on the 15 x 10 grid
that is 0 everywhere except for a 1 at `(7, 5)`, the neighbour `(6, 5)` of
`(7, 5)` and the cell `(0, 0)`, which is not a neighbour, hold the same value,
so the neighbour's value is not strictly higher. -/
theorem single_seed_no_gradient :
    IsNeighbor 15 10 (7, 5) (6, 5) ∧ ¬ IsNeighbor 15 10 (7, 5) (0, 0) ∧
    ∃ b, DoFrame 15 10 (ieeeArith Real.exp) ⟨singleSeed 15 10 (7, 5), zeroGrid 15 10⟩ =
        some b ∧
      ∃ v w, readCell b.cells 6 5 = some v ∧ readCell b.cells 0 0 = some w ∧ ¬ (w < v) := by
  refine ⟨?_, ?_, _, seed_frame.1, tenthF, tenthF, ?_, ?_, lt_irrefl _⟩
  · rw [isNeighbor_iff]
    constructor
    · left; decide
    · right; left; decide
  · rw [isNeighbor_iff]
    rintro ⟨h, -⟩
    revert h
    unfold Near
    decide
  · have := seed_frame.2 6 5 (by norm_num) (by norm_num)
    simpa using this
  · have := seed_frame.2 0 0 (by norm_num) (by norm_num)
    simpa using this

/-- C9, amended: after one frame of the program on a `W × H` grid with
`W, H ≥ 3` whose current buffer is 0 everywhere except for a 1 at cell `p`,
every cell other than `p`, a neighbour of `p` or not, holds the same value, the
`float` constant `0.1f = 13421773 / 134217728`, and `p` holds
`15099494 / 16777216`, which is `1.0f - 0.1f` rounded to `float`. -/
theorem single_seed_step {W H : Nat} (hW : 3 ≤ W) (hH : 3 ≤ H) (a : CAAnimator ℝ)
    (p : Nat × Nat) (hp1 : p.1 < W) (hp2 : p.2 < H) (hc : Shape W H a.cells)
    (hn : Shape W H a.nextCells)
    (hcell : ∀ i j, i < W → j < H →
      cellAt a.cells i j = if i = p.1 ∧ j = p.2 then 1 else 0) :
    ∃ b, DoFrame W H (ieeeArith Real.exp) a = some b ∧
      readCell b.cells (p.1 : Int) (p.2 : Int) = some (15099494 / 16777216) ∧
      ∀ x y : Nat, x < W → y < H → (x, y) ≠ p →
        readCell b.cells (x : Int) (y : Int) = some (13421773 / 134217728) := by
  refine ⟨_, DoFrame_of_shape (ieeeArith Real.exp) hc hn, ?_, ?_⟩
  · show readCell (nextGrid W H (ieeeArith Real.exp) a.cells) _ _ = _
    rw [readCell_nextGrid (ieeeArith Real.exp) _ hp1 hp2,
      nextValue_single_seed hW hH hp1 hp2 hcell hp1 hp2]
    simp [nineTenthsF]
  · intro x y hx hy hne
    show readCell (nextGrid W H (ieeeArith Real.exp) a.cells) _ _ = _
    rw [readCell_nextGrid (ieeeArith Real.exp) _ hx hy,
      nextValue_single_seed hW hH hp1 hp2 hcell hx hy]
    have h : ¬ (x = p.1 ∧ y = p.2) := fun h => hne (Prod.ext h.1 h.2)
    simp [h, tenthF]

theorem single_seed_step_witness :
    3 ≤ 15 ∧ 3 ≤ 10 ∧ (7, 5).1 < 15 ∧ (7, 5).2 < 10 ∧
    Shape 15 10 (singleSeed 15 10 (7, 5) : List (List ℝ)) ∧
    Shape 15 10 (zeroGrid 15 10 : List (List ℝ)) ∧
    (∀ i j, i < 15 → j < 10 → cellAt (singleSeed 15 10 (7, 5) : List (List ℝ)) i j =
      if i = (7, 5).1 ∧ j = (7, 5).2 then 1 else 0) ∧
    ∃ b, DoFrame 15 10 (ieeeArith Real.exp) ⟨singleSeed 15 10 (7, 5), zeroGrid 15 10⟩ =
        some b ∧
      readCell b.cells (((7, 5) : Nat × Nat).1 : Int) (((7, 5) : Nat × Nat).2 : Int) =
        some (15099494 / 16777216) ∧
      ∀ x y : Nat, x < 15 → y < 10 → (x, y) ≠ (7, 5) →
        readCell b.cells (x : Int) (y : Int) = some (13421773 / 134217728) :=
  ⟨by decide, by decide, by decide, by decide, singleSeed_shape 15 10 (7, 5),
    zeroGrid_shape 15 10, fun i j hi hj => cellAt_singleSeed (7, 5) i j hi hj,
    single_seed_step (by decide) (by decide) ⟨singleSeed 15 10 (7, 5), zeroGrid 15 10⟩ (7, 5)
      (by decide) (by decide) (singleSeed_shape 15 10 (7, 5)) (zeroGrid_shape 15 10)
      (fun i j hi hj => cellAt_singleSeed (7, 5) i j hi hj)⟩

end Claims

section Lemmas

variable {α : Type} [LinearOrderedField α]

/-! ### Size of the change of a cell without rounding -/

theorem clamp_dist_le {c v : α} (hc0 : 0 ≤ c) (hc1 : c ≤ 1) :
    |clamp v - c| ≤ |v - c| := by
  rw [clamp_eq_clamp01]
  unfold Spec.clamp01
  rcases le_total v 0 with h | h
  · rw [min_eq_right (le_trans h zero_le_one), max_eq_left h,
      abs_of_nonpos (by linarith), abs_of_nonpos (by linarith)]
    linarith
  · rcases le_total v 1 with h' | h'
    · rw [min_eq_right h', max_eq_right h]
    · rw [min_eq_left h', max_eq_right zero_le_one,
        abs_of_nonneg (by linarith), abs_of_nonneg (by linarith)]
      linarith

theorem sValue_exact_mem_unit {exp : α → α} (hexp : ∀ z, 0 ≤ exp z) (avg c : α) :
    0 ≤ sValue (exactArith exp) avg c ∧ sValue (exactArith exp) avg c ≤ 1 := by
  rw [sValue_exact]
  have h := hexp (-20 * (c - birth (exactArith exp) avg) / denominator (exactArith exp) avg)
  have hpos : 0 < 1 + exp (-20 * (c - birth (exactArith exp) avg) /
      denominator (exactArith exp) avg) := by linarith
  constructor
  · exact le_of_lt (div_pos one_pos hpos)
  · rw [div_le_one hpos]
    linarith

/-- Without rounding the value stored for a cell holding `c ∈ [0, 1]` differs
from `c` by at most `0.1`. -/
theorem transition_exact_dist_le {exp : α → α} (hexp : ∀ z, 0 ≤ exp z) (avg : α) {c : α}
    (hc0 : 0 ≤ c) (hc1 : c ≤ 1) : |transition (exactArith exp) avg c - c| ≤ 0.1 := by
  rw [transition_eq_clamp]
  refine le_trans (clamp_dist_le hc0 hc1) ?_
  have hs := sValue_exact_mem_unit hexp avg c
  have e01 : (0.1 : α) = 1 / 10 := by norm_num
  rw [unclampedNext_exact, abs_le, e01]
  constructor <;> linarith

end Lemmas

section Claims

/-- C16, as stated, fails: one frame of the program on the 15 x 10 grid that
is 0 everywhere except for a 1 at `(7, 5)` changes the value of cell `(7, 5)`
by more than `0.1`. -/
theorem change_exceeds_tenth :
    InUnit (singleSeed 15 10 (7, 5) : List (List ℝ)) ∧
    ∃ b, DoFrame 15 10 (ieeeArith Real.exp) ⟨singleSeed 15 10 (7, 5), zeroGrid 15 10⟩ =
        some b ∧
      ∃ v c, readCell b.cells 7 5 = some v ∧
        readCell (singleSeed 15 10 (7, 5)) 7 5 = some c ∧ ¬ (|v - c| ≤ 0.1) := by
  refine ⟨singleSeed_inUnit 15 10 (7, 5), _, seed_frame.1, nineTenthsF, 1, ?_, ?_, ?_⟩
  · have := seed_frame.2 7 5 (by norm_num) (by norm_num)
    simpa using this
  · have := readCell_of_shape (singleSeed_shape (α := ℝ) 15 10 (7, 5)) (x := 7) (y := 5)
      (by norm_num) (by norm_num)
    rw [cellAt_singleSeed (7, 5) 7 5 (by norm_num) (by norm_num)] at this
    simpa using this
  · rw [nineTenthsF, abs_of_nonpos (by norm_num)]
    norm_num

/-- C16, amended: a frame of the program on `W × H` buffers whose current
values lie in `[0, 1]` returns a state in which every cell differs from its
pre-step value by at most `0.1f + 2 ^ (-25)`, the `float` step
`13421773 / 134217728` plus the rounding of the sum; without rounding, for
every `exp` that takes no negative value, the difference is at most `0.1`. -/
theorem bounded_change {W H : Nat} (a : CAAnimator ℝ) (hc : Shape W H a.cells)
    (hn : Shape W H a.nextCells) (hu : InUnit a.cells) :
    (∃ b, DoFrame W H (ieeeArith Real.exp) a = some b ∧
      ∀ x y : Nat, x < W → y < H →
        ∃ v c, readCell b.cells (x : Int) (y : Int) = some v ∧
          readCell a.cells (x : Int) (y : Int) = some c ∧
          |v - c| ≤ 13421773 / 134217728 + 1 / 2 ^ 25) ∧
    ∀ exp : ℝ → ℝ, (∀ z, 0 ≤ exp z) →
      ∃ b, DoFrame W H (exactArith exp) a = some b ∧
        ∀ x y : Nat, x < W → y < H →
          ∃ v c, readCell b.cells (x : Int) (y : Int) = some v ∧
            readCell a.cells (x : Int) (y : Int) = some c ∧ |v - c| ≤ 0.1 := by
  constructor
  · refine ⟨⟨nextGrid W H (ieeeArith Real.exp) a.cells, a.cells⟩,
      DoFrame_of_shape (ieeeArith Real.exp) hc hn, ?_⟩
    intro x y hx hy
    refine ⟨_, _, readCell_nextGrid (ieeeArith Real.exp) a.cells hx hy,
      readCell_of_shape hc hx hy, ?_⟩
    have hm := cellAt_mem_unit hu x y
    have := transition_ieee_dist_le (neighborMean W H (ieeeArith Real.exp) a.cells x y)
      hm.1 hm.2
    rw [tenthF] at this
    exact this
  · intro exp hexp
    refine ⟨⟨nextGrid W H (exactArith exp) a.cells, a.cells⟩,
      DoFrame_of_shape (exactArith exp) hc hn, ?_⟩
    intro x y hx hy
    refine ⟨_, _, readCell_nextGrid (exactArith exp) a.cells hx hy,
      readCell_of_shape hc hx hy, ?_⟩
    have hm := cellAt_mem_unit hu x y
    exact transition_exact_dist_le hexp _ hm.1 hm.2

theorem bounded_change_witness :
    Shape 15 10 (singleSeed 15 10 (7, 5) : List (List ℝ)) ∧
    Shape 15 10 (zeroGrid 15 10 : List (List ℝ)) ∧
    InUnit (singleSeed 15 10 (7, 5) : List (List ℝ)) ∧
    ((∃ b, DoFrame 15 10 (ieeeArith Real.exp) ⟨singleSeed 15 10 (7, 5), zeroGrid 15 10⟩ =
        some b ∧
      ∀ x y : Nat, x < 15 → y < 10 →
        ∃ v c, readCell b.cells (x : Int) (y : Int) = some v ∧
          readCell (singleSeed 15 10 (7, 5)) (x : Int) (y : Int) = some c ∧
          |v - c| ≤ 13421773 / 134217728 + 1 / 2 ^ 25) ∧
    ∀ exp : ℝ → ℝ, (∀ z, 0 ≤ exp z) →
      ∃ b, DoFrame 15 10 (exactArith exp) ⟨singleSeed 15 10 (7, 5), zeroGrid 15 10⟩ =
          some b ∧
        ∀ x y : Nat, x < 15 → y < 10 →
          ∃ v c, readCell b.cells (x : Int) (y : Int) = some v ∧
            readCell (singleSeed 15 10 (7, 5)) (x : Int) (y : Int) = some c ∧
            |v - c| ≤ 0.1) :=
  ⟨singleSeed_shape 15 10 (7, 5), zeroGrid_shape 15 10, singleSeed_inUnit 15 10 (7, 5),
    bounded_change ⟨singleSeed 15 10 (7, 5), zeroGrid 15 10⟩ (singleSeed_shape 15 10 (7, 5))
      (zeroGrid_shape 15 10) (singleSeed_inUnit 15 10 (7, 5))⟩

/-! ### The formula of one step -/

/-- C1, as stated, fails: one frame of the program on the all-zero 15 x 10
grid stores in cell `(0, 0)` a value that is not the value of the claimed
formula: the program stores the `float` constant `0.1f`, which is above `0.1`,
and the formula gives a value below `0.1`. -/
theorem cell_formula_fails :
    ∃ b, DoFrame num_w_boxes num_h_boxes (ieeeArith Real.exp)
        ⟨zeroGrid num_w_boxes num_h_boxes, zeroGrid num_w_boxes num_h_boxes⟩ = some b ∧
      ∃ v, readCell b.cells 0 0 = some v ∧
        v ≠ Spec.stepValue num_w_boxes num_h_boxes Real.exp
          (zeroGrid num_w_boxes num_h_boxes) 0 0 := by
  refine ⟨_, DoFrame_of_shape (ieeeArith Real.exp) (zeroGrid_shape _ _) (zeroGrid_shape _ _),
    tenthF, ?_, ?_⟩
  · have := readCell_nextGrid (W := num_w_boxes) (H := num_h_boxes) (ieeeArith Real.exp)
      (zeroGrid num_w_boxes num_h_boxes) (x := 0) (y := 0) (by decide) (by decide)
    rw [nextValue, neighborMean_zeroGrid _ _ _ binary32_zero, cellAt_zeroGrid,
      transition_ieee_zero (le_refl 0) zero_le_one] at this
    simpa using this
  · rw [← nextValue_exact, nextValue, neighborMean_zeroGrid _ _ _ rfl, cellAt_zeroGrid]
    have h := (transition_zero_pos (le_refl (0 : ℝ)) zero_le_one).2
    intro e
    rw [← e, tenthF] at h
    norm_num at h

end Claims

section Lemmas

variable {α : Type} [LinearOrderedField α]

/-- C1, amended: one frame on `W × H` buffers stores in cell `(x, y)` of the
new current buffer the value of the formula as the arithmetic `A` of the
program evaluates it, from the pre-step current buffer only: `c` the pre-step
value of the cell, the `float` sum of its nine toroidal neighbourhood values
divided by 9 as a `float`, `birth`, `death` and `s` the sigmoid expressions
rounded to `float`, and `c + 0.1f * (2 * s - 1)` in `float` operations, clamped to
`[0, 1]`; in the arithmetic without rounding this is the value
`clamp01(c + 0.1 * (2*s - 1))` of the claimed formula. -/
theorem DoFrame_cell_formula {W H : Nat} (A : Arith α) (a : CAAnimator α)
    (hc : Shape W H a.cells) (hn : Shape W H a.nextCells) :
    (∃ b, DoFrame W H A a = some b ∧
      ∀ x y : Nat, x < W → y < H →
        readCell b.cells (x : Int) (y : Int) =
          some (transition A (average A (floatSum A (neighborValues W H a.cells x y)) 9)
            (cellAt a.cells x y)) ∧
        readCell a.cells (x : Int) (y : Int) = some (cellAt a.cells x y)) ∧
    ∀ exp : α → α, ∃ b, DoFrame W H (exactArith exp) a = some b ∧
      ∀ x y : Nat, x < W → y < H →
        readCell b.cells (x : Int) (y : Int) = some (Spec.stepValue W H exp a.cells x y) := by
  constructor
  · refine ⟨_, DoFrame_of_shape A hc hn, ?_⟩
    intro x y hx hy
    exact ⟨readCell_nextGrid A _ hx hy, readCell_of_shape hc hx hy⟩
  · intro exp
    refine ⟨_, DoFrame_of_shape (exactArith exp) hc hn, ?_⟩
    intro x y hx hy
    rw [← nextValue_exact]
    exact readCell_nextGrid (exactArith exp) _ hx hy

theorem DoFrame_cell_formula_witness :
    Shape 15 10 (singleSeed 15 10 (7, 5) : List (List ℝ)) ∧
    Shape 15 10 (zeroGrid 15 10 : List (List ℝ)) ∧
    ((∃ b, DoFrame 15 10 (ieeeArith Real.exp) ⟨singleSeed 15 10 (7, 5), zeroGrid 15 10⟩ =
        some b ∧
      ∀ x y : Nat, x < 15 → y < 10 →
        readCell b.cells (x : Int) (y : Int) =
          some (transition (ieeeArith Real.exp) (average (ieeeArith Real.exp)
            (floatSum (ieeeArith Real.exp)
              (neighborValues 15 10 (singleSeed 15 10 (7, 5)) x y)) 9)
            (cellAt (singleSeed 15 10 (7, 5)) x y)) ∧
        readCell (singleSeed 15 10 (7, 5) : List (List ℝ)) (x : Int) (y : Int) =
          some (cellAt (singleSeed 15 10 (7, 5)) x y)) ∧
    ∀ exp : ℝ → ℝ, ∃ b, DoFrame 15 10 (exactArith exp)
        ⟨singleSeed 15 10 (7, 5), zeroGrid 15 10⟩ = some b ∧
      ∀ x y : Nat, x < 15 → y < 10 →
        readCell b.cells (x : Int) (y : Int) =
          some (Spec.stepValue 15 10 exp (singleSeed 15 10 (7, 5)) x y)) :=
  ⟨singleSeed_shape 15 10 (7, 5), zeroGrid_shape 15 10,
    DoFrame_cell_formula (ieeeArith Real.exp) ⟨singleSeed 15 10 (7, 5), zeroGrid 15 10⟩
      (singleSeed_shape 15 10 (7, 5)) (zeroGrid_shape 15 10)⟩

/-! ### Uniform grids and the all-zero grid -/

omit [LinearOrderedField α] in
theorem constGrid_shape (W H : Nat) (c : α) : Shape W H (constGrid W H c) :=
  replicate_shape W H c

theorem cellAt_constGrid {W H : Nat} (c : α) {x y : Nat} (hx : x < W) (hy : y < H) :
    cellAt (constGrid W H c) x y = c := by
  simp [cellAt, constGrid, List.getElem?_replicate, hx, hy]

theorem neighborValues_constGrid {W H : Nat} (hW : 0 < W) (hH : 0 < H) (c : α) (x y : Nat) :
    neighborValues W H (constGrid W H c) x y = List.replicate 9 c := by
  simp only [neighborValues, offsets, List.flatMap_cons, List.flatMap_nil,
    List.map_cons, List.map_nil, List.append_nil, List.cons_append, List.nil_append,
    cellAt_constGrid c (wrapIdx_lt hW _) (wrapIdx_lt hH _)]
  rfl

/-- A frame maps a uniform buffer to a uniform buffer. -/
theorem nextGrid_constGrid {W H : Nat} (hW : 0 < W) (hH : 0 < H) (A : Arith α) (c : α) :
    nextGrid W H A (constGrid W H c) =
      constGrid W H (transition A (average A (floatSum A (List.replicate 9 c)) 9) c) := by
  apply shape_ext (nextGrid_shape W H A _) (constGrid_shape W H _)
  intro i j hi hj
  rw [cellAt_nextGrid A _ hi hj, cellAt_constGrid _ hi hj, nextValue, neighborMean,
    neighborValues_constGrid hW hH, cellAt_constGrid _ hi hj]

end Lemmas

section IeeeReal

/-! ### Frames of the all-zero grid -/

theorem tenthF_ne_zero : (tenthF : ℝ) ≠ 0 := ne_of_gt tenthF_pos

/-- In the program's arithmetic the mean of nine values `0.1f` lies in
`[0, 7/64]`. -/
theorem mean_tenthF_bounds :
    0 ≤ average (ieeeArith Real.exp) (floatSum (ieeeArith Real.exp)
        (List.replicate 9 (tenthF : ℝ))) 9 ∧
      average (ieeeArith Real.exp) (floatSum (ieeeArith Real.exp)
        (List.replicate 9 (tenthF : ℝ))) 9 ≤ 7 / 64 := by
  have hfix : ∀ k : Nat, k ≤ 9 →
      (ieeeArith Real.exp).f32 ((k : ℝ) * (7 / 64)) = k * (7 / 64) := by
    intro k hk
    have e := binary32_dyadic (α := ℝ) (7 * (k : Int)) 6
      (by rw [abs_of_nonneg (by positivity)]; omega) (by norm_num)
    have e2 : (((7 * (k : Int) : Int)) : ℝ) / 2 ^ 6 = (k : ℝ) * (7 / 64) := by
      push_cast; ring
    rw [e2] at e
    exact e
  refine floatMean_bounds (ieeeArith Real.exp) (ieeeArith_mono _) hfix (by simp) ?_
  intro v hv
  rw [List.eq_of_mem_replicate hv, tenthF]
  constructor <;> norm_num

/-- In the program's arithmetic a cell holding `0.1f` in a uniform grid of
value `0.1f` is given 0. -/
theorem transition_ieee_tenth :
    transition (ieeeArith Real.exp) (average (ieeeArith Real.exp)
      (floatSum (ieeeArith Real.exp) (List.replicate 9 (tenthF : ℝ))) 9) tenthF = 0 := by
  have hm := mean_tenthF_bounds
  have hb := birth_ieee_le hm.1 (by linarith)
  have ht : 2 * (51 / 1024 : ℝ) ≤ tenthF := by rw [tenthF]; norm_num
  have ht1 : (tenthF : ℝ) ≤ 1 := by rw [tenthF]; norm_num
  rw [transition_ieee_high hm.1 (by linarith) (by linarith) ht1, sub_self, binary32_zero]
  exact clamp_of_mem_unit (le_refl 0) zero_le_one

theorem transition_ieee_zero_zero :
    transition (ieeeArith Real.exp) (average (ieeeArith Real.exp)
      (floatSum (ieeeArith Real.exp) (List.replicate 9 (0 : ℝ))) 9) 0 = tenthF := by
  have e : average (ieeeArith Real.exp)
      (floatSum (ieeeArith Real.exp) (List.replicate 9 (0 : ℝ))) 9 = 0 := by
    have := neighborMean_zeroGrid (α := ℝ) 1 1 (ieeeArith Real.exp) binary32_zero 0 0
    rw [neighborMean, show (zeroGrid 1 1 : List (List ℝ)) = constGrid 1 1 0 from rfl,
      neighborValues_constGrid (by norm_num) (by norm_num)] at this
    exact this
  rw [e]
  exact transition_ieee_zero (le_refl 0) zero_le_one

/-- From the all-zero current buffer the frames of the program alternate
between the uniform grid of value `0.1f` (odd frame counts) and the all-zero
grid (even frame counts). -/
theorem frames_zeroGrid {W H : Nat} (hW : 0 < W) (hH : 0 < H) (n0 : List (List ℝ))
    (hn : Shape W H n0) (n : Nat) :
    ∃ a, frames W H (ieeeArith Real.exp) n ⟨zeroGrid W H, n0⟩ = some a ∧
      Shape W H a.nextCells ∧
      a.cells = constGrid W H (if n % 2 = 0 then 0 else tenthF) := by
  induction n with
  | zero => exact ⟨_, rfl, hn, rfl⟩
  | succ n ih =>
    obtain ⟨a, h1, h2, h3⟩ := ih
    have hc : Shape W H a.cells := h3 ▸ constGrid_shape W H _
    refine ⟨⟨nextGrid W H (ieeeArith Real.exp) a.cells, a.cells⟩, ?_, hc, ?_⟩
    · simp [frames, h1, DoFrame_of_shape (ieeeArith Real.exp) hc h2]
    · show nextGrid W H (ieeeArith Real.exp) a.cells = _
      rw [h3, nextGrid_constGrid hW hH]
      by_cases he : n % 2 = 0
      · have ho : ¬ ((n + 1) % 2 = 0) := by omega
        simp only [he, ho, if_true, if_false, transition_ieee_zero_zero]
      · have ho : (n + 1) % 2 = 0 := by omega
        simp only [he, ho, if_true, if_false, transition_ieee_tenth]

end IeeeReal

section Claims

/-- C3, as stated, fails: five frames of the program on the all-zero 15 x 10
grid leave a non-zero value in cell `(0, 0)`. -/
theorem zero_grid_not_steady :
    ∃ a, frames num_w_boxes num_h_boxes (ieeeArith Real.exp) 5
        ⟨zeroGrid num_w_boxes num_h_boxes, zeroGrid num_w_boxes num_h_boxes⟩ = some a ∧
      ∃ v, readCell a.cells 0 0 = some v ∧ v ≠ 0 := by
  obtain ⟨a, h1, -, h3⟩ := frames_zeroGrid (W := num_w_boxes) (H := num_h_boxes)
    (by decide) (by decide) (zeroGrid _ _) (zeroGrid_shape _ _) 5
  refine ⟨a, h1, tenthF, ?_, tenthF_ne_zero⟩
  have hr := readCell_of_shape (constGrid_shape num_w_boxes num_h_boxes
    (tenthF : ℝ)) (x := 0) (y := 0) (by decide) (by decide)
  rw [cellAt_constGrid _ (by decide) (by decide)] at hr
  rw [h3]
  simpa using hr

/-- C3, amended: from a `W × H` grid whose current buffer is 0 everywhere,
every cell holds 0 again after any even number of frames of the program, and
after any odd number of frames every cell holds the `float` constant
`0.1f = 13421773 / 134217728`. -/
theorem zero_grid_oscillates {W H : Nat} (hW : 0 < W) (hH : 0 < H) (n0 : List (List ℝ))
    (hn : Shape W H n0) (n : Nat) :
    ∃ a, frames W H (ieeeArith Real.exp) n ⟨zeroGrid W H, n0⟩ = some a ∧
      ∀ x y : Nat, x < W → y < H →
        readCell a.cells (x : Int) (y : Int) =
          some (if n % 2 = 0 then 0 else 13421773 / 134217728) := by
  obtain ⟨a, h1, -, h3⟩ := frames_zeroGrid hW hH n0 hn n
  refine ⟨a, h1, ?_⟩
  intro x y hx hy
  rw [h3, readCell_of_shape (constGrid_shape W H _) hx hy, cellAt_constGrid _ hx hy, tenthF]

theorem zero_grid_oscillates_witness :
    0 < 15 ∧ 0 < 10 ∧ Shape 15 10 (zeroGrid 15 10 : List (List ℝ)) ∧
    ∃ a, frames 15 10 (ieeeArith Real.exp) 5 ⟨zeroGrid 15 10, zeroGrid 15 10⟩ = some a ∧
      ∀ x y : Nat, x < 15 → y < 10 →
        readCell a.cells (x : Int) (y : Int) =
          some (if 5 % 2 = 0 then 0 else 13421773 / 134217728) :=
  ⟨by decide, by decide, zeroGrid_shape 15 10,
    zero_grid_oscillates (by decide) (by decide) (zeroGrid 15 10) (zeroGrid_shape 15 10) 5⟩

end Claims

section Lemmas

variable {α : Type} [LinearOrderedField α]

/-! ### Buffer swap and dimensions -/

/-- C11. Buffer swap: on `W × H` buffers the update loops return a state `m`
whose `cells` is still the pre-step current buffer and whose `nextCells` holds
the new generation in every cell; the frame returns `m` with the two buffers
exchanged, so the new `nextCells` is exactly the old `cells` and the new
`cells` is the newly computed generation.  This holds for every arithmetic
`A`, in particular for the program's. -/
theorem buffer_swap {W H : Nat} (A : Arith α) (a : CAAnimator α)
    (hc : Shape W H a.cells) (hn : Shape W H a.nextCells) :
    ∃ m b, updateLoop W H A a = some m ∧ m.cells = a.cells ∧
      (∀ x y : Nat, x < W → y < H →
        readCell m.nextCells (x : Int) (y : Int) = some (nextValue W H A a.cells x y)) ∧
      DoFrame W H A a = some b ∧ b.cells = m.nextCells ∧ b.nextCells = m.cells ∧
      b.nextCells = a.cells := by
  refine ⟨⟨a.cells, nextGrid W H A a.cells⟩, ⟨nextGrid W H A a.cells, a.cells⟩,
    updateLoop_of_shape A hc hn, rfl, ?_, DoFrame_of_shape A hc hn, rfl, rfl, rfl⟩
  intro x y hx hy
  exact readCell_nextGrid A a.cells hx hy

theorem buffer_swap_witness :
    Shape 15 10 (singleSeed 15 10 (7, 5) : List (List ℝ)) ∧
    Shape 15 10 (zeroGrid 15 10 : List (List ℝ)) ∧
    ∃ m b, updateLoop 15 10 (ieeeArith Real.exp)
        ⟨singleSeed 15 10 (7, 5), zeroGrid 15 10⟩ = some m ∧
      m.cells = singleSeed 15 10 (7, 5) ∧
      (∀ x y : Nat, x < 15 → y < 10 →
        readCell m.nextCells (x : Int) (y : Int) =
          some (nextValue 15 10 (ieeeArith Real.exp) (singleSeed 15 10 (7, 5)) x y)) ∧
      DoFrame 15 10 (ieeeArith Real.exp) ⟨singleSeed 15 10 (7, 5), zeroGrid 15 10⟩ = some b ∧
      b.cells = m.nextCells ∧ b.nextCells = m.cells ∧
      b.nextCells = singleSeed 15 10 (7, 5) :=
  ⟨singleSeed_shape 15 10 (7, 5), zeroGrid_shape 15 10,
    buffer_swap (ieeeArith Real.exp) ⟨singleSeed 15 10 (7, 5), zeroGrid 15 10⟩
      (singleSeed_shape 15 10 (7, 5)) (zeroGrid_shape 15 10)⟩

/-- C12. Dimension preservation: for extents `W, H ≥ 1` the state after the
constructor and after any number `n` of frames exists and both of its buffers
have `W` columns of `H` values, for every arithmetic `A`. -/
theorem dimension_preservation {W H : Nat} (hW : 0 < W) (hH : 0 < H) (A : Arith α)
    (rand : Nat → Nat) (n : Nat) :
    ∃ a, run W H A rand n = some a ∧ Shape W H a.cells ∧ Shape W H a.nextCells := by
  obtain ⟨a, h1, h2, h3, -, -⟩ := run_inv hW hH A rand n
  exact ⟨a, h1, h2, h3⟩

theorem dimension_preservation_witness :
    0 < num_w_boxes ∧ 0 < num_h_boxes ∧
    ∃ a, run num_w_boxes num_h_boxes (ieeeArith Real.exp) (fun k => 3 * k + 2) 4 = some a ∧
      Shape 15 10 a.cells ∧ Shape 15 10 a.nextCells :=
  ⟨by decide, by decide,
    dimension_preservation (by decide) (by decide) (ieeeArith Real.exp) (fun k => 3 * k + 2) 4⟩

/-! ### Safety of the neighbour indices -/

theorem imod_emod {n : Nat} (hn : 0 < n) {i : Int} (hi : 0 ≤ i + n) :
    imod (i + n) n = some (i % (n : Int)) := by
  have h1 : (0 : Int) < n := by exact_mod_cast hn
  rw [imod_wrap hn hi, wrapIdx, Int.toNat_of_nonneg (Int.emod_nonneg i (ne_of_gt h1))]

omit [LinearOrderedField α] in
theorem mem_offsets {d : Int} (h : d ∈ offsets) : -1 ≤ d ∧ d ≤ 1 := by
  simp only [offsets, List.mem_cons, List.mem_singleton, List.mem_nil_iff, or_false] at h
  omega

/-- C14. Neighbour indexing is safe: for extents `W, H ≥ 1`, an in-range cell
`(x, y)` and offsets `dx, dy ∈ {-1, 0, 1}`, the C++ expressions
`(x + dx + W) % W` and `(y + dy + H) % H` are defined, their values `nx`, `ny`
satisfy `0 ≤ nx < W`, `0 ≤ ny < H` and are the mathematical residues of
`x + dx` and `y + dy`, and the read `cells[nx][ny]` of any `W × H` buffer
returns a value; for extents below `2^30` every intermediate sum fits a 32-bit
`int`. -/
theorem neighbour_index_safe (α : Type) [LinearOrderedField α] {W H : Nat}
    (hW : 0 < W) (hH : 0 < H) (x y : Nat) (hx : x < W) (hy : y < H) (dx dy : Int)
    (hdx : dx ∈ offsets) (hdy : dy ∈ offsets) :
    ∃ nx ny : Int, imod ((x : Int) + dx + W) W = some nx ∧
      imod ((y : Int) + dy + H) H = some ny ∧
      0 ≤ nx ∧ nx < W ∧ 0 ≤ ny ∧ ny < H ∧
      nx = ((x : Int) + dx) % (W : Int) ∧ ny = ((y : Int) + dy) % (H : Int) ∧
      (∀ g : List (List α), Shape W H g →
        ∃ v, readCell g nx ny = some v ∧
          wrappedRead W H g ((x : Int) + dx) ((y : Int) + dy) = some v) ∧
      (W < 2 ^ 30 → FitsInt32 ((x : Int) + dx) ∧ FitsInt32 ((x : Int) + dx + W)) ∧
      (H < 2 ^ 30 → FitsInt32 ((y : Int) + dy) ∧ FitsInt32 ((y : Int) + dy + H)) := by
  have h1 := mem_offsets hdx
  have h2 := mem_offsets hdy
  have hWi : (0 : Int) < W := by exact_mod_cast hW
  have hHi : (0 : Int) < H := by exact_mod_cast hH
  have ex : (0 : Int) ≤ (x : Int) + dx + W := by omega
  have ey : (0 : Int) ≤ (y : Int) + dy + H := by omega
  refine ⟨((x : Int) + dx) % (W : Int), ((y : Int) + dy) % (H : Int),
    imod_emod hW ex, imod_emod hH ey,
    Int.emod_nonneg _ (ne_of_gt hWi), Int.emod_lt_of_pos _ hWi,
    Int.emod_nonneg _ (ne_of_gt hHi), Int.emod_lt_of_pos _ hHi, rfl, rfl, ?_, ?_, ?_⟩
  · intro g hg
    have hr := wrappedRead_of_shape hg hW hH ex ey
    refine ⟨_, ?_, hr⟩
    have e1 : ((x : Int) + dx) % (W : Int) = ((wrapIdx W ((x : Int) + dx) : Nat) : Int) := by
      rw [wrapIdx, Int.toNat_of_nonneg (Int.emod_nonneg _ (ne_of_gt hWi))]
    have e2 : ((y : Int) + dy) % (H : Int) = ((wrapIdx H ((y : Int) + dy) : Nat) : Int) := by
      rw [wrapIdx, Int.toNat_of_nonneg (Int.emod_nonneg _ (ne_of_gt hHi))]
    rw [e1, e2]
    exact readCell_of_shape hg (wrapIdx_lt hW _) (wrapIdx_lt hH _)
  · intro hb
    have hb2 : (W : Int) < 2 ^ 30 := by exact_mod_cast hb
    unfold FitsInt32
    omega
  · intro hb
    have hb2 : (H : Int) < 2 ^ 30 := by exact_mod_cast hb
    unfold FitsInt32
    omega

theorem neighbour_index_safe_witness :
    0 < 15 ∧ 0 < 10 ∧ 14 < 15 ∧ 0 < 10 ∧ (1 : Int) ∈ offsets ∧ (-1 : Int) ∈ offsets ∧
    ∃ nx ny : Int, imod (((14 : Nat) : Int) + 1 + (15 : Nat)) (15 : Nat) = some nx ∧
      imod (((0 : Nat) : Int) + -1 + (10 : Nat)) (10 : Nat) = some ny ∧
      0 ≤ nx ∧ nx < (15 : Nat) ∧ 0 ≤ ny ∧ ny < (10 : Nat) ∧
      nx = (((14 : Nat) : Int) + 1) % ((15 : Nat) : Int) ∧
      ny = (((0 : Nat) : Int) + -1) % ((10 : Nat) : Int) ∧
      (∀ g : List (List ℚ), Shape 15 10 g →
        ∃ v, readCell g nx ny = some v ∧
          wrappedRead 15 10 g (((14 : Nat) : Int) + 1) (((0 : Nat) : Int) + -1) = some v) ∧
      (15 < 2 ^ 30 → FitsInt32 (((14 : Nat) : Int) + 1) ∧
        FitsInt32 (((14 : Nat) : Int) + 1 + (15 : Nat))) ∧
      (10 < 2 ^ 30 → FitsInt32 (((0 : Nat) : Int) + -1) ∧
        FitsInt32 (((0 : Nat) : Int) + -1 + (10 : Nat))) :=
  ⟨by decide, by decide, by decide, by decide, by decide, by decide,
    neighbour_index_safe ℚ (by decide) (by decide) 14 0 (by decide) (by decide) 1 (-1)
      (by decide) (by decide)⟩

/-! ### Toroidal shifts -/

theorem shiftGrid_shape (W H : Nat) (a b : Int) (g : List (List α)) :
    Shape W H (shiftGrid W H a b g) := by
  refine ⟨by simp [shiftGrid], ?_⟩
  intro col hcol
  simp only [shiftGrid, List.mem_map] at hcol
  obtain ⟨x, -, rfl⟩ := hcol
  simp

theorem cellAt_shiftGrid {W H : Nat} (a b : Int) (g : List (List α)) {x y : Nat}
    (hx : x < W) (hy : y < H) :
    cellAt (shiftGrid W H a b g) x y =
      cellAt g (wrapIdx W ((x : Int) + a)) (wrapIdx H ((y : Int) + b)) := by
  simp [cellAt, shiftGrid, List.getElem?_range, hx, hy]

theorem wrapIdx_wrapIdx_add {n : Nat} (hn : 0 < n) (i j : Int) :
    wrapIdx n (((wrapIdx n i : Nat) : Int) + j) = wrapIdx n (i + j) := by
  have h1 : (0 : Int) < n := by exact_mod_cast hn
  unfold wrapIdx
  rw [Int.toNat_of_nonneg (Int.emod_nonneg i (ne_of_gt h1)), Int.emod_add_emod]

theorem neighborValues_shiftGrid {W H : Nat} (a b : Int) (g : List (List α)) {x y : Nat}
    (hx : x < W) (hy : y < H) :
    neighborValues W H (shiftGrid W H a b g) x y =
      neighborValues W H g (wrapIdx W ((x : Int) + a)) (wrapIdx H ((y : Int) + b)) := by
  have hW : 0 < W := by omega
  have hH : 0 < H := by omega
  have e : ∀ dx dy : Int,
      cellAt (shiftGrid W H a b g) (wrapIdx W ((x : Int) + dx)) (wrapIdx H ((y : Int) + dy)) =
        cellAt g (wrapIdx W (((wrapIdx W ((x : Int) + a) : Nat) : Int) + dx))
          (wrapIdx H (((wrapIdx H ((y : Int) + b) : Nat) : Int) + dy)) := by
    intro dx dy
    rw [cellAt_shiftGrid a b g (wrapIdx_lt hW _) (wrapIdx_lt hH _),
      wrapIdx_wrapIdx_add hW, wrapIdx_wrapIdx_add hH, wrapIdx_wrapIdx_add hW,
      wrapIdx_wrapIdx_add hH, add_right_comm (x : Int) dx a, add_right_comm (y : Int) dy b]
  simp only [neighborValues, e]

theorem nextValue_shiftGrid {W H : Nat} (A : Arith α) (a b : Int) (g : List (List α))
    {x y : Nat} (hx : x < W) (hy : y < H) :
    nextValue W H A (shiftGrid W H a b g) x y =
      nextValue W H A g (wrapIdx W ((x : Int) + a)) (wrapIdx H ((y : Int) + b)) := by
  simp only [nextValue, neighborMean, neighborValues_shiftGrid a b g hx hy,
    cellAt_shiftGrid a b g hx hy]

theorem nextGrid_shiftGrid (W H : Nat) (A : Arith α) (a b : Int) (g : List (List α)) :
    nextGrid W H A (shiftGrid W H a b g) = shiftGrid W H a b (nextGrid W H A g) := by
  apply shape_ext (nextGrid_shape W H A _) (shiftGrid_shape W H a b _)
  intro x y hx hy
  have hW : 0 < W := by omega
  have hH : 0 < H := by omega
  rw [cellAt_nextGrid A _ hx hy, nextValue_shiftGrid A a b g hx hy,
    cellAt_shiftGrid a b _ hx hy,
    cellAt_nextGrid A g (wrapIdx_lt hW _) (wrapIdx_lt hH _)]

/-- C17. Translation equivariance on the torus: for `W × H` buffers and every
shift `(a, b)`, a frame on the state whose current buffer is the toroidal
shift of `g` returns the toroidal shift of what a frame on `g` returns; and a
frame on a uniform current buffer returns a uniform current buffer.  This
holds for every arithmetic `A`, in particular for the program's. -/
theorem translation_equivariance {W H : Nat} (A : Arith α) (g n0 n1 : List (List α))
    (hg : Shape W H g) (hn0 : Shape W H n0) (hn1 : Shape W H n1) (a b : Int) :
    (∃ r s, DoFrame W H A ⟨g, n0⟩ = some r ∧
      DoFrame W H A ⟨shiftGrid W H a b g, n1⟩ = some s ∧
      s.cells = shiftGrid W H a b r.cells) ∧
    ∀ c : α, ∃ u d, DoFrame W H A ⟨constGrid W H c, n0⟩ = some u ∧
      u.cells = constGrid W H d := by
  constructor
  · exact ⟨⟨nextGrid W H A g, g⟩,
      ⟨nextGrid W H A (shiftGrid W H a b g), shiftGrid W H a b g⟩,
      DoFrame_of_shape A hg hn0,
      DoFrame_of_shape A (shiftGrid_shape W H a b g) hn1,
      nextGrid_shiftGrid W H A a b g⟩
  · intro c
    refine ⟨⟨nextGrid W H A (constGrid W H c), constGrid W H c⟩,
      transition A (average A (floatSum A (List.replicate 9 c)) 9) c,
      DoFrame_of_shape A (constGrid_shape W H c) hn0, ?_⟩
    show nextGrid W H A (constGrid W H c) = _
    rcases Nat.eq_zero_or_pos W with h | h
    · subst h
      rfl
    · rcases Nat.eq_zero_or_pos H with h2 | h2
      · subst h2
        simp [nextGrid, constGrid]
      · exact nextGrid_constGrid h h2 A c

theorem translation_equivariance_witness :
    Shape 15 10 (singleSeed 15 10 (7, 5) : List (List ℝ)) ∧
    Shape 15 10 (zeroGrid 15 10 : List (List ℝ)) ∧
    ((∃ r s, DoFrame 15 10 (ieeeArith Real.exp) ⟨singleSeed 15 10 (7, 5), zeroGrid 15 10⟩ =
        some r ∧
      DoFrame 15 10 (ieeeArith Real.exp)
        ⟨shiftGrid 15 10 3 (-4) (singleSeed 15 10 (7, 5)), zeroGrid 15 10⟩ = some s ∧
      s.cells = shiftGrid 15 10 3 (-4) r.cells) ∧
    ∀ c : ℝ, ∃ u d, DoFrame 15 10 (ieeeArith Real.exp) ⟨constGrid 15 10 c, zeroGrid 15 10⟩ =
        some u ∧
      u.cells = constGrid 15 10 d) :=
  ⟨singleSeed_shape 15 10 (7, 5), zeroGrid_shape 15 10,
    translation_equivariance (ieeeArith Real.exp) (singleSeed 15 10 (7, 5)) (zeroGrid 15 10)
      (zeroGrid 15 10) (singleSeed_shape 15 10 (7, 5)) (zeroGrid_shape 15 10)
      (zeroGrid_shape 15 10) 3 (-4)⟩

/-! ### Periodicity of the wrapped read -/

end Lemmas

section IeeeLemmas

variable {α : Type} [LinearOrderedField α] [FloorRing α]

/-! ### Spacing of binary32 numbers -/

/-- The relative rounding error of binary32 in the normal range. -/
theorem binary32_rel {x : α} (h : 1 / 2 ^ 126 ≤ |x|) : |binary32 x - x| ≤ |x| / 2 ^ 24 := by
  have hpos : 0 < |x| := lt_of_lt_of_le (by positivity) h
  have hx : x ≠ 0 := abs_pos.mp hpos
  have hn : (-126 : Int) ≤ Int.log 2 |x| := by
    rw [← Int.zpow_le_iff_le_log (b := 2) (by norm_num) hpos]
    rw [zpow_neg, ← one_div]
    exact_mod_cast h
  have := roundNearest_relative (p := 24) hn hx
  rw [zpow_neg, zpow_natCast, ← one_div] at this
  rw [div_eq_mul_one_div, mul_comm]
  exact this

/-- A binary32 number in the binade `[2^e, 2^(e+1))` is a multiple of
`2^(e-23)`. -/
theorem binary32_repr {v : α} {e : Int} (hv : binary32 v = v) (h1 : 2 ^ e ≤ |v|)
    (h2 : |v| < 2 ^ (e + 1)) (he : -126 ≤ e) : ∃ N : Int, v = (N : α) * 2 ^ (e - 23) := by
  unfold binary32 roundNearest at hv
  rw [ulpExp_eq_of_bounds 24 h1 h2 he] at hv
  exact ⟨_, by simpa using hv.symm⟩

/-- Two binary32 numbers `0 ≤ x < y`, with `y` in the normal range, are at
least `y / 2^24` apart. -/
theorem binary32_gap {x y : α} {e : Int} (hx : binary32 x = x) (hy : binary32 y = y)
    (h0 : 0 ≤ x) (hxy : x < y) (h1 : 2 ^ e ≤ y) (h2 : y < 2 ^ (e + 1)) (he : -125 ≤ e) :
    y ≤ 2 ^ 24 * (y - x) := by
  have hy0 : 0 < y := lt_of_le_of_lt h0 hxy
  have hu := two_zpow_pos (α := α) (e - 23)
  have e1 : (2 : α) ^ (e + 1) = 2 ^ 24 * 2 ^ (e - 23) := by
    have := zpow_add₀ (by norm_num : (2 : α) ≠ 0) 24 (e - 23)
    rw [show (24 : Int) + (e - 23) = e + 1 by ring] at this
    rw [this]
    norm_num
  have e0 : (2 : α) ^ e = 2 ^ 23 * 2 ^ (e - 23) := by
    have := zpow_add₀ (by norm_num : (2 : α) ≠ 0) 23 (e - 23)
    rw [show (23 : Int) + (e - 23) = e by ring] at this
    rw [this]
    norm_num
  obtain ⟨M, hM⟩ := binary32_repr hy (by rwa [abs_of_pos hy0]) (by rwa [abs_of_pos hy0])
    (by omega)
  by_cases hxe : 2 ^ e ≤ x
  · have hx0 : 0 < x := lt_of_lt_of_le (two_zpow_pos e) hxe
    obtain ⟨N, hN⟩ := binary32_repr hx (by rwa [abs_of_pos hx0])
      (by rw [abs_of_pos hx0]; exact lt_trans hxy h2) (by omega)
    have hNM : N < M := by
      have : (N : α) * 2 ^ (e - 23) < (M : α) * 2 ^ (e - 23) := by rw [← hN, ← hM]; exact hxy
      exact_mod_cast (mul_lt_mul_right hu).mp this
    have h3 : (N : α) + 1 ≤ M := by exact_mod_cast hNM
    have h4 : 2 ^ (e - 23) ≤ y - x := by
      rw [hM, hN]
      nlinarith
    rw [e1] at h2
    nlinarith
  · push_neg at hxe
    by_cases hye : y = 2 ^ e
    · by_cases hx2 : 2 ^ (e - 1) ≤ x
      · have hx0 : 0 < x := lt_of_lt_of_le (two_zpow_pos (e - 1)) hx2
        have hu2 := two_zpow_pos (α := α) (e - 1 - 23)
        obtain ⟨N, hN⟩ := binary32_repr hx (by rwa [abs_of_pos hx0])
          (by rw [abs_of_pos hx0, sub_add_cancel]; exact hxe) (by omega)
        have e2 : (2 : α) ^ e = 2 ^ 24 * 2 ^ (e - 1 - 23) := by
          have := zpow_add₀ (by norm_num : (2 : α) ≠ 0) 24 (e - 1 - 23)
          rw [show (24 : Int) + (e - 1 - 23) = e by ring] at this
          rw [this]
          norm_num
        have hN24 : N < 2 ^ 24 := by
          have : (N : α) * 2 ^ (e - 1 - 23) < ((2 ^ 24 : Int) : α) * 2 ^ (e - 1 - 23) := by
            rw [← hN, Int.cast_pow, Int.cast_ofNat, ← e2]
            exact hxe
          exact_mod_cast (mul_lt_mul_right hu2).mp this
        have h3 : (N : α) + 1 ≤ 2 ^ 24 := by exact_mod_cast hN24
        rw [hye, hN, e2]
        nlinarith
      · push_neg at hx2
        have e3 : (2 : α) ^ e = 2 * 2 ^ (e - 1) := by
          have := zpow_add₀ (by norm_num : (2 : α) ≠ 0) 1 (e - 1)
          rw [show (1 : Int) + (e - 1) = e by ring] at this
          rw [this]
          norm_num
        have := two_zpow_pos (α := α) (e - 1)
        rw [hye, e3]
        nlinarith
    · have hgt : 2 ^ e < y := lt_of_le_of_ne h1 (Ne.symm hye)
      have hM23 : 2 ^ 23 < M := by
        have : ((2 ^ 23 : Int) : α) * 2 ^ (e - 23) < (M : α) * 2 ^ (e - 23) := by
          rw [← hM, Int.cast_pow, Int.cast_ofNat, ← e0]
          exact hgt
        exact_mod_cast (mul_lt_mul_right hu).mp this
      have h3 : (2 : α) ^ 23 + 1 ≤ M := by exact_mod_cast hM23
      have h4 : 2 ^ e + 2 ^ (e - 23) ≤ y := by
        rw [hM, e0]
        nlinarith
      rw [e1] at h2
      rw [e0] at hxe h4
      nlinarith

end IeeeLemmas

section IeeeReal

/-! ### Strict direction of the change in the program's arithmetic -/

/-- For an exponent at most `-19 / 2^24` the stored `float` is at least
`1/2 + 2^(-22)`. -/
theorem invOnePlusExp_of_le_small {t : ℝ} (ht : t ≤ -(19 / 2 ^ 24)) :
    1 / 2 + 1 / 2 ^ 22 ≤ binary32 (invOnePlusExp (ieeeArith Real.exp) t) := by
  show 1 / 2 + 1 / 2 ^ 22 ≤ binary32 (binary64 (1 / binary64 (1 + binary64 (Real.exp t))))
  have hexp : Real.exp t ≤ 16777198 / 2 ^ 24 := by
    have h1 : Real.exp t ≤ Real.exp (-(19 / 2 ^ 24)) := Real.exp_le_exp.mpr ht
    have h2 := Real.add_one_le_exp ((19 : ℝ) / 2 ^ 24)
    have h3 : Real.exp (-(19 / 2 ^ 24)) = 1 / Real.exp (19 / 2 ^ 24) := by
      rw [Real.exp_neg, one_div]
    have h4 : 1 / Real.exp (19 / 2 ^ 24) ≤ 1 / ((19 : ℝ) / 2 ^ 24 + 1) :=
      one_div_le_one_div_of_le (by norm_num) h2
    have h5 : 1 / ((19 : ℝ) / 2 ^ 24 + 1) ≤ 16777198 / 2 ^ 24 := by
      rw [div_le_div_iff₀ (by norm_num) (by norm_num)]
      norm_num
    linarith
  have hE : binary64 (Real.exp t) ≤ 16777198 / 2 ^ 24 := by
    have := binary64_mono hexp
    have e := binary64_dyadic (α := ℝ) 16777198 24 (by norm_num) (by norm_num)
    rw [show ((16777198 : Int) : ℝ) = 16777198 by norm_num] at e
    rwa [e] at this
  have hE0 : 0 ≤ binary64 (Real.exp t) := binary64_nonneg (le_of_lt (Real.exp_pos t))
  generalize binary64 (Real.exp t) = E at hE hE0 ⊢
  have hD : binary64 (1 + E) ≤ 33554414 / 2 ^ 24 := by
    have := binary64_mono (show 1 + E ≤ (33554414 : ℝ) / 2 ^ 24 by norm_num at hE ⊢; linarith)
    have e := binary64_dyadic (α := ℝ) 33554414 24 (by norm_num) (by norm_num)
    rw [show ((33554414 : Int) : ℝ) = 33554414 by norm_num] at e
    rwa [e] at this
  have hD1 : 1 ≤ binary64 (1 + E) := by
    have := binary64_mono (show (1 : ℝ) ≤ 1 + E by linarith)
    rwa [binary64_one] at this
  generalize binary64 (1 + E) = D at hD hD1 ⊢
  have hr : 16777225 / 2 ^ 25 ≤ binary64 (1 / D) := by
    have := binary64_mono (show (16777225 : ℝ) / 2 ^ 25 ≤ 1 / D by
      rw [le_div_iff₀ (by linarith)]
      have : (16777225 : ℝ) / 2 ^ 25 * D ≤ 16777225 / 2 ^ 25 * (33554414 / 2 ^ 24) :=
        mul_le_mul_of_nonneg_left hD (by norm_num)
      refine le_trans this ?_
      norm_num)
    have e := binary64_dyadic (α := ℝ) 16777225 25 (by norm_num) (by norm_num)
    rw [show ((16777225 : Int) : ℝ) = 16777225 by norm_num] at e
    rwa [e] at this
  generalize binary64 (1 / D) = r at hr ⊢
  have := binary32_mono (show (2097153 : ℝ) / 2 ^ 22 ≤ r by norm_num at hr ⊢; linarith)
  have e := binary32_dyadic (α := ℝ) 2097153 22 (by norm_num) (by norm_num)
  rw [show ((2097153 : Int) : ℝ) = 2097153 by norm_num] at e
  rw [e] at this
  norm_num at this ⊢
  linarith

/-- For an exponent at least `19 / 2^24` the stored `float` is at most
`1/2 - 2^(-22)`. -/
theorem invOnePlusExp_of_ge_small {t : ℝ} (ht : 19 / 2 ^ 24 ≤ t) :
    binary32 (invOnePlusExp (ieeeArith Real.exp) t) ≤ 1 / 2 - 1 / 2 ^ 22 := by
  show binary32 (binary64 (1 / binary64 (1 + binary64 (Real.exp t)))) ≤ 1 / 2 - 1 / 2 ^ 22
  have hexp : 16777235 / 2 ^ 24 ≤ Real.exp t := by
    have h2 := Real.add_one_le_exp t
    norm_num at ht ⊢
    linarith
  have hE : 16777235 / 2 ^ 24 ≤ binary64 (Real.exp t) := by
    have := binary64_mono hexp
    have e := binary64_dyadic (α := ℝ) 16777235 24 (by norm_num) (by norm_num)
    rw [show ((16777235 : Int) : ℝ) = 16777235 by norm_num] at e
    rwa [e] at this
  generalize binary64 (Real.exp t) = E at hE ⊢
  have hD : 33554451 / 2 ^ 24 ≤ binary64 (1 + E) := by
    have := binary64_mono (show (33554451 : ℝ) / 2 ^ 24 ≤ 1 + E by norm_num at hE ⊢; linarith)
    have e := binary64_dyadic (α := ℝ) 33554451 24 (by norm_num) (by norm_num)
    rw [show ((33554451 : Int) : ℝ) = 33554451 by norm_num] at e
    rwa [e] at this
  generalize binary64 (1 + E) = D at hD ⊢
  have hD0 : 0 < D := lt_of_lt_of_le (by norm_num) hD
  have hr : binary64 (1 / D) ≤ 16777207 / 2 ^ 25 := by
    have := binary64_mono (show 1 / D ≤ (16777207 : ℝ) / 2 ^ 25 by
      rw [div_le_iff₀ hD0]
      have : (16777207 : ℝ) / 2 ^ 25 * (33554451 / 2 ^ 24) ≤ 16777207 / 2 ^ 25 * D :=
        mul_le_mul_of_nonneg_left hD (by norm_num)
      refine le_trans ?_ this
      norm_num)
    have e := binary64_dyadic (α := ℝ) 16777207 25 (by norm_num) (by norm_num)
    rw [show ((16777207 : Int) : ℝ) = 16777207 by norm_num] at e
    rwa [e] at this
  generalize binary64 (1 / D) = r at hr ⊢
  have := binary32_mono (show r ≤ (2097151 : ℝ) / 2 ^ 22 by norm_num at hr ⊢; linarith)
  have e := binary32_dyadic (α := ℝ) 2097151 22 (by norm_num) (by norm_num)
  rw [show ((2097151 : Int) : ℝ) = 2097151 by norm_num] at e
  rw [e] at this
  norm_num at this ⊢
  linarith

/-- The binade of a positive real. -/
theorem exists_binade {b : ℝ} (hb : 1 / 2 ^ 9 ≤ b) :
    ∃ e : Int, (2 : ℝ) ^ e ≤ b ∧ b < 2 ^ (e + 1) ∧ -125 ≤ e := by
  have hpos : 0 < b := lt_of_lt_of_le (by norm_num) hb
  refine ⟨Int.log 2 b, ?_, ?_, ?_⟩
  · simpa using Int.zpow_log_le_self (b := 2) (by norm_num) hpos
  · simpa using Int.lt_zpow_succ_log_self (b := 2) (by norm_num) b
  · have h9 : (-9 : Int) ≤ Int.log 2 b := by
      rw [← Int.zpow_le_iff_le_log (b := 2) (by norm_num) hpos]
      rw [zpow_neg, ← one_div]
      exact_mod_cast hb
    omega

/-- The `float` increment for `s ≥ 1/2 + 2^(-22)` is at least `3 / 2^26`. -/
theorem increment_ge {s : ℝ} (hs : 1 / 2 + 1 / 2 ^ 22 ≤ s) :
    3 / 2 ^ 26 ≤ binary32 (binary32 0.1 * binary32 (binary32 (2 * s) - 1)) := by
  rw [binary32_tenth]
  have hw : 2097153 / 2 ^ 21 ≤ binary32 (2 * s) := by
    have := binary32_mono (show (2097153 : ℝ) / 2 ^ 21 ≤ 2 * s by norm_num at hs ⊢; linarith)
    have e := binary32_dyadic (α := ℝ) 2097153 21 (by norm_num) (by norm_num)
    rw [show ((2097153 : Int) : ℝ) = 2097153 by norm_num] at e
    rwa [e] at this
  generalize binary32 (2 * s) = w at hw ⊢
  have hm : 1 / 2 ^ 21 ≤ binary32 (w - 1) := by
    have := binary32_mono (show (1 : ℝ) / 2 ^ 21 ≤ w - 1 by norm_num at hw ⊢; linarith)
    have e := binary32_dyadic (α := ℝ) 1 21 (by norm_num) (by norm_num)
    rw [Int.cast_one] at e
    rwa [e] at this
  generalize binary32 (w - 1) = m at hm ⊢
  have := binary32_mono (show (3 : ℝ) / 2 ^ 26 ≤ tenthF * m by
    have ht : (0 : ℝ) ≤ tenthF := le_of_lt tenthF_pos
    have : tenthF * (1 / 2 ^ 21) ≤ tenthF * m := mul_le_mul_of_nonneg_left hm ht
    refine le_trans ?_ this
    rw [tenthF]
    norm_num)
  have e := binary32_dyadic (α := ℝ) 3 26 (by norm_num) (by norm_num)
  rw [show ((3 : Int) : ℝ) = 3 by norm_num] at e
  rwa [e] at this

/-- The `float` increment for `s ≤ 1/2 - 2^(-22)` is at most `-3 / 2^26`. -/
theorem increment_le {s : ℝ} (hs : s ≤ 1 / 2 - 1 / 2 ^ 22) :
    binary32 (binary32 0.1 * binary32 (binary32 (2 * s) - 1)) ≤ -(3 / 2 ^ 26) := by
  rw [binary32_tenth]
  have hw : binary32 (2 * s) ≤ 2097151 / 2 ^ 21 := by
    have := binary32_mono (show 2 * s ≤ (2097151 : ℝ) / 2 ^ 21 by norm_num at hs ⊢; linarith)
    have e := binary32_dyadic (α := ℝ) 2097151 21 (by norm_num) (by norm_num)
    rw [show ((2097151 : Int) : ℝ) = 2097151 by norm_num] at e
    rwa [e] at this
  generalize binary32 (2 * s) = w at hw ⊢
  have hm : binary32 (w - 1) ≤ -(1 / 2 ^ 21) := by
    have := binary32_mono (show w - 1 ≤ -((1 : ℝ) / 2 ^ 21) by norm_num at hw ⊢; linarith)
    have e := binary32_dyadic (α := ℝ) 1 21 (by norm_num) (by norm_num)
    rw [Int.cast_one] at e
    rwa [binary32_neg, e] at this
  generalize binary32 (w - 1) = m at hm ⊢
  have := binary32_mono (show tenthF * m ≤ -((3 : ℝ) / 2 ^ 26) by
    have ht : (0 : ℝ) ≤ tenthF := le_of_lt tenthF_pos
    have : tenthF * m ≤ tenthF * -(1 / 2 ^ 21) := mul_le_mul_of_nonneg_left hm ht
    refine le_trans this ?_
    rw [tenthF]
    norm_num)
  have e := binary32_dyadic (α := ℝ) 3 26 (by norm_num) (by norm_num)
  rw [show ((3 : Int) : ℝ) = 3 by norm_num] at e
  rwa [binary32_neg, e] at this

/-- In the program's arithmetic a `float` cell below `birth`, with a
neighbourhood mean in `[0, 1]`, is raised by the unclamped update. -/
theorem unclampedNext_ieee_gt {avg c : ℝ} (h0 : 0 ≤ avg) (h1 : avg ≤ 1)
    (hc : binary32 c = c) (hc0 : 0 ≤ c) (hlt : c < birth (ieeeArith Real.exp) avg) :
    c < unclampedNext (ieeeArith Real.exp) avg c := by
  have hfix : binary32 (birth (ieeeArith Real.exp) avg) = birth (ieeeArith Real.exp) avg := by
    rw [birth_ieee, binary32_binary32]
  have hb9 := birth_ieee_ge h0 h1
  have hb1 := (birth_ieee_mem_unit avg).2
  have hdl := denominator_ieee_le h0 h1
  have hdg := denominator_ieee_ge avg
  have hs : 1 / 2 + 1 / 2 ^ 22 ≤ sValue (ieeeArith Real.exp) avg c := by
    rw [sValue_ieee]
    apply invOnePlusExp_of_le_small
    generalize birth (ieeeArith Real.exp) avg = b at hfix hb9 hb1 hdg hlt ⊢
    generalize denominator (ieeeArith Real.exp) avg = den at hdl hdg ⊢
    obtain ⟨e, he1, he2, he3⟩ := exists_binade hb9
    have hgap := binary32_gap hc hfix hc0 hlt he1 he2 he3
    have hg : 0 < b - c := by linarith
    have hx1 := abs_le.mp (binary32_rel (x := c - b) (by
      rw [abs_of_neg (by linarith)]
      norm_num at hgap hb9 ⊢
      linarith))
    rw [abs_of_neg (by linarith)] at hx1
    generalize binary32 (c - b) = x1 at hx1 ⊢
    have hx1neg : x1 < 0 := by norm_num at hx1; linarith
    have hx2 := abs_le.mp (binary32_rel (x := -20 * x1) (by
      rw [abs_of_pos (by linarith)]
      norm_num at hgap hb9 hx1 ⊢
      linarith))
    rw [abs_of_pos (by linarith)] at hx2
    generalize binary32 (-20 * x1) = x2 at hx2 ⊢
    have hden : den < 0 := lt_of_le_of_lt hdl (by norm_num)
    have hq : x2 / den ≤ -(19 / 2 ^ 24) := by
      rw [div_le_iff_of_neg hden]
      norm_num at hx1 hx2 hgap ⊢
      nlinarith
    have e19 : binary64 (-(19 / 2 ^ 24) : ℝ) = -(19 / 2 ^ 24) := by
      have e := binary64_dyadic (α := ℝ) 19 24 (by norm_num) (by norm_num)
      rw [show ((19 : Int) : ℝ) = 19 by norm_num] at e
      rw [binary64_neg, e]
    have := binary64_mono hq
    rwa [e19] at this
  have hδ := increment_ge hs
  rw [unclampedNext_ieee]
  generalize binary32 (binary32 0.1 * binary32 (binary32
    (2 * sValue (ieeeArith Real.exp) avg c) - 1)) = δ at hδ ⊢
  rcases le_or_lt (c + δ) 1 with h | h
  · have hd := abs_le.mp (binary32_dist_one (x := c + δ) (by
      rw [abs_of_nonneg (by norm_num at hδ; linarith)]; exact h))
    norm_num at hd hδ ⊢
    linarith
  · have := binary32_mono (le_of_lt h)
    rw [binary32_one] at this
    linarith

/-- In the program's arithmetic a `float` cell above `birth` and at most 1,
with a neighbourhood mean in `[0, 1]`, is lowered by the unclamped update. -/
theorem unclampedNext_ieee_lt {avg c : ℝ} (h0 : 0 ≤ avg) (h1 : avg ≤ 1)
    (hc : binary32 c = c) (hc1 : c ≤ 1) (hgt : birth (ieeeArith Real.exp) avg < c) :
    unclampedNext (ieeeArith Real.exp) avg c < c := by
  have hfix : binary32 (birth (ieeeArith Real.exp) avg) = birth (ieeeArith Real.exp) avg := by
    rw [birth_ieee, binary32_binary32]
  have hb9 := birth_ieee_ge h0 h1
  have hdl := denominator_ieee_le h0 h1
  have hdg := denominator_ieee_ge avg
  have hsu := sValue_ieee_mem_unit avg c
  have hs : sValue (ieeeArith Real.exp) avg c ≤ 1 / 2 - 1 / 2 ^ 22 := by
    rw [sValue_ieee]
    apply invOnePlusExp_of_ge_small
    generalize birth (ieeeArith Real.exp) avg = b at hfix hb9 hdg hgt ⊢
    generalize denominator (ieeeArith Real.exp) avg = den at hdl hdg ⊢
    have hb0 : 0 ≤ b := le_trans (by norm_num) hb9
    obtain ⟨e, he1, he2, he3⟩ := exists_binade (le_trans hb9 (le_of_lt hgt))
    have hgap := binary32_gap hfix hc hb0 hgt he1 he2 he3
    have hg : 0 < c - b := by linarith
    have hx1 := abs_le.mp (binary32_rel (x := c - b) (by
      rw [abs_of_pos hg]
      norm_num at hgap hb9 ⊢
      linarith))
    rw [abs_of_pos hg] at hx1
    generalize binary32 (c - b) = x1 at hx1 ⊢
    have hx1pos : 0 < x1 := by norm_num at hx1; linarith
    have hx2 := abs_le.mp (binary32_rel (x := -20 * x1) (by
      rw [abs_of_neg (by linarith)]
      norm_num at hgap hb9 hx1 ⊢
      linarith))
    rw [abs_of_neg (by linarith)] at hx2
    generalize binary32 (-20 * x1) = x2 at hx2 ⊢
    have hden : den < 0 := lt_of_le_of_lt hdl (by norm_num)
    have hq : 19 / 2 ^ 24 ≤ x2 / den := by
      rw [le_div_iff_of_neg hden]
      norm_num at hx1 hx2 hgap ⊢
      nlinarith
    have e19 : binary64 (19 / 2 ^ 24 : ℝ) = 19 / 2 ^ 24 := by
      have e := binary64_dyadic (α := ℝ) 19 24 (by norm_num) (by norm_num)
      rwa [show ((19 : Int) : ℝ) = 19 by norm_num] at e
    have := binary64_mono hq
    rwa [e19] at this
  have hδ := increment_le hs
  have hδ0 := (increment_bounds hsu.1 hsu.2).1
  rw [unclampedNext_ieee]
  generalize binary32 (binary32 0.1 * binary32 (binary32
    (2 * sValue (ieeeArith Real.exp) avg c) - 1)) = δ at hδ hδ0 ⊢
  have hb0 : 0 ≤ birth (ieeeArith Real.exp) avg := (birth_ieee_mem_unit avg).1
  have hd := abs_le.mp (binary32_dist_one (x := c + δ) (by
    rw [abs_le, tenthF] at *
    constructor <;> norm_num at hδ hδ0 ⊢ <;> linarith))
  norm_num at hd hδ ⊢
  linarith

/-- In the program's arithmetic, for a neighbourhood mean in `[0, 1]` and a
`float` cell value in `[0, 1]`, the sign of the unclamped update is the sign of
`birth - current`. -/
theorem unclampedNext_ieee_sign {avg c : ℝ} (h0 : 0 ≤ avg) (h1 : avg ≤ 1)
    (hc : binary32 c = c) (hc0 : 0 ≤ c) (hc1 : c ≤ 1) :
    (c < unclampedNext (ieeeArith Real.exp) avg c ↔ c < birth (ieeeArith Real.exp) avg) ∧
    (unclampedNext (ieeeArith Real.exp) avg c < c ↔ birth (ieeeArith Real.exp) avg < c) ∧
    (unclampedNext (ieeeArith Real.exp) avg c = c ↔ c = birth (ieeeArith Real.exp) avg) := by
  have hdi := denominator_neg_of (Or.inl rfl) h0 h1
  have hgt := fun h => unclampedNext_ieee_gt h0 h1 hc hc0 h
  have hlt := fun h => unclampedNext_ieee_lt h0 h1 hc hc1 h
  have heq : c = birth (ieeeArith Real.exp) avg →
      unclampedNext (ieeeArith Real.exp) avg c = c := fun h =>
    le_antisymm (unclampedNext_ieee_le hdi hc (le_of_eq h.symm))
      (unclampedNext_ieee_ge hdi hc (le_of_eq h))
  refine ⟨⟨fun h => ?_, hgt⟩, ⟨fun h => ?_, hlt⟩, ⟨fun h => ?_, heq⟩⟩
  · rcases lt_trichotomy c (birth (ieeeArith Real.exp) avg) with h2 | h2 | h2
    · exact h2
    · rw [heq h2] at h; exact absurd h (lt_irrefl _)
    · exact absurd (lt_trans h (hlt h2)) (lt_irrefl _)
  · rcases lt_trichotomy c (birth (ieeeArith Real.exp) avg) with h2 | h2 | h2
    · exact absurd (lt_trans h (hgt h2)) (lt_irrefl _)
    · rw [heq h2] at h; exact absurd h (lt_irrefl _)
    · exact h2
  · rcases lt_trichotomy c (birth (ieeeArith Real.exp) avg) with h2 | h2 | h2
    · have := hgt h2; rw [h] at this; exact absurd this (lt_irrefl _)
    · exact h2
    · have := hlt h2; rw [h] at this; exact absurd this (lt_irrefl _)

/-- C15. Direction of change, when the neighbourhood mean lies in `[0, 1]`.
In exact real arithmetic the divisor `death - birth + 1e-6` is strictly
negative, and the unclamped update rises exactly when the cell's value is below
`birth`, falls exactly when it is above, and is unchanged exactly when it is
equal; and a frame on `W × H` buffers with values in `[0, 1]` gives every cell
that held 0 a strictly positive value.  The same holds in the program's
binary32/binary64 arithmetic, with the program's rounded `birth` and for every
`float` cell value in `[0, 1]`. -/
theorem direction_of_change (avg c : ℝ) (h0 : 0 ≤ avg) (h1 : avg ≤ 1) :
    (denominator (exactArith Real.exp) avg < 0 ∧
    (c < unclampedNext (exactArith Real.exp) avg c ↔ c < birth (exactArith Real.exp) avg) ∧
    (unclampedNext (exactArith Real.exp) avg c < c ↔ birth (exactArith Real.exp) avg < c) ∧
    (unclampedNext (exactArith Real.exp) avg c = c ↔ c = birth (exactArith Real.exp) avg) ∧
    ∀ (W H : Nat) (a : CAAnimator ℝ), Shape W H a.cells → Shape W H a.nextCells →
      InUnit a.cells →
      ∃ b, DoFrame W H (exactArith Real.exp) a = some b ∧
        ∀ x y : Nat, x < W → y < H → readCell a.cells (x : Int) (y : Int) = some 0 →
          ∃ v, readCell b.cells (x : Int) (y : Int) = some v ∧ 0 < v) ∧
    (denominator (ieeeArith Real.exp) avg < 0 ∧
    (binary32 c = c → 0 ≤ c → c ≤ 1 →
      (c < unclampedNext (ieeeArith Real.exp) avg c ↔ c < birth (ieeeArith Real.exp) avg) ∧
      (unclampedNext (ieeeArith Real.exp) avg c < c ↔ birth (ieeeArith Real.exp) avg < c) ∧
      (unclampedNext (ieeeArith Real.exp) avg c = c ↔ c = birth (ieeeArith Real.exp) avg)) ∧
    ∀ (W H : Nat) (a : CAAnimator ℝ), Shape W H a.cells → Shape W H a.nextCells →
      InUnit a.cells →
      ∃ b, DoFrame W H (ieeeArith Real.exp) a = some b ∧
        ∀ x y : Nat, x < W → y < H → readCell a.cells (x : Int) (y : Int) = some 0 →
          ∃ v, readCell b.cells (x : Int) (y : Int) = some v ∧ 0 < v) := by
  have hd := denominator_neg h0 h1
  have hs := unclampedNext_sign avg c
  have he := exponent_sign hd c
  refine ⟨⟨hd, hs.1.trans he.1, hs.2.1.trans he.2.1, hs.2.2.trans he.2.2, ?_⟩,
    denominator_neg_of (Or.inl rfl) h0 h1,
    fun hc hc0 hc1 => unclampedNext_ieee_sign h0 h1 hc hc0 hc1, ?_⟩
  · intro W H a hc hn hu
    exact frame_zero_pos (Or.inr rfl) W H a hc hn hu
  · intro W H a hc hn hu
    exact frame_zero_pos (Or.inl rfl) W H a hc hn hu

theorem direction_of_change_witness :
    (0 : ℝ) ≤ 0 ∧ (0 : ℝ) ≤ 1 ∧
    ((denominator (exactArith Real.exp) 0 < 0 ∧
    ((0 : ℝ) < unclampedNext (exactArith Real.exp) 0 0 ↔ 0 < birth (exactArith Real.exp) 0) ∧
    (unclampedNext (exactArith Real.exp) 0 0 < 0 ↔ birth (exactArith Real.exp) 0 < 0) ∧
    (unclampedNext (exactArith Real.exp) 0 0 = 0 ↔ 0 = birth (exactArith Real.exp) 0) ∧
    ∀ (W H : Nat) (a : CAAnimator ℝ), Shape W H a.cells → Shape W H a.nextCells →
      InUnit a.cells →
      ∃ b, DoFrame W H (exactArith Real.exp) a = some b ∧
        ∀ x y : Nat, x < W → y < H → readCell a.cells (x : Int) (y : Int) = some 0 →
          ∃ v, readCell b.cells (x : Int) (y : Int) = some v ∧ 0 < v) ∧
    (denominator (ieeeArith Real.exp) 0 < 0 ∧
    (binary32 (0 : ℝ) = 0 → (0 : ℝ) ≤ 0 → (0 : ℝ) ≤ 1 →
      ((0 : ℝ) < unclampedNext (ieeeArith Real.exp) 0 0 ↔ 0 < birth (ieeeArith Real.exp) 0) ∧
      (unclampedNext (ieeeArith Real.exp) 0 0 < 0 ↔ birth (ieeeArith Real.exp) 0 < 0) ∧
      (unclampedNext (ieeeArith Real.exp) 0 0 = 0 ↔ 0 = birth (ieeeArith Real.exp) 0)) ∧
    ∀ (W H : Nat) (a : CAAnimator ℝ), Shape W H a.cells → Shape W H a.nextCells →
      InUnit a.cells →
      ∃ b, DoFrame W H (ieeeArith Real.exp) a = some b ∧
        ∀ x y : Nat, x < W → y < H → readCell a.cells (x : Int) (y : Int) = some 0 →
          ∃ v, readCell b.cells (x : Int) (y : Int) = some v ∧ 0 < v)) :=
  ⟨le_refl 0, zero_le_one, direction_of_change 0 0 (le_refl 0) zero_le_one⟩

end IeeeReal

end CAAnimate
